import Mathlib

/-!
# Lelantus one-out-of-many proof verifier (`SigmaPlusVerifier`)

A shallow embedding of `src/liblelantus/sigmaplus_verifier.hpp`.

* `Exponent` is a commutative ring `F` (a field where cancellation is needed) and
  `GroupElement` an additive commutative group `G` with scalar action `a • P`
  (the source writes `P * a`).
* A C++ `std::vector` is a `List`.  An `operator[]` read is `xs[i]?`; a read outside the
  vector is undefined behaviour in the source and makes the embedded function return
  `none`.  `some b` is the verdict `b` returned by the source.
* Loop counters are natural numbers: the embedding is exact while the sizes involved
  fit the `int` counters of the source.
* The weights `y[t].randomize()` drawn inside `batchverify` are an explicit argument
  `y : Nat → F` (`y t` is the weight drawn for proof `t`).

The namespace `Exodus` further down embeds `Wallet::GetSpendableSigmaMint` of
`src/exodus/wallet.cpp`.
-/

namespace Lelantus

/-- The proof record `SigmaPlusProof<Exponent, GroupElement>`. -/
structure SigmaPlusProof (F G : Type) where
  A_ : G
  B_ : G
  C_ : G
  D_ : G
  f_ : List F
  Gk_ : List G
  Qk : List G
  ZA_ : F
  ZC_ : F
  zV_ : F
  zR_ : F

/-- The primitives the verifier calls whose code is outside the verifier file: the membership
tests of the group and scalar types and the static helpers of `LelantusPrimitives`.  They are
parameters of the embedding. -/
structure Primitives (F G : Type) where
  /-- `GroupElement::isMember` -/
  isMember : G → Bool
  /-- `GroupElement::isInfinity` -/
  isInfinity : G → Bool
  /-- `Scalar::isMember` -/
  isMemberScalar : F → Bool
  /-- `LelantusPrimitives::convert_to_nal(num, n, m)` -/
  convert_to_nal : Nat → Nat → Nat → List Nat
  /-- `LelantusPrimitives::generate_challenge(group_elements, x)`, returning `x` -/
  generate_challenge : List G → F
  /-- `LelantusPrimitives::commit(g, h, exp, r, result)`, returning `result` -/
  commit : G → List G → List F → F → G
  /-- `LelantusPrimitives::double_commit(g, m, hV, v, hR, r)` -/
  double_commit : G → F → G → F → G → F → G

/-- The configuration held by a `SigmaPlusVerifier`: `g_`, `h_`, `n`, `m`. -/
structure SigmaPlusVerifier (F G : Type) where
  g_ : G
  h_ : List G
  n : Nat
  m : Nat

section Defs

variable {F G : Type} [CommRing F] [DecidableEq F] [AddCommGroup G] [Module F G] [DecidableEq G]

/-- The loop `for (i = start; i < start + cnt; ++i) body`, threading a state and stopping
with `none` as soon as the body does. -/
def forLoop {σ : Type} (body : Nat → σ → Option σ) : Nat → Nat → σ → Option σ
  | _, 0, s => some s
  | i, cnt + 1, s => (body i s).bind (forLoop body (i + 1) cnt)

/-- `Scalar::isZero`. -/
def isZero (a : F) : Bool := decide (a = 0)

/-- Modelled from the spec: `secp_primitives::MultiExponent(generators, powers).get_multiple()`,
the multi-scalar-multiplication primitive of section 6, which combines a list of group elements
with a list of coefficients into the single element `Σ powers[i] * generators[i]`. -/
def get_multiple (generators : List G) (powers : List F) : G :=
  (List.zipWith (fun c a => a • c) generators powers).sum

/-- The loop over `k < m` of `membership_checks` (lines 212-216), from index `k` for `cnt`
rounds.  `Gk[k].isMember() && Qk[k].isMember()` reads `Qk[k]` only when the first test holds. -/
def membership_GkQk (P : Primitives F G) (Gk Qk : List G) : Nat → Nat → Option Bool
  | _, 0 => some true
  | k, cnt + 1 =>
    match Gk[k]? with
    | none => none
    | some gk =>
      if P.isMember gk then
        match Qk[k]? with
        | none => none
        | some qk =>
          if P.isMember qk then membership_GkQk P Gk Qk (k + 1) cnt else some false
      else some false

/-- `SigmaPlusVerifier::membership_checks` (lines 193-227). -/
def membership_checks (P : Primitives F G) (V : SigmaPlusVerifier F G)
    (proof : SigmaPlusProof F G) : Option Bool :=
  if (!(P.isMember proof.A_ && P.isMember proof.B_ && P.isMember proof.C_ &&
        P.isMember proof.D_) ||
      (P.isInfinity proof.A_ || P.isInfinity proof.B_ || P.isInfinity proof.C_ ||
        P.isInfinity proof.D_)) = true then some false
  else if proof.f_.any (fun a => !P.isMemberScalar a || isZero a) = true then some false
  else
    match membership_GkQk P proof.Gk_ proof.Qk 0 V.m with
    | none => none
    | some false => some false
    | some true =>
      if (!(P.isMemberScalar proof.ZA_ && P.isMemberScalar proof.ZC_ &&
            P.isMemberScalar proof.zV_ && P.isMemberScalar proof.zR_) ||
          (isZero proof.ZA_ || isZero proof.ZC_ || isZero proof.zV_ || isZero proof.zR_)) = true
      then some false
      else some true

/-- The body of the loop over `i < k` in `compute_fs` (lines 245-249); the state is
`(temp, f_)`. -/
def compute_fs_inner (pf : List F) (j k : Nat) (i : Nat) (st : F × List F) :
    Option (F × List F) :=
  match pf[j * k + i]? with
  | none => none
  | some a => some (st.1 + a, st.2 ++ [a])

/-- The body of the loop over `j < m` in `compute_fs` (lines 240-251); the state is `f_`. -/
def compute_fs_row (n : Nat) (pf : List F) (x : F) (j : Nat) (f_ : List F) : Option (List F) :=
  let k := n - 1
  match forLoop (compute_fs_inner pf j k) 0 k (0, f_ ++ [0]) with
  | none => none
  | some st => if j * n < st.2.length then some (st.2.set (j * n) (x - st.1)) else none

/-- `SigmaPlusVerifier::compute_fs` (lines 229-253): the returned boolean and the final
content of the output vector `f_`, which the caller passes in. -/
def compute_fs (V : SigmaPlusVerifier F G) (proof : SigmaPlusProof F G) (x : F)
    (f_ : List F) : Option (Bool × List F) :=
  if proof.f_.any (fun a => decide (a = x)) = true then some (false, f_)
  else
    match forLoop (compute_fs_row V.n proof.f_ x) 0 V.m f_ with
    | none => none
    | some out => some (true, out)

/-- `SigmaPlusVerifier::abcd_checks` (lines 255-270). -/
def abcd_checks (P : Primitives F G) (V : SigmaPlusVerifier F G) (proof : SigmaPlusProof F G)
    (x : F) (f_ : List F) : Bool :=
  let f_plus_f_prime := f_.map (fun a => a + a * (x - a))
  let right := P.commit V.g_ V.h_ f_plus_f_prime (proof.ZA_ + proof.ZC_)
  if x • proof.B_ + proof.A_ + x • proof.C_ + proof.D_ ≠ right then false else true

/-- The body `f_i *= f_[j*n + I[j]]` of the loop over `j < m` (lines 50 and 122). -/
def compute_f_i_step (V : SigmaPlusVerifier F G) (f_ : List F) (I : List Nat) (j : Nat)
    (f_i : F) : Option F :=
  match I[j]? with
  | none => none
  | some d =>
    match f_[j * V.n + d]? with
    | none => none
    | some v => some (f_i * v)

/-- The loop `f_i = 1; for (j < m) f_i *= f_[j*n + I[j]]` that `verify` (lines 47-51) and
`batchverify` (lines 119-123) both run for one index with digit vector `I`. -/
def compute_f_i (V : SigmaPlusVerifier F G) (f_ : List F) (I : List Nat) : Option F :=
  forLoop (compute_f_i_step V f_ I) 0 V.m 1

/-- The body `t2 += (Gk[k] + Qk[k]) * x_k.negate(); x_k *= x` of the loop over `k < m` (lines
64-65 and 179-180); the state is `(t2, x_k)`. -/
def fold_GkQk_step (x : F) (Gk Qk : List G) (k : Nat) (st : G × F) : Option (G × F) :=
  match Gk[k]?, Qk[k]? with
  | some gk, some qk => some (st.1 + (-st.2) • (gk + qk), st.2 * x)
  | _, _ => none

/-- The loop over `k < m` folding `Gk`, `Qk` against the powers of `x` (lines 60-66 and
175-181); the result is `t2`. -/
def fold_GkQk (V : SigmaPlusVerifier F G) (x : F) (Gk Qk : List G) : Option G :=
  match forLoop (fold_GkQk_step x Gk Qk) 0 V.m (0, 1) with
  | none => none
  | some st => some st.1

/-- The body of the loop over `i < N` of `verify` (lines 44-53); the state is `f_i_`. -/
def verify_coefficient_step (P : Primitives F G) (V : SigmaPlusVerifier F G) (f_ : List F)
    (i : Nat) (f_i_ : List F) : Option (List F) :=
  match compute_f_i V f_ (P.convert_to_nal i V.n V.m) with
  | none => none
  | some f_i => some (f_i_ ++ [f_i])

/-- `SigmaPlusVerifier::verify(commits, x, proof)` (lines 27-73). -/
def verify (P : Primitives F G) (V : SigmaPlusVerifier F G) (commits : List G) (x : F)
    (proof : SigmaPlusProof F G) : Option Bool :=
  match membership_checks P V proof with
  | none => none
  | some false => some false
  | some true =>
    match compute_fs V proof x [] with
    | none => none
    | some (_, f_) =>
      if abcd_checks P V proof x f_ = false then some false
      else
        match forLoop (verify_coefficient_step P V f_) 0 commits.length [] with
        | none => none
        | some f_i_ =>
          let t1 := get_multiple commits f_i_
          match fold_GkQk V x proof.Gk_ proof.Qk with
          | none => none
          | some t2 =>
            match V.h_[0]?, V.h_[1]? with
            | some h0, some h1 =>
              if t1 + t2 ≠ P.double_commit V.g_ 0 h0 proof.zV_ h1 proof.zR_ then some false
              else some true
            | _, _ => none

/-- `SigmaPlusVerifier::verify(commits, proof)` (lines 15-25). -/
def verify_fs (P : Primitives F G) (V : SigmaPlusVerifier F G) (commits : List G)
    (proof : SigmaPlusProof F G) : Option Bool :=
  let group_elements := [proof.A_, proof.B_, proof.C_, proof.D_] ++ proof.Gk_ ++ proof.Qk
  let x := P.generate_challenge group_elements
  verify P V commits x proof

/-- The first loop of `batchverify` (lines 87-89). -/
def batch_membership (P : Primitives F G) (V : SigmaPlusVerifier F G) :
    List (SigmaPlusProof F G) → Option Bool
  | [] => some true
  | p :: ps =>
    match membership_checks P V p with
    | none => none
    | some false => some false
    | some true => batch_membership P V ps

/-- The second loop of `batchverify` (lines 90-96): `(false, _)` when it returns false, else
`(true, f_)` with the tables `f_[t]`. -/
def batch_compute_fs (P : Primitives F G) (V : SigmaPlusVerifier F G) (x : F) :
    List (SigmaPlusProof F G) → Option (Bool × List (List F))
  | [] => some (true, [])
  | p :: ps =>
    match compute_fs V p x [] with
    | none => none
    | some (false, _) => some (false, [])
    | some (true, ft) =>
      if abcd_checks P V p x ft = false then some (false, [])
      else
        match batch_compute_fs P V x ps with
        | none => none
        | some r => some (r.1, ft :: r.2)

/-- The body of the loop `for (j = m - 1; j >= 0; j--)` (lines 146-149) in its round `t`, where
`j = m - 1 - t`; the state is `(pow, f_part_product)`. -/
def pow_product_step (V : SigmaPlusVerifier F G) (ft : List F) (I : List Nat) (t : Nat)
    (st : F × List F) : Option (F × List F) :=
  let j := V.m - 1 - t
  match I[j]? with
  | none => none
  | some d =>
    match ft[j * V.n + d]? with
    | none => none
    | some v => some (st.1 * v, st.2 ++ [st.1])

/-- The body `fi_sum += f_[t][j*n + i]` of the loop over `i` (lines 154-155). -/
def fi_sum_step (V : SigmaPlusVerifier F G) (ft : List F) (j i : Nat) (fi_sum : F) : Option F :=
  match ft[j * V.n + i]? with
  | none => none
  | some v => some (fi_sum + v)

/-- The body of the loop over `j < m` (lines 152-158); the state is `(pow, xj)`. -/
def pow_sum_step (V : SigmaPlusVerifier F G) (x : F) (ft : List F) (I : List Nat)
    (f_part_product : List F) (j : Nat) (st : F × F) : Option (F × F) :=
  match I[j]? with
  | none => none
  | some d =>
    match forLoop (fi_sum_step V ft j) (d + 1) (V.n - (d + 1)) 0 with
    | none => none
    | some fi_sum =>
      match f_part_product[V.m - j - 1]? with
      | none => none
      | some fp => some (st.1 + fi_sum * st.2 * fp, st.2 * x)

/-- The last-index block of `batchverify` (lines 144-158) for one proof with table `ft` and the
digit vector `I = I_[N-1]`; the result is the final value of `pow`. -/
def last_index_pow (V : SigmaPlusVerifier F G) (x : F) (ft : List F) (I : List Nat) :
    Option F :=
  match forLoop (pow_product_step V ft I) 0 V.m (1, []) with
  | none => none
  | some st1 =>
    match forLoop (pow_sum_step V x ft I st1.2) 0 V.m (st1.1, 1) with
    | none => none
    | some st => some st.1

/-- The body of the loop over `i < N - 1` of `batchverify` (lines 118-126); the state is
`(e, f_i_t)`. -/
def batch_coefficient_step (V : SigmaPlusVerifier F G) (yt : F) (ft : List F)
    (I_ : List (List Nat)) (i : Nat) (s : F × List F) : Option (F × List F) :=
  match I_[i]? with
  | none => none
  | some I =>
    match compute_f_i V ft I with
    | none => none
    | some f_i =>
      match s.2[i]? with
      | none => none
      | some old => some (s.1 + f_i, s.2.set i (old + f_i * yt))

/-- The loop over `i < N - 1` of `batchverify` (lines 117-127) for one proof; the state is
`(e, f_i_t)`. -/
def batch_coefficients (V : SigmaPlusVerifier F G) (yt : F) (ft : List F)
    (I_ : List (List Nat)) (N : Nat) (f_i_t : List F) : Option (F × List F) :=
  forLoop (batch_coefficient_step V yt ft I_) 0 (N - 1) (0, f_i_t)

/-- One round of the main loop of `batchverify` (lines 113-165) for proof `t`; the state is
`(right, exp, f_i_t)`. -/
def batch_step (P : Primitives F G) (V : SigmaPlusVerifier F G) (y : Nat → F) (x : F)
    (serials : List F) (I_ : List (List Nat)) (N : Nat) (t : Nat) (p : SigmaPlusProof F G)
    (ft : List F) (st : G × F × List F) : Option (G × F × List F) :=
  match V.h_[0]?, V.h_[1]? with
  | some h0, some h1 =>
    let right := st.1 + (y t) • P.double_commit V.g_ 0 h0 p.zV_ h1 p.zR_
    match batch_coefficients V (y t) ft I_ N st.2.2 with
    | none => none
    | some (e, f_i_t) =>
      match I_[N - 1]? with
      | none => none
      | some Ilast =>
        match last_index_pow V x ft Ilast with
        | none => none
        | some pow =>
          match f_i_t[N - 1]? with
          | none => none
          | some old =>
            match serials[t]? with
            | none => none
            | some s =>
              some (right, st.2.1 + (e + pow) * (s * y t), f_i_t.set (N - 1) (old + pow * y t))
  | _, _ => none

/-- The main loop of `batchverify` over the proofs `t, t+1, ...` paired with their tables. -/
def batch_main (P : Primitives F G) (V : SigmaPlusVerifier F G) (y : Nat → F) (x : F)
    (serials : List F) (I_ : List (List Nat)) (N : Nat) :
    Nat → List (SigmaPlusProof F G × List F) → G × F × List F → Option (G × F × List F)
  | _, [], st => some st
  | t, (p, ft) :: rest, st =>
    match batch_step P V y x serials I_ N t p ft st with
    | none => none
    | some st1 => batch_main P V y x serials I_ N (t + 1) rest st1

/-- The loop of `batchverify` accumulating `t2` (lines 170-184) over the proofs
`t, t+1, ...`. -/
def batch_t2 (V : SigmaPlusVerifier F G) (y : Nat → F) (x : F) :
    Nat → List (SigmaPlusProof F G) → G → Option G
  | _, [], t2 => some t2
  | t, p :: ps, t2 =>
    match fold_GkQk V x p.Gk_ p.Qk with
    | none => none
    | some term => batch_t2 V y x (t + 1) ps (t2 + y t • term)

/-- `SigmaPlusVerifier::batchverify` (lines 75-191), with the weights `y` it draws. -/
def batchverify (P : Primitives F G) (V : SigmaPlusVerifier F G) (y : Nat → F)
    (commits : List G) (x : F) (serials : List F) (proofs : List (SigmaPlusProof F G)) :
    Option Bool :=
  let N := commits.length
  if commits.isEmpty = true then some false
  else
    match batch_membership P V proofs with
    | none => none
    | some false => some false
    | some true =>
      match batch_compute_fs P V x proofs with
      | none => none
      | some (false, _) => some false
      | some (true, f_) =>
        let I_ := (List.range N).map (fun i => P.convert_to_nal i V.n V.m)
        match batch_main P V y x serials I_ N 0 (proofs.zip f_) (0, 0, List.replicate N 0) with
        | none => none
        | some (right, exp, f_i_t) =>
          let t1 := get_multiple commits f_i_t
          match batch_t2 V y x 0 proofs 0 with
          | none => none
          | some t2 =>
            if t1 + t2 ≠ right + exp • V.g_ then some false else some true

/-- Modelled from the spec: `LelantusPrimitives::convert_to_nal`, the digit decomposition of
section 4.1, which expresses the index `num` in base `n` with exactly `m` digits; the fixed
convention taken here is least-significant digit first.  The spec defines it for
`num < n ^ m` only, and it is used on that range only. -/
def convert_to_nal (num n m : Nat) : List Nat :=
  (List.range m).map (fun j => num / n ^ j % n)

/-- Modelled from the spec: `LelantusPrimitives::commit`, the Pedersen-style commitment of
section 4.3 step 5 to a vector `exp` under the generators `h`, with blinding `r` on `g`. -/
def commit (g : G) (h : List G) (exp : List F) (r : F) : G :=
  r • g + get_multiple h exp

/-- Modelled from the spec: `LelantusPrimitives::double_commit`, the double Pedersen
commitment of section 4.3 step 6 to `m` under the base `g`, `v` under `hV` and `r` under
`hR`. -/
def double_commit (g : G) (m : F) (hV : G) (v : F) (hR : G) (r : F) : G :=
  m • g + v • hV + r • hR

end Defs

section ClosedForms

variable {F : Type} [CommRing F]

/-- Row `j` of the response table in closed form: `x` minus the sum of the `n - 1` stored
responses of digit position `j`, followed by these responses. -/
def fs_row (n : Nat) (pf : List F) (x : F) (j : Nat) : List F :=
  (x - ((pf.drop (j * (n - 1))).take (n - 1)).sum) :: (pf.drop (j * (n - 1))).take (n - 1)

/-- The first `m` rows of the response table in closed form. -/
def fs_table (n : Nat) (pf : List F) (x : F) : Nat → List F
  | 0 => []
  | j + 1 => fs_table n pf x j ++ fs_row n pf x j

end ClosedForms

section Shape

variable {F G : Type}

/-- The length invariants of section 3 for a proof: `len(f) = m*(n-1)`, read over the
integers, and `len(Gk) = len(Qk) = m`. -/
def well_shaped (V : SigmaPlusVerifier F G) (p : SigmaPlusProof F G) : Prop :=
  (p.f_.length : Int) = (V.m : Int) * ((V.n : Int) - 1) ∧
    p.Gk_.length = V.m ∧ p.Qk.length = V.m

end Shape

section Coefficients

variable {F : Type} [CommRing F]

/-- The coefficient of section 4.3 step 6 in closed form: `∏_{j<m} f_[j*n + I[j]]` for the
table `f_` and the digit vector `I`. -/
def coefficient (n m : Nat) (f_ : List F) (I : List Nat) : F :=
  Finset.prod (Finset.range m) (fun j => f_.getD (j * n + I.getD j 0) 0)

end Coefficients

section Digits

variable {R : Type} [CommRing R]

/-- The product `∏_{j<m} f j (i_j)` over the base-`n` digits `i_j = i / n^j % n` of `i`, least
significant first, for a table given as a function of the row `j` and the column. -/
def digit_product (n : Nat) (f : Nat → Nat → R) (m i : Nat) : R :=
  Finset.prod (Finset.range m) (fun j => f j (i / n ^ j % n))

end Digits

section BatchCoefficients

variable {F : Type} [CommRing F]

/-- The unweighted coefficient `batchverify` accumulates for the commitment `i` of a list of
length `N`: the coefficient `cf i` of section 4.3 step 6 for `i < N - 1`, and the value `pw` of
`pow` after the last-index block for the last one. -/
def batch_coefficient (cf : Nat → F) (pw : F) (N i : Nat) : F :=
  if i + 1 < N then cf i else pw

end BatchCoefficients

section Padding

variable {F G : Type} [CommRing F] [AddCommGroup G] [Module F G]

/-- The commitment list padded to `n^m` entries by repeating its last element, every entry
shifted by `g * (-s)`: entry `i` is `commits[min(i, N-1)] + g * (-s)`. -/
def padded_commits (V : SigmaPlusVerifier F G) (commits : List G) (s : F) : List G :=
  (List.range (V.n ^ V.m)).map
    (fun i => commits.getD (min i (commits.length - 1)) 0 + (-s) • V.g_)

end Padding

/-! ## A small concrete instance

Scalars and group elements are both the integers modulo 7 (the group is written additively,
its identity is `0`); every value is accepted as a member. -/

/-- Primitives of the small instance. -/
def exPrims : Primitives (ZMod 7) (ZMod 7) where
  isMember := fun _ => true
  isInfinity := fun a => decide (a = 0)
  isMemberScalar := fun _ => true
  convert_to_nal := convert_to_nal
  generate_challenge := fun l => l.sum + 1
  commit := commit
  double_commit := double_commit

/-- Verifier with `g = 1`, `h = (2, 3)`, `n = 2`, `m = 1`. -/
def exV1 : SigmaPlusVerifier (ZMod 7) (ZMod 7) := ⟨1, [2, 3], 2, 1⟩

/-- Verifier with `g = 1`, `h = (2, 3)`, `n = 2`, `m = 2`. -/
def exV2 : SigmaPlusVerifier (ZMod 7) (ZMod 7) := ⟨1, [2, 3], 2, 2⟩

/-- A proof for `exV2` with `f = (2, 5)`; the arguments are `D`, `zV`, `Gk[0]`. -/
def exProof (D zV gk0 : ZMod 7) : SigmaPlusProof (ZMod 7) (ZMod 7) :=
  { A_ := 1, B_ := 2, C_ := 3, D_ := D, f_ := [2, 5], Gk_ := [gk0, 2], Qk := [3, 1],
    ZA_ := 1, ZC_ := 2, zV_ := zV, zR_ := 1 }

/-- A proof for `exV1` whose only digit response equals the challenge `3`. -/
def exProofDegenerate : SigmaPlusProof (ZMod 7) (ZMod 7) :=
  { A_ := 1, B_ := 2, C_ := 3, D_ := 1, f_ := [3], Gk_ := [1], Qk := [3],
    ZA_ := 1, ZC_ := 2, zV_ := 4, zR_ := 3 }

/-- The proof `exProof 5 4 1` with one more element in `Gk` and `f` and two more in `Qk`. -/
def exProofLong : SigmaPlusProof (ZMod 7) (ZMod 7) :=
  { exProof 5 4 1 with f_ := [2, 5, 1], Gk_ := [1, 2, 6], Qk := [3, 1, 5, 5] }

/-- The proof `exProof 5 4 1` with `ZA = 0` and an empty `Gk`. -/
def exProofShort : SigmaPlusProof (ZMod 7) (ZMod 7) :=
  { exProof 5 4 1 with Gk_ := [], ZA_ := 0 }

/-- The modulus 7 of the small instance is prime, so its scalars form a field. -/
instance fact_prime_seven : Fact (Nat.Prime 7) := ⟨by norm_num⟩

end Lelantus

/-! ## The Exodus wallet: choice of a spendable mint

A shallow embedding of `Wallet::GetSpendableSigmaMint` (`src/exodus/wallet.cpp`) over the
records of `src/exodus/walletmodels.h`.  The identifiers `PropertyId`, `DenominationId`,
`MintGroupId` and `MintGroupIndex` are unsigned integers that the function only compares; they
are natural numbers here.  The public key of a mint is a parameter `Key`. -/

namespace Exodus

/-- The record `SigmaMintChainState` (`walletmodels.h`, lines 25-35). -/
structure SigmaMintChainState where
  block : Int
  group : Nat
  index : Nat

/-- The record `SigmaMintId` (`walletmodels.h`, lines 57-66). -/
structure SigmaMintId (Key : Type) where
  property : Nat
  denomination : Nat
  key : Key

/-- The record `HDMint` (`walletmodels.h`, lines 83-95); the hashes `seedId`, `hashSerial` and
`spendTx` are unsigned integers. -/
structure HDMint (Key : Type) where
  id : SigmaMintId Key
  count : Int
  seedId : Nat
  hashSerial : Nat
  spendTx : Nat
  chainState : SigmaMintChainState

section Defs

variable {Key : Type}

/-- The call `std::remove_if(first, last, pred)` followed by `erase(eraseFrom, last)` of the
C++ standard library: the elements for which `pred` is false are kept, in their order. -/
def remove_if {α : Type} (pred : α → Bool) (xs : List α) : List α :=
  xs.filter (fun a => !pred a)

/-- The loop of `std::min_element`: `smallest` is replaced by a later element whenever
`comp(element, smallest)` holds. -/
def min_element_loop {α : Type} (comp : α → α → Bool) : α → List α → α
  | smallest, [] => smallest
  | smallest, a :: rest => min_element_loop comp (if comp a smallest then a else smallest) rest

/-- The algorithm `std::min_element(first, last, comp)` of the C++ standard library, returning
the element its iterator points to; `none` stands for the iterator `last` of an empty range. -/
def min_element {α : Type} (comp : α → α → Bool) : List α → Option α
  | [] => none
  | a :: rest => some (min_element_loop comp a rest)

/-- The predicate given to `std::remove_if` (`wallet.cpp`, lines 97-99). -/
def wrong_denomination (denomination : Nat) (mint : HDMint Key) : Bool :=
  decide (denomination ≠ mint.id.denomination)

/-- The comparison given to `std::min_element` (`wallet.cpp`, lines 110-117). -/
def older (a b : HDMint Key) : Bool :=
  if a.chainState.group = b.chainState.group then
    decide (a.chainState.index < b.chainState.index)
  else decide (a.chainState.group < b.chainState.group)

set_option linter.unusedVariables false in
/-- The function `Wallet::GetSpendableSigmaMint(property, denomination)` (`wallet.cpp`, lines
89-121).  The argument `ListHDMints` is the list that `mintWallet.ListHDMints(..., true, true)`
appends to `spendables`; `none` is `boost::none`. -/
def GetSpendableSigmaMint (ListHDMints : List (HDMint Key)) (property denomination : Nat) :
    Option (HDMint Key) :=
  let spendables := ListHDMints
  let spendables := remove_if (wrong_denomination denomination) spendables
  if spendables.isEmpty = true then none
  else min_element older spendables

end Defs

/-- A mint of property `p` and denomination `d` at position `(g, i)` of the chain, with key
`k`. -/
def exMint (p d k g i : Nat) : HDMint Nat :=
  { id := { property := p, denomination := d, key := k }, count := 0, seedId := 0,
    hashSerial := 0, spendTx := 0, chainState := { block := 0, group := g, index := i } }

end Exodus

namespace Lelantus

/-! ## Theorems -/

section Theorems

variable {F G : Type} [CommRing F] [DecidableEq F] [AddCommGroup G] [Module F G] [DecidableEq G]

/-- C6 (empty input handling): `batchverify` on an empty commitment list returns false, for
every challenge, every list of serials, every list of proofs and all weights. -/
theorem batchverify_empty_commits (P : Primitives F G) (V : SigmaPlusVerifier F G)
    (y : Nat → F) (x : F) (serials : List F) (proofs : List (SigmaPlusProof F G)) :
    batchverify P V y [] x serials proofs = some false := by
  simp [batchverify]

/-- C9 (Fiat-Shamir binding): the two-argument `verify` is the three-argument `verify` at the
challenge `generate_challenge ([A, B, C, D] ++ Gk ++ Qk)`. -/
theorem verify_fs_eq_verify (P : Primitives F G) (V : SigmaPlusVerifier F G)
    (commits : List G) (proof : SigmaPlusProof F G) :
    verify_fs P V commits proof =
      verify P V commits
        (P.generate_challenge
          ([proof.A_, proof.B_, proof.C_, proof.D_] ++ proof.Gk_ ++ proof.Qk)) proof := by
  rfl

/-- C2 (degenerate witness): at the empty commitment list `verify` accepts a proof whose digit
response equals the challenge, while `compute_fs` reports the degeneracy and `batchverify`
turns the same proof down. -/
theorem verify_accepts_degenerate :
    (3 : ZMod 7) ∈ exProofDegenerate.f_ ∧
    compute_fs exV1 exProofDegenerate 3 [] = some (false, []) ∧
    verify exPrims exV1 [] 3 exProofDegenerate = some true ∧
    batchverify exPrims exV1 (fun _ => 1) [5] 3 [0] [exProofDegenerate] = some false := by
  decide

/-- C4 (non-membership): `membership_checks` and `verify` accept a proof whose `Gk[0]` is the
group identity (`isInfinity` holds for it). -/
theorem verify_accepts_identity_Gk :
    (exProof 5 1 0).Gk_[0]? = some 0 ∧ exPrims.isInfinity 0 = true ∧
    membership_checks exPrims exV2 (exProof 5 1 0) = some true ∧
    verify exPrims exV2 [1, 2, 3, 4] 3 (exProof 5 1 0) = some true := by
  decide

end Theorems

/-! ### Loops -/

section Loops

variable {F G : Type}

theorem forLoop_succ_last {σ : Type} (body : Nat → σ → Option σ) (i cnt : Nat) (s : σ) :
    forLoop body i (cnt + 1) s = (forLoop body i cnt s).bind (body (i + cnt)) := by
  induction cnt generalizing i s with
  | zero => simp [forLoop]
  | succ c ih =>
    rw [forLoop]
    cases hb : body i s with
    | none => simp [forLoop, hb]
    | some s1 =>
      simp only [Option.some_bind]
      rw [ih (i + 1) s1]
      conv_rhs => rw [forLoop, hb]
      simp only [Option.some_bind]
      have e : i + 1 + c = i + (c + 1) := by omega
      rw [e]

theorem forLoop_congr {σ : Type} (body body' : Nat → σ → Option σ) (i cnt : Nat) (s : σ)
    (h : ∀ k t, i ≤ k → k < i + cnt → body k t = body' k t) :
    forLoop body i cnt s = forLoop body' i cnt s := by
  induction cnt generalizing i s with
  | zero => rfl
  | succ c ih =>
    rw [forLoop, forLoop, h i s (le_refl _) (by omega)]
    cases body' i s with
    | none => rfl
    | some s1 =>
      simp only [Option.some_bind]
      exact ih (i + 1) s1 (fun k t h1 h2 => h k t (by omega) (by omega))

theorem forLoop_inv {σ : Type} (inv : Nat → σ → Prop) (body : Nat → σ → Option σ)
    (i cnt : Nat) (s : σ) (h0 : inv i s)
    (hstep : ∀ k t, i ≤ k → k < i + cnt → inv k t → ∃ t', body k t = some t' ∧ inv (k + 1) t') :
    ∃ s', forLoop body i cnt s = some s' ∧ inv (i + cnt) s' := by
  induction cnt generalizing i s with
  | zero => exact ⟨s, rfl, h0⟩
  | succ c ih =>
    obtain ⟨s1, hb, h1⟩ := hstep i s (le_refl _) (by omega) h0
    obtain ⟨s2, hl, h2⟩ := ih (i + 1) s1 h1 (fun k t hk1 hk2 => hstep k t (by omega) (by omega))
    refine ⟨s2, ?_, ?_⟩
    · rw [forLoop, hb]; exact hl
    · have : i + (c + 1) = i + 1 + c := by omega
      rw [this]; exact h2

theorem forLoop_some_body {σ : Type} (body : Nat → σ → Option σ) (i cnt : Nat) (s s' : σ)
    (h : forLoop body i cnt s = some s') :
    ∀ k, i ≤ k → k < i + cnt → ∃ t t', body k t = some t' := by
  induction cnt generalizing i s with
  | zero => intro k h1 h2; omega
  | succ c ih =>
    intro k h1 h2
    rw [forLoop] at h
    cases hb : body i s with
    | none => rw [hb] at h; simp at h
    | some s1 =>
      rw [hb] at h
      simp only [Option.some_bind] at h
      by_cases hk : k = i
      · subst hk; exact ⟨s, s1, hb⟩
      · exact ih (i + 1) s1 h k (by omega) (by omega)

theorem getElem?_take_lt {α : Type} (l : List α) (m k : Nat) (h : k < m) :
    (l.take m)[k]? = l[k]? := by
  simp [List.getElem?_take, h]

theorem membership_GkQk_take (P : Primitives F G) (Gk Qk : List G) (m k cnt : Nat)
    (h : k + cnt ≤ m) :
    membership_GkQk P (Gk.take m) (Qk.take m) k cnt = membership_GkQk P Gk Qk k cnt := by
  induction cnt generalizing k with
  | zero => rfl
  | succ c ih =>
    rw [membership_GkQk, membership_GkQk, getElem?_take_lt Gk m k (by omega),
      getElem?_take_lt Qk m k (by omega), ih (k + 1) (by omega)]

theorem membership_GkQk_true_len (P : Primitives F G) (Gk Qk : List G) (k cnt : Nat)
    (h : membership_GkQk P Gk Qk k cnt = some true) (hc : 0 < cnt) :
    k + cnt ≤ Gk.length ∧ k + cnt ≤ Qk.length := by
  induction cnt generalizing k with
  | zero => omega
  | succ c ih =>
    rw [membership_GkQk] at h
    cases hg : Gk[k]? with
    | none => rw [hg] at h; simp at h
    | some gk =>
      rw [hg] at h
      simp only at h
      split at h
      · cases hq : Qk[k]? with
        | none => rw [hq] at h; simp at h
        | some qk =>
          rw [hq] at h
          simp only at h
          split at h
          · have h1 : k < Gk.length := (List.getElem?_eq_some_iff.mp hg).1
            have h2 : k < Qk.length := (List.getElem?_eq_some_iff.mp hq).1
            by_cases hc0 : c = 0
            · subst hc0; omega
            · have := ih (k + 1) h (by omega)
              omega
          · simp at h
      · simp at h
end Loops

/-! ### `compute_fs` -/

section ComputeFs

variable {F G : Type} [CommRing F]

theorem compute_fs_inner_loop (pf : List F) (j k c : Nat) (t : F) (l : List F)
    (h : j * k + c ≤ pf.length) :
    forLoop (compute_fs_inner pf j k) 0 c (t, l) =
      some (t + ((pf.drop (j * k)).take c).sum, l ++ (pf.drop (j * k)).take c) := by
  induction c with
  | zero => simp [forLoop]
  | succ c ih =>
    rw [forLoop_succ_last, ih (by omega)]
    have hlt : j * k + c < pf.length := by omega
    have hget : pf[j * k + (0 + c)]? = some pf[j * k + c] := by
      rw [Nat.zero_add]; exact List.getElem?_eq_getElem hlt
    have htk : (pf.drop (j * k)).take (c + 1) = (pf.drop (j * k)).take c ++ [pf[j * k + c]] := by
      rw [List.take_succ, List.getElem?_drop, List.getElem?_eq_getElem hlt]; rfl
    simp only [Option.some_bind, compute_fs_inner, hget, htk, List.sum_append, List.sum_singleton,
      List.append_assoc, add_assoc]

theorem length_fs_row (n : Nat) (pf : List F) (x : F) (j : Nat) (hn : 1 ≤ n)
    (h : (j + 1) * (n - 1) ≤ pf.length) : (fs_row n pf x j).length = n := by
  have h1 : j * (n - 1) + (n - 1) ≤ pf.length := by
    have : (j + 1) * (n - 1) = j * (n - 1) + (n - 1) := by ring
    omega
  simp only [fs_row, List.length_cons, List.length_take, List.length_drop]
  omega

theorem compute_fs_row_eq (n : Nat) (pf : List F) (x : F) (j : Nat) (f_ : List F)
    (hlen : f_.length = j * n) (h : (j + 1) * (n - 1) ≤ pf.length) :
    compute_fs_row n pf x j f_ = some (f_ ++ fs_row n pf x j) := by
  have h1 : j * (n - 1) + (n - 1) ≤ pf.length := by
    have : (j + 1) * (n - 1) = j * (n - 1) + (n - 1) := by ring
    omega
  simp only [compute_fs_row]
  rw [compute_fs_inner_loop pf j (n - 1) (n - 1) 0 (f_ ++ [0]) h1]
  simp only [List.length_append, List.length_cons, List.length_nil, zero_add]
  rw [if_pos (by omega), List.append_assoc, List.set_append_right _ _ (by omega)]
  simp [hlen, fs_row]

theorem length_fs_table (n : Nat) (pf : List F) (x : F) (m : Nat) (hn : 1 ≤ n)
    (h : m * (n - 1) ≤ pf.length) : (fs_table n pf x m).length = m * n := by
  induction m with
  | zero => simp [fs_table]
  | succ j ih =>
    have h0 : j * (n - 1) ≤ (j + 1) * (n - 1) := Nat.mul_le_mul_right _ (by omega)
    rw [fs_table, List.length_append, ih (by omega), length_fs_row n pf x j hn h]
    ring

theorem compute_fs_loop (n : Nat) (pf : List F) (x : F) (m : Nat) (hn : 1 ≤ n)
    (h : m * (n - 1) ≤ pf.length) :
    forLoop (compute_fs_row n pf x) 0 m [] = some (fs_table n pf x m) := by
  induction m with
  | zero => rfl
  | succ j ih =>
    have h0 : j * (n - 1) ≤ (j + 1) * (n - 1) := Nat.mul_le_mul_right _ (by omega)
    rw [forLoop_succ_last, ih (by omega)]
    simp only [Option.some_bind, Nat.zero_add]
    rw [compute_fs_row_eq n pf x j _ (length_fs_table n pf x j hn (by omega)) h]
    rfl

variable [DecidableEq F]

theorem compute_fs_eq (V : SigmaPlusVerifier F G) (p : SigmaPlusProof F G) (x : F)
    (hn : 1 ≤ V.n) (hlen : V.m * (V.n - 1) ≤ p.f_.length) (hx : ∀ a ∈ p.f_, a ≠ x) :
    compute_fs V p x [] = some (true, fs_table V.n p.f_ x V.m) := by
  have hany : ¬ (p.f_.any (fun a => decide (a = x)) = true) := by
    rw [List.any_eq_true]
    rintro ⟨a, ha, hax⟩
    exact hx a ha (of_decide_eq_true hax)
  simp only [compute_fs, if_neg hany, compute_fs_loop V.n p.f_ x V.m hn hlen]

theorem compute_fs_degenerate (V : SigmaPlusVerifier F G) (p : SigmaPlusProof F G) (x : F)
    (f_ : List F) (hx : x ∈ p.f_) : compute_fs V p x f_ = some (false, f_) := by
  have hany : p.f_.any (fun a => decide (a = x)) = true := by
    rw [List.any_eq_true]
    exact ⟨x, hx, decide_eq_true rfl⟩
  simp only [compute_fs, if_pos hany]

end ComputeFs

/-! ### The reconstructed table -/

section Table

variable {F G : Type} [CommRing F]

theorem sum_range_getD (l : List F) :
    Finset.sum (Finset.range l.length) (fun i => l.getD i 0) = l.sum := by
  induction l with
  | nil => simp
  | cons a t ih =>
    rw [List.length_cons, Finset.sum_range_succ', List.sum_cons, add_comm]
    congr 1

theorem sum_slice (pf : List F) (a c : Nat) (h : a + c ≤ pf.length) :
    ((pf.drop a).take c).sum = Finset.sum (Finset.range c) (fun i => pf.getD (a + i) 0) := by
  have hl : ((pf.drop a).take c).length = c := by
    rw [List.length_take, List.length_drop]; omega
  rw [← sum_range_getD, hl]
  apply Finset.sum_congr rfl
  intro i hi
  have hi' : i < c := Finset.mem_range.mp hi
  simp only [List.getD_eq_getElem?_getD, List.getElem?_take, if_pos hi', List.getElem?_drop]

theorem fs_table_getElem? (n : Nat) (pf : List F) (x : F) (m j i : Nat) (hn : 1 ≤ n)
    (h : m * (n - 1) ≤ pf.length) (hj : j < m) (hi : i < n) :
    (fs_table n pf x m)[j * n + i]? = (fs_row n pf x j)[i]? := by
  induction m with
  | zero => omega
  | succ c ih =>
    have h0 : c * (n - 1) ≤ (c + 1) * (n - 1) := Nat.mul_le_mul_right _ (by omega)
    have hlen := length_fs_table n pf x c hn (by omega)
    rw [fs_table]
    by_cases hjc : j < c
    · have : j * n + i < c * n := by
        have : (j + 1) * n ≤ c * n := Nat.mul_le_mul_right _ (by omega)
        have e : (j + 1) * n = j * n + n := by ring
        omega
      rw [List.getElem?_append_left (by omega)]
      exact ih (by omega) hjc
    · have hjc' : j = c := by omega
      subst hjc'
      rw [List.getElem?_append_right (by omega), hlen]
      congr 1
      omega

theorem fs_row_zero (n : Nat) (pf : List F) (x : F) (j : Nat) :
    (fs_row n pf x j)[0]? = some (x - ((pf.drop (j * (n - 1))).take (n - 1)).sum) := by
  simp [fs_row]

theorem fs_row_succ (n : Nat) (pf : List F) (x : F) (j i : Nat) (hi : i < n - 1) :
    (fs_row n pf x j)[i + 1]? = pf[j * (n - 1) + i]? := by
  simp [fs_row, List.getElem?_take, hi, List.getElem?_drop]

theorem sum_fs_row (n : Nat) (pf : List F) (x : F) (j : Nat) : (fs_row n pf x j).sum = x := by
  simp [fs_row]

theorem sum_fs_table_row (n : Nat) (pf : List F) (x : F) (m j : Nat) (hn : 1 ≤ n)
    (h : m * (n - 1) ≤ pf.length) (hj : j < m) :
    Finset.sum (Finset.range n) (fun i => (fs_table n pf x m).getD (j * n + i) 0) = x := by
  have h0 : (j + 1) * (n - 1) ≤ m * (n - 1) := Nat.mul_le_mul_right _ (by omega)
  have hl := length_fs_row n pf x j hn (by omega)
  have e : Finset.sum (Finset.range n) (fun i => (fs_table n pf x m).getD (j * n + i) 0) =
      Finset.sum (Finset.range (fs_row n pf x j).length) (fun i => (fs_row n pf x j).getD i 0) := by
    rw [hl]
    apply Finset.sum_congr rfl
    intro i hi
    simp only [List.getD_eq_getElem?_getD,
      fs_table_getElem? n pf x m j i hn h hj (Finset.mem_range.mp hi)]
  rw [e, sum_range_getD, sum_fs_row]

variable [DecidableEq F]

/-- C10 (digit-response reconstruction): for a proof with `len(f) = m*(n-1)` and no component
of `f` equal to `x`, `compute_fs` started on an empty vector returns true and leaves a table
`out` of `m*n` entries with `out[j*n] = x - Σ_{i<n-1} f[j*(n-1)+i]` and
`out[j*n+i+1] = f[j*(n-1)+i]`, so that the `n` entries of every row `j < m` sum to `x`. -/
theorem compute_fs_reconstruction (V : SigmaPlusVerifier F G) (p : SigmaPlusProof F G) (x : F)
    (hlen : (p.f_.length : Int) = (V.m : Int) * ((V.n : Int) - 1))
    (hx : ∀ a ∈ p.f_, a ≠ x) :
    ∃ out, compute_fs V p x [] = some (true, out) ∧ out.length = V.m * V.n ∧
      (∀ j, j < V.m → out[j * V.n]? =
        some (x - Finset.sum (Finset.range (V.n - 1))
          (fun i => p.f_.getD (j * (V.n - 1) + i) 0))) ∧
      (∀ j i, j < V.m → i < V.n - 1 →
        j * (V.n - 1) + i < p.f_.length ∧ out[j * V.n + i + 1]? = p.f_[j * (V.n - 1) + i]?) ∧
      (∀ j, j < V.m → Finset.sum (Finset.range V.n) (fun i => out.getD (j * V.n + i) 0) = x) := by
  by_cases hm : V.m = 0
  · refine ⟨[], ?_, ?_, ?_, ?_, ?_⟩
    · have hany : ¬ (p.f_.any (fun a => decide (a = x)) = true) := by
        rw [List.any_eq_true]
        rintro ⟨a, ha, hax⟩
        exact hx a ha (of_decide_eq_true hax)
      simp only [compute_fs, if_neg hany, hm, forLoop]
    · simp [hm]
    all_goals intro j; omega
  · have hn : 1 ≤ V.n := by
      by_contra hc
      have h0 : V.n = 0 := by omega
      have hmpos : (0 : Int) < V.m := by omega
      rw [h0] at hlen
      have : (p.f_.length : Int) < 0 := by rw [hlen]; simp; omega
      omega
    have hlenN : p.f_.length = V.m * (V.n - 1) := by
      have : ((V.n - 1 : Nat) : Int) = (V.n : Int) - 1 := by omega
      have h2 : (p.f_.length : Int) = ((V.m * (V.n - 1) : Nat) : Int) := by
        rw [hlen]; push_cast; rw [this]
      exact_mod_cast h2
    have hle : V.m * (V.n - 1) ≤ p.f_.length := by omega
    refine ⟨fs_table V.n p.f_ x V.m, compute_fs_eq V p x hn hle hx,
      length_fs_table V.n p.f_ x V.m hn hle, ?_, ?_, ?_⟩
    · intro j hj
      have h0 : (j + 1) * (V.n - 1) ≤ V.m * (V.n - 1) := Nat.mul_le_mul_right _ (by omega)
      have h1 : (j + 1) * (V.n - 1) = j * (V.n - 1) + (V.n - 1) := by ring
      have := fs_table_getElem? V.n p.f_ x V.m j 0 hn hle hj (by omega)
      rw [Nat.add_zero] at this
      rw [this, fs_row_zero, sum_slice p.f_ _ _ (by omega)]
    · intro j i hj hi
      have h0 : (j + 1) * (V.n - 1) ≤ V.m * (V.n - 1) := Nat.mul_le_mul_right _ (by omega)
      have h1 : (j + 1) * (V.n - 1) = j * (V.n - 1) + (V.n - 1) := by ring
      refine ⟨by omega, ?_⟩
      rw [Nat.add_assoc, fs_table_getElem? V.n p.f_ x V.m j (i + 1) hn hle hj (by omega),
        fs_row_succ V.n p.f_ x j i hi]
    · intro j hj
      exact sum_fs_table_row V.n p.f_ x V.m j hn hle hj

end Table

/-! ### Structure of `verify` -/

section VerifyStructure

variable {F G : Type} [CommRing F] [DecidableEq F] [AddCommGroup G] [Module F G] [DecidableEq G]

theorem verify_true_inv (P : Primitives F G) (V : SigmaPlusVerifier F G) (commits : List G)
    (x : F) (p : SigmaPlusProof F G) (h : verify P V commits x p = some true) :
    membership_checks P V p = some true ∧
    ∃ b f_, compute_fs V p x [] = some (b, f_) ∧ abcd_checks P V p x f_ = true ∧
      ∃ f_i_, forLoop (verify_coefficient_step P V f_) 0 commits.length [] = some f_i_ ∧
        ∃ t2 h0 h1, fold_GkQk V x p.Gk_ p.Qk = some t2 ∧ V.h_[0]? = some h0 ∧
          V.h_[1]? = some h1 ∧
          get_multiple commits f_i_ + t2 = P.double_commit V.g_ 0 h0 p.zV_ h1 p.zR_ := by
  unfold verify at h
  split at h
  · simp at h
  · simp at h
  · rename_i hmc
    refine ⟨hmc, ?_⟩
    split at h
    · simp at h
    · rename_i b f_ hfs
      refine ⟨b, f_, hfs, ?_⟩
      split at h
      · simp at h
      · rename_i habcd
        refine ⟨by simpa using habcd, ?_⟩
        split at h
        · simp at h
        · rename_i f_i_ hloop
          refine ⟨f_i_, hloop, ?_⟩
          split at h
          · simp at h
          · rename_i t2 ht2
            split at h
            · rename_i h0 h1 hh0 hh1
              refine ⟨t2, h0, h1, ht2, hh0, hh1, ?_⟩
              by_contra hne
              simp [hne] at h
            · simp at h

omit [AddCommGroup G] [Module F G] [DecidableEq G] in
theorem membership_checks_true_inv (P : Primitives F G) (V : SigmaPlusVerifier F G)
    (p : SigmaPlusProof F G) (h : membership_checks P V p = some true) :
    membership_GkQk P p.Gk_ p.Qk 0 V.m = some true ∧
    p.f_.any (fun a => !P.isMemberScalar a || isZero a) = false ∧
    (isZero p.ZA_ || isZero p.ZC_ || isZero p.zV_ || isZero p.zR_) = false := by
  unfold membership_checks at h
  split at h
  · simp at h
  · split at h
    · simp at h
    · rename_i hf
      split at h
      · simp at h
      · simp at h
      · rename_i hgk
        split at h
        · simp at h
        · rename_i hz
          refine ⟨hgk, by simpa using hf, ?_⟩
          simp only [Bool.or_eq_true, not_or, Bool.not_eq_true] at hz
          simp only [Bool.or_eq_false_iff]
          tauto

omit [DecidableEq G] [Module F G] [AddCommGroup G] in
theorem compute_fs_true_len (V : SigmaPlusVerifier F G) (p : SigmaPlusProof F G) (x : F)
    (out : List F) (h : compute_fs V p x [] = some (true, out)) :
    V.m * (V.n - 1) ≤ p.f_.length := by
  unfold compute_fs at h
  split at h
  · simp at h
  · split at h
    · simp at h
    · rename_i out1 hloop
      by_cases hz : V.m * (V.n - 1) = 0
      · omega
      · have hm : 0 < V.m := Nat.pos_of_ne_zero (fun e => hz (by rw [e, Nat.zero_mul]))
        have hk : 0 < V.n - 1 := Nat.pos_of_ne_zero (fun e => hz (by rw [e, Nat.mul_zero]))
        obtain ⟨t, t1, hrow⟩ := forLoop_some_body _ 0 V.m [] out1 hloop (V.m - 1) (by omega)
          (by omega)
        unfold compute_fs_row at hrow
        simp only at hrow
        split at hrow
        · simp at hrow
        · rename_i st hin
          obtain ⟨s, s1, hbody⟩ := forLoop_some_body _ 0 (V.n - 1) _ st hin (V.n - 1 - 1)
            (by omega) (by omega)
          unfold compute_fs_inner at hbody
          split at hbody
          · simp at hbody
          · rename_i a ha
            have hlt := (List.getElem?_eq_some_iff.mp ha).1
            have e : V.m * (V.n - 1) = (V.m - 1) * (V.n - 1) + (V.n - 1) := by
              obtain ⟨c, hc⟩ : ∃ c, V.m = c + 1 := ⟨V.m - 1, by omega⟩
              rw [hc]; simp [Nat.succ_mul]
            omega

omit [DecidableEq F] [DecidableEq G] [Module F G] [AddCommGroup G] in
theorem compute_f_i_nil (V : SigmaPlusVerifier F G) (I : List Nat) (hm : 0 < V.m) :
    compute_f_i V ([] : List F) I = none := by
  obtain ⟨c, hc⟩ : ∃ c, V.m = c + 1 := ⟨V.m - 1, by omega⟩
  unfold compute_f_i
  rw [hc, forLoop, compute_f_i_step]
  cases I[0]? <;> simp

omit [DecidableEq F] [DecidableEq G] [Module F G] [AddCommGroup G] in
theorem compute_f_i_some_len (V : SigmaPlusVerifier F G) (f_ : List F) (I : List Nat) (c : F)
    (h : compute_f_i V f_ I = some c) : V.m ≤ I.length := by
  by_cases hm : V.m = 0
  · omega
  · unfold compute_f_i at h
    obtain ⟨t, t1, hb⟩ := forLoop_some_body _ 0 V.m 1 c h (V.m - 1) (by omega) (by omega)
    unfold compute_f_i_step at hb
    split at hb
    · simp at hb
    · rename_i d hd
      have := (List.getElem?_eq_some_iff.mp hd).1
      omega

/-- C3 (shape), as the code has it: `verify` makes no length test.  The elements of `Gk` and
`Qk` from position `m` on are never read, so the verdict is that of the proof with both lists
cut to their first `m` elements; a proof with fewer than `m` elements in `Gk` or `Qk`, or
(against a non-empty commitment list) fewer than `m*(n-1)` elements in `f`, is never
accepted. -/
theorem verify_no_shape_check (P : Primitives F G) (V : SigmaPlusVerifier F G)
    (commits : List G) (x : F) (p : SigmaPlusProof F G) :
    verify P V commits x { p with Gk_ := p.Gk_.take V.m, Qk := p.Qk.take V.m } =
      verify P V commits x p ∧
    ((p.Gk_.length < V.m ∨ p.Qk.length < V.m ∨
        (p.f_.length < V.m * (V.n - 1) ∧ commits ≠ [])) →
      verify P V commits x p ≠ some true) := by
  constructor
  · have h1 : membership_checks P V { p with Gk_ := p.Gk_.take V.m, Qk := p.Qk.take V.m } =
        membership_checks P V p := by
      simp only [membership_checks]
      rw [membership_GkQk_take P p.Gk_ p.Qk V.m 0 V.m (by omega)]
    have h4 : fold_GkQk V x (p.Gk_.take V.m) (p.Qk.take V.m) = fold_GkQk V x p.Gk_ p.Qk := by
      unfold fold_GkQk
      congr 1
      apply forLoop_congr
      intro k t _ hk
      unfold fold_GkQk_step
      rw [getElem?_take_lt p.Gk_ V.m k (by omega), getElem?_take_lt p.Qk V.m k (by omega)]
    unfold verify
    rw [h1]
    simp only [h4]
    rfl
  · intro hsh htrue
    obtain ⟨hmc, b, f_, hfs, _, f_i_, hloop, _⟩ := verify_true_inv P V commits x p htrue
    rcases hsh with hg | hq | ⟨hf, hne⟩
    · have hgk := (membership_checks_true_inv P V p hmc).1
      have := membership_GkQk_true_len P p.Gk_ p.Qk 0 V.m hgk (by omega)
      omega
    · have hgk := (membership_checks_true_inv P V p hmc).1
      have := membership_GkQk_true_len P p.Gk_ p.Qk 0 V.m hgk (by omega)
      omega
    · by_cases hx : x ∈ p.f_
      · rw [compute_fs_degenerate V p x [] hx] at hfs
        obtain ⟨c, hc⟩ : ∃ c, commits.length = c + 1 :=
          ⟨commits.length - 1, by
            have : 0 < commits.length := List.length_pos.mpr hne
            omega⟩
        have hm : 0 < V.m := Nat.pos_of_ne_zero (fun e => by rw [e, Nat.zero_mul] at hf; omega)
        have hf_ : f_ = [] := by
          have := Option.some.inj hfs
          exact (Prod.mk.inj this).2.symm
        rw [hc, forLoop, hf_, verify_coefficient_step, compute_f_i_nil V _ hm] at hloop
        simp at hloop
      · have hb : b = true := by
          unfold compute_fs at hfs
          split at hfs
          · rename_i hany
            rw [List.any_eq_true] at hany
            obtain ⟨a, ha, hax⟩ := hany
            exact absurd ((of_decide_eq_true hax) ▸ ha) hx
          · split at hfs
            · simp at hfs
            · have := Option.some.inj hfs
              exact (Prod.mk.inj this).1.symm
        rw [hb] at hfs
        have := compute_fs_true_len V p x f_ hfs
        omega

/-- When `verify` returns true, `convert_to_nal` has delivered at least `m` digits for every
index below the length of the commitment list. -/
theorem verify_true_digits (P : Primitives F G) (V : SigmaPlusVerifier F G)
    (commits : List G) (x : F) (p : SigmaPlusProof F G)
    (h : verify P V commits x p = some true) :
    ∀ i, i < commits.length → V.m ≤ (P.convert_to_nal i V.n V.m).length := by
  intro i hi
  obtain ⟨_, b, f_, _, _, f_i_, hloop, _⟩ := verify_true_inv P V commits x p h
  obtain ⟨t, t1, hb⟩ := forLoop_some_body _ 0 commits.length [] f_i_ hloop i (by omega)
    (by omega)
  unfold verify_coefficient_step at hb
  split at hb
  · simp at hb
  · rename_i c hc
    exact compute_f_i_some_len V f_ _ c hc

end VerifyStructure

/-- C3, witness: the proof `exProofShort`, whose `Gk` is empty, is not accepted. -/
theorem verify_no_shape_check_witness :
    exProofShort.Gk_.length < exV2.m ∧
    verify exPrims exV2 [1, 2, 3, 4] 3 exProofShort ≠ some true :=
  ⟨by decide, (verify_no_shape_check exPrims exV2 [1, 2, 3, 4] 3 exProofShort).2
    (Or.inl (by decide))⟩

/-- C3, counterexample: a proof with an extra element in `f` and `Gk` and two in `Qk` is
accepted by `verify`. -/
theorem verify_accepts_long_proof :
    exProofLong.f_.length ≠ exV2.m * (exV2.n - 1) ∧ exProofLong.Gk_.length ≠ exV2.m ∧
    exProofLong.Qk.length ≠ exV2.m ∧
    verify exPrims exV2 [1, 2, 3, 4] 3 exProofLong = some true := by
  decide

/-- An accepted proof against four commitments, `n = 2`, `m = 2`, and the digits of their
indices. -/
theorem verify_true_digits_witness :
    verify exPrims exV2 [1, 2, 3, 4] 3 (exProof 5 4 1) = some true ∧
    ∀ i, i < [(1 : ZMod 7), 2, 3, 4].length →
      exV2.m ≤ (exPrims.convert_to_nal i exV2.n exV2.m).length :=
  ⟨by decide, verify_true_digits exPrims exV2 [1, 2, 3, 4] 3 (exProof 5 4 1) (by decide)⟩

/-- C7 (anonymity-set size check): `verify` has no test of the length of the commitment list.
Against the empty list (length `0`) it accepts the proof `exProof 5 6 1`, which `batchverify`,
whose first statement is the guard `if (commits.empty()) return false`, turns down. -/
theorem verify_accepts_empty_commits :
    ([] : List (ZMod 7)).length = 0 ∧
    verify exPrims exV2 [] 3 (exProof 5 6 1) = some true ∧
    batchverify exPrims exV2 (fun _ => 1) [] 3 [0] [exProof 5 6 1] = some false := by
  decide

/-! ### The checks that come before the main equation -/

section Checks

variable {F G : Type}

theorem membership_GkQk_defined (P : Primitives F G) (Gk Qk : List G) (k cnt : Nat)
    (hg : k + cnt ≤ Gk.length) (hq : k + cnt ≤ Qk.length) :
    ∃ b, membership_GkQk P Gk Qk k cnt = some b := by
  induction cnt generalizing k with
  | zero => exact ⟨true, rfl⟩
  | succ c ih =>
    rw [membership_GkQk, List.getElem?_eq_getElem (show k < Gk.length by omega),
      List.getElem?_eq_getElem (show k < Qk.length by omega)]
    simp only
    split
    · split
      · exact ih (k + 1) (by omega) (by omega)
      · exact ⟨false, rfl⟩
    · exact ⟨false, rfl⟩

theorem well_shaped_cases (V : SigmaPlusVerifier F G) (p : SigmaPlusProof F G)
    (h : (p.f_.length : Int) = (V.m : Int) * ((V.n : Int) - 1)) :
    V.m = 0 ∨ (1 ≤ V.n ∧ p.f_.length = V.m * (V.n - 1)) := by
  by_cases hm : V.m = 0
  · exact Or.inl hm
  · right
    have hn : 1 ≤ V.n := by
      by_contra hc
      have h0 : V.n = 0 := by omega
      have hmpos : (0 : Int) < V.m := by omega
      rw [h0] at h
      have : (p.f_.length : Int) < 0 := by rw [h]; simp; omega
      omega
    refine ⟨hn, ?_⟩
    have e : ((V.n - 1 : Nat) : Int) = (V.n : Int) - 1 := by omega
    have h2 : (p.f_.length : Int) = ((V.m * (V.n - 1) : Nat) : Int) := by
      rw [h]; push_cast; rw [e]
    exact_mod_cast h2

variable [CommRing F] [DecidableEq F]

theorem membership_checks_defined (P : Primitives F G) (V : SigmaPlusVerifier F G)
    (p : SigmaPlusProof F G) (hg : V.m ≤ p.Gk_.length) (hq : V.m ≤ p.Qk.length) :
    ∃ b, membership_checks P V p = some b := by
  obtain ⟨b, hb⟩ := membership_GkQk_defined P p.Gk_ p.Qk 0 V.m (by omega) (by omega)
  unfold membership_checks
  rw [hb]
  split
  · exact ⟨false, rfl⟩
  · split
    · exact ⟨false, rfl⟩
    · cases b with
      | false => exact ⟨false, rfl⟩
      | true =>
        simp only
        split
        · exact ⟨false, rfl⟩
        · exact ⟨true, rfl⟩

theorem membership_checks_zero_f (P : Primitives F G) (V : SigmaPlusVerifier F G)
    (p : SigmaPlusProof F G) (h0 : (0 : F) ∈ p.f_) : membership_checks P V p = some false := by
  have hany : p.f_.any (fun a => !P.isMemberScalar a || isZero a) = true := by
    rw [List.any_eq_true]
    exact ⟨0, h0, by simp [isZero]⟩
  unfold membership_checks
  rw [if_pos hany]
  split <;> rfl

theorem membership_checks_zero_scalar (P : Primitives F G) (V : SigmaPlusVerifier F G)
    (p : SigmaPlusProof F G) (hg : V.m ≤ p.Gk_.length) (hq : V.m ≤ p.Qk.length)
    (hz : p.ZA_ = 0 ∨ p.ZC_ = 0 ∨ p.zV_ = 0 ∨ p.zR_ = 0) :
    membership_checks P V p = some false := by
  obtain ⟨b, hb⟩ := membership_checks_defined P V p hg hq
  cases b with
  | false => exact hb
  | true =>
    have h3 := (membership_checks_true_inv P V p hb).2.2
    simp only [Bool.or_eq_false_iff, isZero, decide_eq_false_iff_not] at h3
    tauto

variable [AddCommGroup G] [Module F G] [DecidableEq G]

theorem verify_of_membership_false (P : Primitives F G) (V : SigmaPlusVerifier F G)
    (commits : List G) (x : F) (p : SigmaPlusProof F G)
    (h : membership_checks P V p = some false) : verify P V commits x p = some false := by
  unfold verify
  rw [h]

omit [AddCommGroup G] [Module F G] [DecidableEq G] in
theorem batch_membership_false (P : Primitives F G) (V : SigmaPlusVerifier F G)
    (pre post : List (SigmaPlusProof F G)) (p : SigmaPlusProof F G)
    (hpre : ∀ q ∈ pre, ∃ b, membership_checks P V q = some b)
    (h : membership_checks P V p = some false) :
    batch_membership P V (pre ++ p :: post) = some false := by
  induction pre with
  | nil => simp only [List.nil_append, batch_membership, h]
  | cons q qs ih =>
    obtain ⟨b, hb⟩ := hpre q (List.mem_cons_self _ _)
    rw [List.cons_append, batch_membership, hb]
    cases b with
    | false => rfl
    | true => exact ih (fun r hr => hpre r (List.mem_cons_of_mem _ hr))

omit [AddCommGroup G] [Module F G] [DecidableEq G] in
theorem batch_membership_true_inv (P : Primitives F G) (V : SigmaPlusVerifier F G)
    (proofs : List (SigmaPlusProof F G)) (h : batch_membership P V proofs = some true) :
    ∀ q ∈ proofs, membership_checks P V q = some true := by
  induction proofs with
  | nil => intro q hq; simp at hq
  | cons p ps ih =>
    rw [batch_membership] at h
    split at h
    · simp at h
    · simp at h
    · rename_i hp
      intro q hq
      rcases List.mem_cons.mp hq with e | hin
      · rw [e]; exact hp
      · exact ih h q hin

omit [AddCommGroup G] [Module F G] [DecidableEq G] in
theorem batch_membership_defined (P : Primitives F G) (V : SigmaPlusVerifier F G)
    (proofs : List (SigmaPlusProof F G))
    (h : ∀ q ∈ proofs, ∃ b, membership_checks P V q = some b) :
    ∃ b, batch_membership P V proofs = some b := by
  induction proofs with
  | nil => exact ⟨true, rfl⟩
  | cons p ps ih =>
    obtain ⟨b, hb⟩ := h p (List.mem_cons_self _ _)
    rw [batch_membership, hb]
    cases b with
    | false => exact ⟨false, rfl⟩
    | true => exact ih (fun r hr => h r (List.mem_cons_of_mem _ hr))

theorem batchverify_of_batch_membership_false (P : Primitives F G) (V : SigmaPlusVerifier F G)
    (y : Nat → F) (commits : List G) (x : F) (serials : List F)
    (proofs : List (SigmaPlusProof F G)) (hne : commits ≠ [])
    (h : batch_membership P V proofs = some false) :
    batchverify P V y commits x serials proofs = some false := by
  have he : ¬ (commits.isEmpty = true) := by
    rw [List.isEmpty_iff]; exact hne
  unfold batchverify
  simp only [if_neg he, h]

/-- C5 (nonzero scalars), as the code has it: when some component of `p.f` is zero, or `Gk` and
`Qk` have at least `m` elements and one of `ZA`, `ZC`, `zV`, `zR` is zero,
`membership_checks(p)` is false, `verify` is false for every commitment list and challenge,
and `batchverify` over a non-empty commitment list is false for every batch that contains `p`
after proofs whose `Gk` and `Qk` have at least `m` elements. -/
theorem zero_scalar_rejected (P : Primitives F G) (V : SigmaPlusVerifier F G)
    (p : SigmaPlusProof F G)
    (hz : (0 : F) ∈ p.f_ ∨ (V.m ≤ p.Gk_.length ∧ V.m ≤ p.Qk.length ∧
      (p.ZA_ = 0 ∨ p.ZC_ = 0 ∨ p.zV_ = 0 ∨ p.zR_ = 0))) :
    membership_checks P V p = some false ∧
    (∀ commits x, verify P V commits x p = some false) ∧
    (∀ y commits x serials pre post, commits ≠ [] →
      (∀ q ∈ pre, V.m ≤ q.Gk_.length ∧ V.m ≤ q.Qk.length) →
      batchverify P V y commits x serials (pre ++ p :: post) = some false) := by
  have hmc : membership_checks P V p = some false := by
    rcases hz with h0 | ⟨hg, hq, hs⟩
    · exact membership_checks_zero_f P V p h0
    · exact membership_checks_zero_scalar P V p hg hq hs
  refine ⟨hmc, fun commits x => verify_of_membership_false P V commits x p hmc, ?_⟩
  intro y commits x serials pre post hne hpre
  apply batchverify_of_batch_membership_false P V y commits x serials _ hne
  exact batch_membership_false P V pre post p
    (fun q hq => membership_checks_defined P V q (hpre q hq).1 (hpre q hq).2) hmc

end Checks

/-- C5, witness: a proof with `zV = 0`, alone and as second proof of a batch. -/
theorem zero_scalar_rejected_witness :
    (exProof 5 0 1).zV_ = 0 ∧
    membership_checks exPrims exV2 (exProof 5 0 1) = some false ∧
    verify exPrims exV2 [1, 2, 3, 4] 3 (exProof 5 0 1) = some false ∧
    batchverify exPrims exV2 (fun _ => 2) [1, 2, 3, 4] 3 [0, 0]
      ([exProof 5 4 1] ++ exProof 5 0 1 :: []) = some false :=
  have h := zero_scalar_rejected exPrims exV2 (exProof 5 0 1)
    (Or.inr ⟨by decide, by decide, Or.inr (Or.inr (Or.inl rfl))⟩)
  ⟨rfl, h.1, h.2.1 _ _, h.2.2 _ _ _ _ _ _ (by decide) (by decide)⟩

/-- C5, counterexample: with `ZA = 0` and an empty `Gk` (`m = 2`) the read `Gk[0]` of
`membership_checks` comes before the test of `ZA` and is out of bounds; neither
`membership_checks` nor `verify` returns false. -/
theorem zero_scalar_short_Gk :
    exProofShort.ZA_ = 0 ∧ membership_checks exPrims exV2 exProofShort = none ∧
    verify exPrims exV2 [1, 2, 3, 4] 3 exProofShort = none := by
  decide

/-! ### The per-proof checks of `batchverify` -/

section BatchChecks

variable {F G : Type} [CommRing F] [DecidableEq F]

theorem compute_fs_well_shaped (V : SigmaPlusVerifier F G) (p : SigmaPlusProof F G) (x : F)
    (hlen : (p.f_.length : Int) = (V.m : Int) * ((V.n : Int) - 1)) (hx : x ∉ p.f_) :
    compute_fs V p x [] = some (true, fs_table V.n p.f_ x V.m) := by
  have hx' : ∀ a ∈ p.f_, a ≠ x := fun a ha e => hx (e ▸ ha)
  rcases well_shaped_cases V p hlen with hm | ⟨hn, hl⟩
  · have hany : ¬ (p.f_.any (fun a => decide (a = x)) = true) := by
      rw [List.any_eq_true]
      rintro ⟨a, ha, hax⟩
      exact hx' a ha (of_decide_eq_true hax)
    simp only [compute_fs, if_neg hany, hm, forLoop, fs_table]
  · exact compute_fs_eq V p x hn (by omega) hx'

variable [AddCommGroup G] [Module F G] [DecidableEq G]

theorem batch_compute_fs_well_shaped (P : Primitives F G) (V : SigmaPlusVerifier F G) (x : F)
    (proofs : List (SigmaPlusProof F G)) (hws : ∀ q ∈ proofs, well_shaped V q) :
    ∃ r, batch_compute_fs P V x proofs = some r ∧
      (r.1 = true → ∀ q ∈ proofs,
        x ∉ q.f_ ∧ abcd_checks P V q x (fs_table V.n q.f_ x V.m) = true) := by
  induction proofs with
  | nil =>
    refine ⟨(true, []), rfl, ?_⟩
    intro _ q hq
    simp at hq
  | cons p ps ih =>
    obtain ⟨r, hr, hrt⟩ := ih (fun q hq => hws q (List.mem_cons_of_mem _ hq))
    have hp := hws p (List.mem_cons_self _ _)
    rw [batch_compute_fs]
    by_cases hx : x ∈ p.f_
    · rw [compute_fs_degenerate V p x [] hx]
      exact ⟨(false, []), rfl, fun h => by simp at h⟩
    · rw [compute_fs_well_shaped V p x hp.1 hx]
      simp only
      by_cases hab : abcd_checks P V p x (fs_table V.n p.f_ x V.m) = false
      · rw [if_pos hab]
        exact ⟨(false, []), rfl, fun h => by simp at h⟩
      · rw [if_neg hab, hr]
        refine ⟨(r.1, fs_table V.n p.f_ x V.m :: r.2), rfl, ?_⟩
        intro hr1 q hq
        rcases List.mem_cons.mp hq with e | hin
        · rw [e]; exact ⟨hx, by simpa using hab⟩
        · exact hrt hr1 q hin

/-- C8 (a single bad proof fails the batch): for a non-empty commitment list and a batch of
well-shaped proofs, if some proof of the batch fails `membership_checks`, or has a component of
`f` equal to the challenge `x`, or fails `abcd_checks` on the table `compute_fs` reconstructs
for it, then `batchverify` returns false, whatever the weights `y`. -/
theorem batchverify_bad_proof (P : Primitives F G) (V : SigmaPlusVerifier F G) (y : Nat → F)
    (commits : List G) (x : F) (serials : List F) (proofs : List (SigmaPlusProof F G))
    (p : SigmaPlusProof F G) (hne : commits ≠ []) (hws : ∀ q ∈ proofs, well_shaped V q)
    (hp : p ∈ proofs)
    (hbad : membership_checks P V p = some false ∨ x ∈ p.f_ ∨
      ∃ out, compute_fs V p x [] = some (true, out) ∧ abcd_checks P V p x out = false) :
    batchverify P V y commits x serials proofs = some false := by
  obtain ⟨b, hb⟩ := batch_membership_defined P V proofs (fun q hq =>
    membership_checks_defined P V q (by rw [(hws q hq).2.1]) (by rw [(hws q hq).2.2]))
  cases b with
  | false => exact batchverify_of_batch_membership_false P V y commits x serials proofs hne hb
  | true =>
    have hmc := batch_membership_true_inv P V proofs hb p hp
    obtain ⟨r, hr, hrt⟩ := batch_compute_fs_well_shaped P V x proofs hws
    have hr1 : r.1 = false := by
      cases h1 : r.1 with
      | false => rfl
      | true =>
        exfalso
        obtain ⟨hx, hab⟩ := hrt h1 p hp
        rcases hbad with h | h | ⟨out, ho, hf⟩
        · rw [hmc] at h; simp at h
        · exact hx h
        · rw [compute_fs_well_shaped V p x (hws p hp).1 hx] at ho
          have e : fs_table V.n p.f_ x V.m = out := (Prod.mk.inj (Option.some.inj ho)).2
          rw [e, hf] at hab
          simp at hab
    have he : ¬ (commits.isEmpty = true) := by
      rw [List.isEmpty_iff]; exact hne
    obtain ⟨r1, r2⟩ := r
    simp only at hr1
    subst hr1
    unfold batchverify
    simp only [if_neg he, hb, hr]

end BatchChecks

/-- C8, witness: the second proof of the batch has `D = 4` and fails `abcd_checks`. -/
theorem batchverify_bad_proof_witness :
    (∃ out, compute_fs exV2 (exProof 4 4 1) 3 [] = some (true, out) ∧
      abcd_checks exPrims exV2 (exProof 4 4 1) 3 out = false) ∧
    batchverify exPrims exV2 (fun _ => 2) [1, 2, 3, 4] 3 [0, 0]
      [exProof 5 4 1, exProof 4 4 1] = some false :=
  ⟨⟨[1, 2, 5, 5], by decide⟩,
    batchverify_bad_proof exPrims exV2 (fun _ => 2) [1, 2, 3, 4] 3 [0, 0]
      [exProof 5 4 1, exProof 4 4 1] (exProof 4 4 1) (by decide)
      (by
        intro q hq
        simp only [List.mem_cons, List.mem_singleton, List.not_mem_nil, or_false] at hq
        rcases hq with e | e <;> subst e <;> exact ⟨by decide, by decide, by decide⟩)
      (by simp)
      (Or.inr (Or.inr ⟨[1, 2, 5, 5], by decide⟩))⟩

/-! ### Coefficients -/

section CoefficientLoops

variable {F G : Type} [CommRing F]

theorem compute_f_i_loop (V : SigmaPlusVerifier F G) (f_ : List F) (I : List Nat)
    (hI : V.m ≤ I.length) (ht : ∀ j, j < V.m → j * V.n + I.getD j 0 < f_.length) (c : Nat)
    (hc : c ≤ V.m) :
    forLoop (compute_f_i_step V f_ I) 0 c 1 =
      some (Finset.prod (Finset.range c) (fun j => f_.getD (j * V.n + I.getD j 0) 0)) := by
  induction c with
  | zero => simp [forLoop]
  | succ c ih =>
    rw [forLoop_succ_last, ih (by omega)]
    have hcI : c < I.length := by omega
    have h1 : I[0 + c]? = some (I.getD c 0) := by
      rw [Nat.zero_add, List.getD_eq_getElem?_getD, List.getElem?_eq_getElem hcI]; rfl
    have hlt := ht c (by omega)
    have h2 : f_[(0 + c) * V.n + I.getD c 0]? = some (f_.getD (c * V.n + I.getD c 0) 0) := by
      rw [Nat.zero_add, List.getD_eq_getElem?_getD (l := f_), List.getElem?_eq_getElem hlt]; rfl
    simp only [Option.some_bind, compute_f_i_step, h1, h2, Finset.prod_range_succ]

theorem compute_f_i_eq (V : SigmaPlusVerifier F G) (f_ : List F) (I : List Nat)
    (hI : V.m ≤ I.length) (ht : ∀ j, j < V.m → j * V.n + I.getD j 0 < f_.length) :
    compute_f_i V f_ I = some (coefficient V.n V.m f_ I) :=
  compute_f_i_loop V f_ I hI ht V.m (le_refl _)

theorem verify_coefficient_loop (P : Primitives F G) (V : SigmaPlusVerifier F G) (f_ : List F)
    (N : Nat)
    (h : ∀ i, i < N → compute_f_i V f_ (P.convert_to_nal i V.n V.m) =
      some (coefficient V.n V.m f_ (P.convert_to_nal i V.n V.m))) :
    forLoop (verify_coefficient_step P V f_) 0 N [] =
      some ((List.range N).map
        (fun i => coefficient V.n V.m f_ (P.convert_to_nal i V.n V.m))) := by
  induction N with
  | zero => simp [forLoop]
  | succ c ih =>
    rw [forLoop_succ_last, ih (fun i hi => h i (by omega))]
    simp only [Option.some_bind, Nat.zero_add, verify_coefficient_step, h c (by omega),
      List.range_succ, List.map_append, List.map_cons, List.map_nil]

theorem batch_coefficients_loop (V : SigmaPlusVerifier F G) (yt : F) (f_ : List F)
    (I_ : List (List Nat)) (acc : List F) (cf : Nat → F) (c : Nat) (hc : c ≤ acc.length)
    (h : ∀ i, i < c → ∃ I, I_[i]? = some I ∧ compute_f_i V f_ I = some (cf i)) :
    forLoop (batch_coefficient_step V yt f_ I_) 0 c (0, acc) =
      some (Finset.sum (Finset.range c) cf,
        (List.range c).map (fun i => acc.getD i 0 + cf i * yt) ++ acc.drop c) := by
  induction c with
  | zero => simp [forLoop]
  | succ c ih =>
    rw [forLoop_succ_last, ih (by omega) (fun i hi => h i (by omega))]
    obtain ⟨I, hI, hcf⟩ := h c (by omega)
    have hlen : ((List.range c).map (fun i => acc.getD i 0 + cf i * yt)).length = c := by simp
    have hclt : c < acc.length := by omega
    have hdrop : acc.drop c = acc[c] :: acc.drop (c + 1) := List.drop_eq_getElem_cons hclt
    have hold : ((List.range c).map (fun i => acc.getD i 0 + cf i * yt) ++ acc.drop c)[c]? =
        some (acc.getD c 0) := by
      rw [List.getElem?_append_right (by omega), hlen, Nat.sub_self, hdrop,
        List.getD_eq_getElem?_getD, List.getElem?_eq_getElem hclt]
      simp
    have hset : ((List.range c).map (fun i => acc.getD i 0 + cf i * yt) ++ acc.drop c).set c
        (acc.getD c 0 + cf c * yt) =
        (List.range (c + 1)).map (fun i => acc.getD i 0 + cf i * yt) ++ acc.drop (c + 1) := by
      rw [List.set_append_right _ _ (by omega), hlen, Nat.sub_self, hdrop, List.set_cons_zero,
        List.range_succ, List.map_append, List.append_assoc]
      rfl
    simp only [Option.some_bind, Nat.zero_add, batch_coefficient_step, hI, hcf, hold, hset,
      Finset.sum_range_succ]

theorem last_index_pow_full (V : SigmaPlusVerifier F G) (x : F) (f_ : List F) (I : List Nat)
    (hI : V.m ≤ I.length) (ht : ∀ j, j < V.m → j * V.n + I.getD j 0 < f_.length)
    (hfull : ∀ j, j < V.m → V.n ≤ I.getD j 0 + 1) :
    last_index_pow V x f_ I = some (coefficient V.n V.m f_ I) := by
  have hIget : ∀ j, j < V.m → I[j]? = some (I.getD j 0) := by
    intro j hj
    rw [List.getD_eq_getElem?_getD, List.getElem?_eq_getElem (show j < I.length by omega)]; rfl
  have hfget : ∀ j, j < V.m →
      f_[j * V.n + I.getD j 0]? = some (f_.getD (j * V.n + I.getD j 0) 0) := by
    intro j hj
    rw [List.getD_eq_getElem?_getD (l := f_), List.getElem?_eq_getElem (ht j hj)]; rfl
  have h1 : ∃ st, forLoop (pow_product_step V f_ I) 0 V.m (1, []) = some st ∧
      (st.1 = Finset.prod (Finset.range (0 + V.m))
          (fun t => f_.getD ((V.m - 1 - t) * V.n + I.getD (V.m - 1 - t) 0) 0) ∧
        st.2.length = 0 + V.m) := by
    apply forLoop_inv (fun t (st : F × List F) =>
      st.1 = Finset.prod (Finset.range t)
          (fun t => f_.getD ((V.m - 1 - t) * V.n + I.getD (V.m - 1 - t) 0) 0) ∧
        st.2.length = t)
    · simp
    · intro k st _ hk hinv
      have hj : V.m - 1 - k < V.m := by omega
      refine ⟨(st.1 * f_.getD ((V.m - 1 - k) * V.n + I.getD (V.m - 1 - k) 0) 0,
        st.2 ++ [st.1]), ?_, ?_, ?_⟩
      · simp only [pow_product_step, hIget _ hj, hfget _ hj]
      · simp only [Finset.prod_range_succ, hinv.1]
      · simp only [List.length_append, List.length_cons, List.length_nil, hinv.2]
  obtain ⟨⟨pow, fpp⟩, hl1, hpow, hfl⟩ := h1
  simp only [Nat.zero_add] at hpow hfl
  have h2 : ∃ st, forLoop (pow_sum_step V x f_ I fpp) 0 V.m (pow, 1) = some st ∧
      st.1 = pow := by
    apply forLoop_inv (fun _ (st : F × F) => st.1 = pow)
    · rfl
    · intro k st _ hk hinv
      have hk' : k < V.m := by omega
      have hz : V.n - (I.getD k 0 + 1) = 0 := by
        have := hfull k hk'
        omega
      have hfp : fpp[V.m - k - 1]? = some (fpp.getD (V.m - k - 1) 0) := by
        rw [List.getD_eq_getElem?_getD,
          List.getElem?_eq_getElem (show V.m - k - 1 < fpp.length by omega)]
        rfl
      refine ⟨(st.1, st.2 * x), ?_, hinv⟩
      simp only [pow_sum_step, hIget k hk', hz, forLoop, hfp, zero_mul, add_zero]
  obtain ⟨⟨pw, xj⟩, hl2, hpw⟩ := h2
  simp only at hpw
  unfold last_index_pow
  rw [hl1]
  simp only
  rw [hl2]
  simp only [hpw, hpow, coefficient]
  congr 1
  exact Finset.prod_range_reflect
    (fun j => f_.getD (j * V.n + I.getD j 0) 0) V.m

variable [AddCommGroup G] [Module F G]

theorem get_multiple_map_mul (gens : List G) (l : List F) (y : F) :
    get_multiple gens (l.map (fun c => c * y)) = y • get_multiple gens l := by
  induction gens generalizing l with
  | nil => simp [get_multiple]
  | cons g gs ih =>
    cases l with
    | nil => simp [get_multiple]
    | cons c cs =>
      have e := ih cs
      simp only [get_multiple] at e
      simp only [get_multiple, List.map_cons, List.zipWith_cons_cons, List.sum_cons, e, smul_add]
      rw [mul_comm, mul_smul]

end CoefficientLoops

/-! ### One proof against a full anonymity set -/

section FullSet

variable {F G : Type} [CommRing F] [DecidableEq F] [AddCommGroup G] [Module F G] [DecidableEq G]

omit [DecidableEq F] [DecidableEq G] in
theorem batch_step_full (P : Primitives F G) (V : SigmaPlusVerifier F G) (y : Nat → F) (x : F)
    (serials : List F) (N t : Nat) (p : SigmaPlusProof F G) (f_ : List F) (r : G) (ex : F)
    (acc : List F) (h0 h1 : G) (s : F) (hN : 1 ≤ N) (hacc : acc.length = N)
    (hh0 : V.h_[0]? = some h0) (hh1 : V.h_[1]? = some h1) (hs : serials[t]? = some s)
    (hcf : ∀ i, i < N → compute_f_i V f_ (P.convert_to_nal i V.n V.m) =
      some (coefficient V.n V.m f_ (P.convert_to_nal i V.n V.m)))
    (hpow : last_index_pow V x f_ (P.convert_to_nal (N - 1) V.n V.m) =
      some (coefficient V.n V.m f_ (P.convert_to_nal (N - 1) V.n V.m))) :
    batch_step P V y x serials ((List.range N).map (fun i => P.convert_to_nal i V.n V.m)) N t
        p f_ (r, ex, acc) =
      some (r + y t • P.double_commit V.g_ 0 h0 p.zV_ h1 p.zR_,
        ex + (Finset.sum (Finset.range (N - 1))
              (fun i => coefficient V.n V.m f_ (P.convert_to_nal i V.n V.m)) +
            coefficient V.n V.m f_ (P.convert_to_nal (N - 1) V.n V.m)) * (s * y t),
        (List.range N).map (fun i =>
          acc.getD i 0 + coefficient V.n V.m f_ (P.convert_to_nal i V.n V.m) * y t)) := by
  have hI : ∀ i, i < N →
      ((List.range N).map (fun i => P.convert_to_nal i V.n V.m))[i]? =
        some (P.convert_to_nal i V.n V.m) := by
    intro i hi
    rw [List.getElem?_map, List.getElem?_range hi]; rfl
  have hloop := batch_coefficients_loop V (y t) f_
    ((List.range N).map (fun i => P.convert_to_nal i V.n V.m)) acc
    (fun i => coefficient V.n V.m f_ (P.convert_to_nal i V.n V.m)) (N - 1) (by omega)
    (fun i hi => ⟨_, hI i (by omega), hcf i (by omega)⟩)
  have hlen : ((List.range (N - 1)).map (fun i =>
      acc.getD i 0 + coefficient V.n V.m f_ (P.convert_to_nal i V.n V.m) * y t)).length =
      N - 1 := by simp
  have hlt : N - 1 < acc.length := by omega
  have hdrop : acc.drop (N - 1) = [acc[N - 1]] := by
    rw [List.drop_eq_getElem_cons hlt, List.drop_eq_nil_of_le (by omega)]
  have hold : ((List.range (N - 1)).map (fun i =>
      acc.getD i 0 + coefficient V.n V.m f_ (P.convert_to_nal i V.n V.m) * y t) ++
      acc.drop (N - 1))[N - 1]? = some (acc.getD (N - 1) 0) := by
    rw [List.getElem?_append_right (by omega), hlen, Nat.sub_self, hdrop,
      List.getD_eq_getElem?_getD, List.getElem?_eq_getElem hlt]
    simp
  have hset : ((List.range (N - 1)).map (fun i =>
      acc.getD i 0 + coefficient V.n V.m f_ (P.convert_to_nal i V.n V.m) * y t) ++
      acc.drop (N - 1)).set (N - 1)
        (acc.getD (N - 1) 0 +
          coefficient V.n V.m f_ (P.convert_to_nal (N - 1) V.n V.m) * y t) =
      (List.range N).map (fun i =>
        acc.getD i 0 + coefficient V.n V.m f_ (P.convert_to_nal i V.n V.m) * y t) := by
    rw [List.set_append_right _ _ (by omega), hlen, Nat.sub_self, hdrop, List.set_cons_zero]
    conv_rhs => rw [show N = N - 1 + 1 by omega, List.range_succ, List.map_append]
    rfl
  unfold batch_step
  simp only [hh0, hh1, batch_coefficients, hloop, hI (N - 1) (by omega), hpow, hold, hs, hset]

end FullSet

section SingleProof

variable {F G : Type} [Field F] [DecidableEq F] [AddCommGroup G] [Module F G] [DecidableEq G]

omit [DecidableEq F] [DecidableEq G] in
theorem smul_cancel_iff (y : F) (hy : y ≠ 0) (a b : G) : y • a = y • b ↔ a = b := by
  constructor
  · intro h
    have := congrArg (fun z => y⁻¹ • z) h
    simpa [smul_smul, inv_mul_cancel₀ hy] using this
  · intro h; rw [h]

omit [AddCommGroup G] [Module F G] [DecidableEq G] in
theorem compute_fs_cases (V : SigmaPlusVerifier F G) (p : SigmaPlusProof F G) (x : F)
    (hx : x ∉ p.f_) (hpos : 1 ≤ V.n ^ V.m) :
    compute_fs V p x [] = none ∨
      (compute_fs V p x [] = some (true, fs_table V.n p.f_ x V.m) ∧
        (fs_table V.n p.f_ x V.m).length = V.m * V.n) := by
  have hx' : ∀ a ∈ p.f_, a ≠ x := fun a ha e => hx (e ▸ ha)
  have hany : ¬ (p.f_.any (fun a => decide (a = x)) = true) := by
    rw [List.any_eq_true]
    rintro ⟨a, ha, hax⟩
    exact hx' a ha (of_decide_eq_true hax)
  by_cases hm : V.m = 0
  · right
    constructor
    · simp only [compute_fs, if_neg hany, hm, forLoop, fs_table]
    · rw [hm]; simp [fs_table]
  · have hn : 1 ≤ V.n := by
      by_contra hc
      have h0 : V.n = 0 := by omega
      rw [h0, zero_pow hm] at hpos
      omega
    by_cases hle : V.m * (V.n - 1) ≤ p.f_.length
    · exact Or.inr ⟨compute_fs_eq V p x hn hle hx', length_fs_table V.n p.f_ x V.m hn hle⟩
    · left
      cases h : compute_fs V p x [] with
      | none => rfl
      | some r =>
        exfalso
        obtain ⟨b, out⟩ := r
        have hb : b = true := by
          unfold compute_fs at h
          rw [if_neg hany] at h
          split at h
          · simp at h
          · exact (Prod.mk.inj (Option.some.inj h)).1.symm
        rw [hb] at h
        exact hle (compute_fs_true_len V p x out h)

/-- C1 (batch/single equivalence), as the code has it: for a commitment list of length exactly
`n^m` (and at least 1), the serial `0`, a proof with no component of `f` equal to `x`, and a
nonzero weight `y 0`, `batchverify(commitments, x, [0], [p])` returns what
`verify(commitments, x, p)` returns, provided `convert_to_nal` yields `m` digits below `n` for
every index below `n^m`, all of them `n-1` for the last index `n^m - 1`. -/
theorem batchverify_single_eq_verify (P : Primitives F G) (V : SigmaPlusVerifier F G)
    (y : Nat → F) (commits : List G) (x : F) (p : SigmaPlusProof F G)
    (hy : y 0 ≠ 0)
    (hx : x ∉ p.f_)
    (hNpos : 1 ≤ commits.length)
    (hN : commits.length = V.n ^ V.m)
    (hdig : ∀ i, i < V.n ^ V.m → (P.convert_to_nal i V.n V.m).length = V.m ∧
      ∀ d ∈ P.convert_to_nal i V.n V.m, d < V.n)
    (hlast : ∀ d ∈ P.convert_to_nal (V.n ^ V.m - 1) V.n V.m, d = V.n - 1) :
    batchverify P V y commits x [0] [p] = verify P V commits x p := by
  have hne : ¬ (commits.isEmpty = true) := by
    rw [List.isEmpty_iff]
    intro e
    rw [e] at hNpos
    simp at hNpos
  rcases compute_fs_cases V p x hx (by rw [← hN]; exact hNpos) with hnone | ⟨hfs, htab⟩
  · unfold batchverify verify
    simp only [if_neg hne, batch_membership, batch_compute_fs, hnone]
    cases membership_checks P V p with
    | none => rfl
    | some b => cases b <;> rfl
  -- every coefficient is defined
  have hget : ∀ i, i < V.n ^ V.m → ∀ j, j < V.m →
      (P.convert_to_nal i V.n V.m).getD j 0 ∈ P.convert_to_nal i V.n V.m := by
    intro i hi j hj
    have hjl : j < (P.convert_to_nal i V.n V.m).length := by rw [(hdig i hi).1]; exact hj
    rw [List.getD_eq_getElem?_getD, List.getElem?_eq_getElem hjl]
    exact List.getElem_mem hjl
  have hcf : ∀ i, i < commits.length → compute_f_i V (fs_table V.n p.f_ x V.m)
      (P.convert_to_nal i V.n V.m) =
      some (coefficient V.n V.m (fs_table V.n p.f_ x V.m) (P.convert_to_nal i V.n V.m)) := by
    intro i hi
    rw [hN] at hi
    apply compute_f_i_eq V _ _ (by rw [(hdig i hi).1])
    intro j hj
    have hd := (hdig i hi).2 _ (hget i hi j hj)
    rw [htab]
    have h1 : (j + 1) * V.n ≤ V.m * V.n := Nat.mul_le_mul_right _ (by omega)
    have h2 : (j + 1) * V.n = j * V.n + V.n := by ring
    omega
  have hpow : last_index_pow V x (fs_table V.n p.f_ x V.m)
      (P.convert_to_nal (commits.length - 1) V.n V.m) =
      some (coefficient V.n V.m (fs_table V.n p.f_ x V.m)
        (P.convert_to_nal (commits.length - 1) V.n V.m)) := by
    have hi : commits.length - 1 < V.n ^ V.m := by omega
    apply last_index_pow_full V x _ _ (by rw [(hdig _ hi).1])
    · intro j hj
      have hd := (hdig _ hi).2 _ (hget _ hi j hj)
      rw [htab]
      have h1 : (j + 1) * V.n ≤ V.m * V.n := Nat.mul_le_mul_right _ (by omega)
      have h2 : (j + 1) * V.n = j * V.n + V.n := by ring
      omega
    · intro j hj
      have hm := hget _ hi j hj
      have := hlast _ (by rw [hN] at hm; exact hm)
      rw [hN] at *
      omega
  have hvloop := verify_coefficient_loop P V (fs_table V.n p.f_ x V.m) commits.length hcf
  unfold batchverify verify
  simp only [if_neg hne, batch_membership, batch_compute_fs, hfs, hvloop]
  cases hmc : membership_checks P V p with
  | none => rfl
  | some b =>
    cases b with
    | false => rfl
    | true =>
      cases hab : abcd_checks P V p x (fs_table V.n p.f_ x V.m) with
      | false => simp only [if_true]
      | true =>
        simp only [Bool.true_eq_false, if_false, List.zip_cons_cons, List.zip_nil_right,
          batch_main, batch_t2]
        cases hh0 : V.h_[0]? with
        | none =>
          simp only [batch_step, hh0]
          cases fold_GkQk V x p.Gk_ p.Qk <;> rfl
        | some h0 =>
          cases hh1 : V.h_[1]? with
          | none =>
            simp only [batch_step, hh0, hh1]
            cases fold_GkQk V x p.Gk_ p.Qk <;> rfl
          | some h1 =>
            have hstep := batch_step_full P V y x [0] commits.length 0 p
              (fs_table V.n p.f_ x V.m) 0 0 (List.replicate commits.length 0) h0 h1 0 hNpos
              (by simp) hh0 hh1 rfl hcf hpow
            simp only [hstep]
            cases hfold : fold_GkQk V x p.Gk_ p.Qk with
            | none => rfl
            | some t2 =>
              have hmap : (List.range commits.length).map (fun i =>
                  (List.replicate commits.length (0 : F)).getD i 0 +
                    coefficient V.n V.m (fs_table V.n p.f_ x V.m)
                      (P.convert_to_nal i V.n V.m) * y 0) =
                  ((List.range commits.length).map (fun i =>
                    coefficient V.n V.m (fs_table V.n p.f_ x V.m)
                      (P.convert_to_nal i V.n V.m))).map (fun c => c * y 0) := by
                rw [List.map_map]
                apply List.map_congr_left
                intro i hi
                have hi' : i < commits.length := List.mem_range.mp hi
                simp [List.getD_eq_getElem?_getD, List.getElem?_replicate, hi']
              simp only [hmap, get_multiple_map_mul, zero_mul, mul_zero, add_zero, zero_add,
                zero_smul, ← smul_add, ne_eq, smul_cancel_iff (y 0) hy]

end SingleProof

/-- C1, witness: four commitments with `n = 2`, `m = 2`, serial `0` and weight `2`. -/
theorem batchverify_single_eq_verify_witness :
    ((2 : ZMod 7) ≠ 0 ∧ [(1 : ZMod 7), 2, 3, 4].length = exV2.n ^ exV2.m) ∧
    batchverify exPrims exV2 (fun _ => 2) [1, 2, 3, 4] 3 [0] [exProof 5 4 1] =
      verify exPrims exV2 [1, 2, 3, 4] 3 (exProof 5 4 1) :=
  ⟨⟨by decide, by decide⟩,
    batchverify_single_eq_verify exPrims exV2 (fun _ => 2) [1, 2, 3, 4] 3 (exProof 5 4 1)
      (by decide) (by decide) (by decide) (by decide) (by decide) (by decide)⟩

/-- C1, counterexample: with a full list (`N = n^m = 4`) and serial `1`, and with a shorter list
(`N = 3`) and serial `0`, `verify` accepts the proof and `batchverify` on the batch of that one
proof, weight `2`, rejects it; on a proof whose digit response equals the challenge
`batchverify` returns false while `verify` reads the empty table out of bounds. -/
theorem batchverify_single_ne_verify :
    (verify exPrims exV2 [1, 2, 3, 4] 3 (exProof 5 4 1) = some true ∧
      batchverify exPrims exV2 (fun _ => 2) [1, 2, 3, 4] 3 [1] [exProof 5 4 1] = some false) ∧
    (verify exPrims exV2 [1, 2, 3] 3 (exProof 5 5 1) = some true ∧
      batchverify exPrims exV2 (fun _ => 2) [1, 2, 3] 3 [0] [exProof 5 5 1] = some false) ∧
    (verify exPrims exV1 [5, 6] 3 exProofDegenerate = none ∧
      batchverify exPrims exV1 (fun _ => 2) [5, 6] 3 [0] [exProofDegenerate] = some false) := by
  decide


/-- C10, witness: the table of the proof with `f = (2, 5)` at the challenge `3`. -/
theorem compute_fs_reconstruction_witness :
    (∀ a ∈ (exProof 5 4 1).f_, a ≠ 3) ∧
    ∃ out, compute_fs exV2 (exProof 5 4 1) 3 [] = some (true, out) ∧
      out.length = exV2.m * exV2.n :=
  have h := compute_fs_reconstruction exV2 (exProof 5 4 1) 3 (by decide) (by decide)
  ⟨by decide, h.choose, h.choose_spec.1, h.choose_spec.2.1⟩

/-! ### Sums over base-`n` digits -/

section DigitSums

variable {R : Type} [CommRing R]

theorem sum_Ico_mul (n : Nat) (g : Nat → R) (a b : Nat) (h : a ≤ b) :
    Finset.sum (Finset.Ico (n * a) (n * b)) g =
      Finset.sum (Finset.Ico a b)
        (fun i => Finset.sum (Finset.range n) (fun d => g (n * i + d))) := by
  induction b, h using Nat.le_induction with
  | base => simp
  | succ b hab ih =>
    rw [Finset.sum_Ico_succ_top hab, ← ih,
      ← Finset.sum_Ico_consecutive g (Nat.mul_le_mul_left n hab)
        (Nat.mul_le_mul_left n (Nat.le_succ b)),
      Finset.sum_Ico_eq_sum_range g (n * b) (n * (b + 1))]
    have e : n * (b + 1) - n * b = n := by rw [Nat.mul_succ]; omega
    rw [e]

theorem digit_shift (n s j : Nat) : s / n ^ (j + 1) = s / n / n ^ j := by
  rw [Nat.div_div_eq_div_mul, pow_succ']

theorem digit_product_low (n : Nat) (f : Nat → Nat → R) (m i d : Nat) (hd : d < n) :
    digit_product n f (m + 1) (n * i + d) =
      f 0 d * digit_product n (fun j => f (j + 1)) m i := by
  have hn : 0 < n := by omega
  have hdiv : (n * i + d) / n = i := by
    rw [Nat.mul_add_div hn, Nat.div_eq_of_lt hd, Nat.add_zero]
  unfold digit_product
  rw [Finset.prod_range_succ', mul_comm]
  congr 1
  · simp [Nat.mul_add_mod, Nat.mod_eq_of_lt hd]
  · apply Finset.prod_congr rfl
    intro j _
    rw [digit_shift, hdiv]

theorem sum_digit_product (n : Nat) (x : R) (m : Nat) (f : Nat → Nat → R)
    (hrow : ∀ j, j < m → Finset.sum (Finset.range n) (fun d => f j d) = x) :
    Finset.sum (Finset.range (n ^ m)) (fun i => digit_product n f m i) = x ^ m := by
  induction m generalizing f with
  | zero => simp [digit_product]
  | succ m ih =>
    have h1 : Finset.range (n ^ (m + 1)) = Finset.Ico (n * 0) (n * n ^ m) := by
      rw [pow_succ', Nat.mul_zero, Finset.range_eq_Ico]
    rw [h1, sum_Ico_mul n _ 0 (n ^ m) (Nat.zero_le _), ← Finset.range_eq_Ico]
    have h2 : ∀ i ∈ Finset.range (n ^ m),
        Finset.sum (Finset.range n) (fun d => digit_product n f (m + 1) (n * i + d)) =
          x * digit_product n (fun j => f (j + 1)) m i := by
      intro i _
      rw [← hrow 0 (Nat.succ_pos m), Finset.sum_mul]
      apply Finset.sum_congr rfl
      intro d hd
      exact digit_product_low n f m i d (Finset.mem_range.mp hd)
    rw [Finset.sum_congr rfl h2, ← Finset.mul_sum,
      ih (fun j => f (j + 1)) (fun j hj => hrow (j + 1) (by omega)), pow_succ']

theorem tail_sum_digit_product (n : Nat) (x : R) (m : Nat) (f : Nat → Nat → R) (s : Nat)
    (hrow : ∀ j, j < m → Finset.sum (Finset.range n) (fun d => f j d) = x)
    (hs : s < n ^ m) :
    Finset.sum (Finset.Ico (s + 1) (n ^ m)) (fun i => digit_product n f m i) =
      Finset.sum (Finset.range m) (fun j =>
        Finset.sum (Finset.Ico (s / n ^ j % n + 1) n) (fun d => f j d) * x ^ j *
          Finset.prod (Finset.Ico (j + 1) m) (fun k => f k (s / n ^ k % n))) := by
  induction m generalizing f s with
  | zero =>
    have : s = 0 := by simpa using hs
    simp [this]
  | succ m ih =>
    have hn : 0 < n := by
      rcases Nat.eq_zero_or_pos n with h0 | h0
      · rw [h0, zero_pow (Nat.succ_ne_zero m)] at hs; omega
      · exact h0
    have hsdiv : s / n < n ^ m := by
      rw [Nat.div_lt_iff_lt_mul hn, mul_comm, ← pow_succ']; exact hs
    have hsmod : s % n < n := Nat.mod_lt _ hn
    have hseq : n * (s / n) + s % n = s := Nat.div_add_mod s n
    -- split the range at the next multiple of `n`
    have hle1 : s + 1 ≤ n * (s / n + 1) := by rw [Nat.mul_succ]; omega
    have hle2 : n * (s / n + 1) ≤ n * n ^ m := Nat.mul_le_mul_left n hsdiv
    rw [show n ^ (m + 1) = n * n ^ m from pow_succ' n m,
      ← Finset.sum_Ico_consecutive _ hle1 hle2, sum_Ico_mul n _ _ _ hsdiv]
    -- the indices that share the higher digits of `s`
    have hpart1 : Finset.sum (Finset.Ico (s + 1) (n * (s / n + 1)))
        (fun i => digit_product n f (m + 1) i) =
        Finset.sum (Finset.Ico (s % n + 1) n) (fun d => f 0 d) *
          digit_product n (fun j => f (j + 1)) m (s / n) := by
      have e1 : s + 1 = s % n + 1 + n * (s / n) := by omega
      have e2 : n * (s / n + 1) = n + n * (s / n) := by rw [Nat.mul_succ]; omega
      rw [e1, e2, ← Finset.sum_Ico_add' _ (s % n + 1) n (n * (s / n)), Finset.sum_mul]
      apply Finset.sum_congr rfl
      intro d hd
      rw [Nat.add_comm d, digit_product_low n f m (s / n) d (Finset.mem_Ico.mp hd).2]
    -- the indices with larger higher digits
    have hpart2 : Finset.sum (Finset.Ico (s / n + 1) (n ^ m))
        (fun i => Finset.sum (Finset.range n)
          (fun d => digit_product n f (m + 1) (n * i + d))) =
        x * Finset.sum (Finset.Ico (s / n + 1) (n ^ m))
          (fun i => digit_product n (fun j => f (j + 1)) m i) := by
      rw [Finset.mul_sum]
      apply Finset.sum_congr rfl
      intro i _
      rw [← hrow 0 (Nat.succ_pos m), Finset.sum_mul]
      apply Finset.sum_congr rfl
      intro d hd
      exact digit_product_low n f m i d (Finset.mem_range.mp hd)
    rw [hpart1, hpart2, ih (fun j => f (j + 1)) (s / n) (fun j hj => hrow (j + 1) (by omega))
      hsdiv, Finset.sum_range_succ', Finset.mul_sum, add_comm]
    congr 1
    · apply Finset.sum_congr rfl
      intro j _
      rw [digit_shift n s j,
        ← Finset.prod_Ico_add' (fun k => f k (s / n ^ k % n)) (j + 1) m 1, pow_succ']
      have : ∀ k, s / n ^ (k + 1) = s / n / n ^ k := fun k => digit_shift n s k
      simp only [this]
      ring
    · rw [pow_zero, Nat.div_one, pow_zero, mul_one]
      congr 1
      unfold digit_product
      rw [Finset.range_eq_Ico,
        ← Finset.prod_Ico_add' (fun k => f k (s / n ^ k % n)) 0 m 1]
      apply Finset.prod_congr rfl
      intro k _
      rw [digit_shift]

end DigitSums

/-! ### The last-index block in closed form -/

section LastIndex

variable {F G : Type} [CommRing F]

theorem getElem?_eq_some_getD {α : Type} (l : List α) (i : Nat) (d : α) (h : i < l.length) :
    l[i]? = some (l.getD i d) := by
  rw [List.getD_eq_getElem?_getD, List.getElem?_eq_getElem h]; rfl

theorem mul_add_lt_mul (n m j d : Nat) (hj : j < m) (hd : d < n) : j * n + d < m * n := by
  have h1 : (j + 1) * n ≤ m * n := Nat.mul_le_mul_right _ (by omega)
  have h2 : (j + 1) * n = j * n + n := by ring
  omega

theorem pow_product_loop (V : SigmaPlusVerifier F G) (f_ : List F) (I : List Nat)
    (hI : V.m ≤ I.length) (ht : ∀ j, j < V.m → j * V.n + I.getD j 0 < f_.length) (c : Nat)
    (hc : c ≤ V.m) :
    forLoop (pow_product_step V f_ I) 0 c (1, []) =
      some (Finset.prod (Finset.range c)
          (fun t => f_.getD ((V.m - 1 - t) * V.n + I.getD (V.m - 1 - t) 0) 0),
        (List.range c).map (fun u => Finset.prod (Finset.range u)
          (fun t => f_.getD ((V.m - 1 - t) * V.n + I.getD (V.m - 1 - t) 0) 0))) := by
  induction c with
  | zero => simp [forLoop]
  | succ c ih =>
    rw [forLoop_succ_last, ih (by omega)]
    have hj : V.m - 1 - c < V.m := by omega
    have h1 := getElem?_eq_some_getD I (V.m - 1 - c) 0 (by omega)
    have h2 := getElem?_eq_some_getD f_ _ 0 (ht _ hj)
    simp only [Option.some_bind, Nat.zero_add, pow_product_step, h1, h2,
      Finset.prod_range_succ, List.range_succ, List.map_append, List.map_cons, List.map_nil]

theorem fi_sum_loop (V : SigmaPlusVerifier F G) (f_ : List F) (j start cnt : Nat) (a : F)
    (h : j * V.n + start + cnt ≤ f_.length) :
    forLoop (fi_sum_step V f_ j) start cnt a =
      some (a + Finset.sum (Finset.range cnt) (fun k => f_.getD (j * V.n + (start + k)) 0)) := by
  induction cnt with
  | zero => simp [forLoop]
  | succ c ih =>
    rw [forLoop_succ_last, ih (by omega)]
    have h2 := getElem?_eq_some_getD f_ (j * V.n + (start + c)) 0 (by omega)
    simp only [Option.some_bind, fi_sum_step, h2, Finset.sum_range_succ, add_assoc]

theorem pow_sum_loop (V : SigmaPlusVerifier F G) (x : F) (f_ : List F) (I : List Nat)
    (fpp : List F) (pow0 : F) (hI : V.m ≤ I.length) (hd : ∀ j, j < V.m → I.getD j 0 < V.n)
    (hF : f_.length = V.m * V.n) (hfpp : fpp.length = V.m) (c : Nat) (hc : c ≤ V.m) :
    forLoop (pow_sum_step V x f_ I fpp) 0 c (pow0, 1) =
      some (pow0 + Finset.sum (Finset.range c) (fun j =>
          Finset.sum (Finset.Ico (I.getD j 0 + 1) V.n) (fun i => f_.getD (j * V.n + i) 0) *
            x ^ j * fpp.getD (V.m - j - 1) 0),
        x ^ c) := by
  induction c with
  | zero => simp [forLoop]
  | succ c ih =>
    rw [forLoop_succ_last, ih (by omega)]
    have hcm : c < V.m := by omega
    have h1 := getElem?_eq_some_getD I c 0 (by omega)
    have hdc := hd c hcm
    have hin : c * V.n + (I.getD c 0 + 1) + (V.n - (I.getD c 0 + 1)) ≤ f_.length := by
      have := mul_add_lt_mul V.n V.m c (V.n - 1) hcm (by omega)
      rw [hF]; omega
    have h2 := fi_sum_loop V f_ c (I.getD c 0 + 1) (V.n - (I.getD c 0 + 1)) 0 hin
    have h3 := getElem?_eq_some_getD fpp (V.m - c - 1) 0 (by omega)
    simp only [Option.some_bind, Nat.zero_add, pow_sum_step, h1, h2, h3, zero_add,
      Finset.sum_range_succ, Finset.sum_Ico_eq_sum_range, pow_succ, add_assoc]

theorem prod_reflect_Ico (a : Nat → F) (m j : Nat) (hj : j < m) :
    Finset.prod (Finset.range (m - j - 1)) (fun t => a (m - 1 - t)) =
      Finset.prod (Finset.Ico (j + 1) m) a := by
  rw [Finset.prod_Ico_eq_prod_range,
    ← Finset.prod_range_reflect (fun k => a (j + 1 + k)) (m - (j + 1))]
  have e : m - j - 1 = m - (j + 1) := by omega
  rw [e]
  apply Finset.prod_congr rfl
  intro t ht
  have := Finset.mem_range.mp ht
  congr 1
  omega

theorem last_index_pow_eq (V : SigmaPlusVerifier F G) (x : F) (f_ : List F) (I : List Nat)
    (hI : V.m ≤ I.length) (hd : ∀ j, j < V.m → I.getD j 0 < V.n)
    (hF : f_.length = V.m * V.n) :
    last_index_pow V x f_ I =
      some (coefficient V.n V.m f_ I + Finset.sum (Finset.range V.m) (fun j =>
        Finset.sum (Finset.Ico (I.getD j 0 + 1) V.n) (fun i => f_.getD (j * V.n + i) 0) *
          x ^ j *
          Finset.prod (Finset.Ico (j + 1) V.m)
            (fun k => f_.getD (k * V.n + I.getD k 0) 0))) := by
  have ht : ∀ j, j < V.m → j * V.n + I.getD j 0 < f_.length := by
    intro j hj
    rw [hF]
    exact mul_add_lt_mul V.n V.m j _ hj (hd j hj)
  have h1 := pow_product_loop V f_ I hI ht V.m (le_refl _)
  have h2 := pow_sum_loop V x f_ I
    ((List.range V.m).map (fun u => Finset.prod (Finset.range u)
      (fun t => f_.getD ((V.m - 1 - t) * V.n + I.getD (V.m - 1 - t) 0) 0)))
    (Finset.prod (Finset.range V.m)
      (fun t => f_.getD ((V.m - 1 - t) * V.n + I.getD (V.m - 1 - t) 0) 0))
    hI hd hF (by simp) V.m (le_refl _)
  unfold last_index_pow
  rw [h1]
  simp only
  rw [h2]
  simp only [coefficient]
  congr 2
  · exact Finset.prod_range_reflect (fun j => f_.getD (j * V.n + I.getD j 0) 0) V.m
  · apply Finset.sum_congr rfl
    intro j hj
    have hjm : j < V.m := Finset.mem_range.mp hj
    congr 1
    rw [List.getD_eq_getElem?_getD, List.getElem?_map,
      List.getElem?_range (show V.m - j - 1 < V.m by omega)]
    exact prod_reflect_Ico (fun k => f_.getD (k * V.n + I.getD k 0) 0) V.m j hjm

end LastIndex

/-! ### Coefficients over least-significant-first digits -/

section TailSum

variable {F G : Type} [CommRing F]

theorem getD_convert_to_nal (i n m j : Nat) (hj : j < m) :
    (convert_to_nal i n m).getD j 0 = i / n ^ j % n := by
  unfold convert_to_nal
  rw [List.getD_eq_getElem?_getD, List.getElem?_map, List.getElem?_range hj]
  rfl

theorem coefficient_convert_to_nal (n m : Nat) (f_ : List F) (i : Nat) :
    coefficient n m f_ (convert_to_nal i n m) =
      digit_product n (fun j d => f_.getD (j * n + d) 0) m i := by
  unfold coefficient digit_product
  apply Finset.prod_congr rfl
  intro j hj
  rw [getD_convert_to_nal i n m j (Finset.mem_range.mp hj)]

theorem tail_sum_coefficient (n m : Nat) (f_ : List F) (x : F) (s : Nat)
    (hrow : ∀ j, j < m →
      Finset.sum (Finset.range n) (fun d => f_.getD (j * n + d) 0) = x)
    (hs : s < n ^ m) :
    Finset.sum (Finset.Ico (s + 1) (n ^ m))
        (fun i => coefficient n m f_ (convert_to_nal i n m)) =
      Finset.sum (Finset.range m) (fun j =>
        Finset.sum (Finset.Ico ((convert_to_nal s n m).getD j 0 + 1) n)
            (fun i => f_.getD (j * n + i) 0) *
          Finset.prod (Finset.Ico (j + 1) m)
            (fun k => f_.getD (k * n + (convert_to_nal s n m).getD k 0) 0) *
          x ^ j) := by
  have h := tail_sum_digit_product n x m (fun j d => f_.getD (j * n + d) 0) s hrow hs
  simp only [coefficient_convert_to_nal]
  rw [h]
  apply Finset.sum_congr rfl
  intro j hj
  have hjm : j < m := Finset.mem_range.mp hj
  rw [getD_convert_to_nal s n m j hjm]
  have hp : Finset.prod (Finset.Ico (j + 1) m)
      (fun k => f_.getD (k * n + (convert_to_nal s n m).getD k 0) 0) =
      Finset.prod (Finset.Ico (j + 1) m) (fun k => f_.getD (k * n + s / n ^ k % n) 0) := by
    apply Finset.prod_congr rfl
    intro k hk
    rw [getD_convert_to_nal s n m k (Finset.mem_Ico.mp hk).2]
  rw [hp]
  ring

theorem last_index_pow_tail (V : SigmaPlusVerifier F G) (x : F) (f_ : List F) (s : Nat)
    (hF : f_.length = V.m * V.n)
    (hrow : ∀ j, j < V.m →
      Finset.sum (Finset.range V.n) (fun d => f_.getD (j * V.n + d) 0) = x)
    (hs : s < V.n ^ V.m) :
    last_index_pow V x f_ (convert_to_nal s V.n V.m) =
      some (Finset.sum (Finset.Ico s (V.n ^ V.m))
        (fun i => coefficient V.n V.m f_ (convert_to_nal i V.n V.m))) := by
  have hn : V.m = 0 ∨ 0 < V.n := by
    rcases Nat.eq_zero_or_pos V.n with h0 | h0
    · left
      by_contra hm
      rw [h0, zero_pow hm] at hs
      omega
    · exact Or.inr h0
  have hI : V.m ≤ (convert_to_nal s V.n V.m).length := by simp [convert_to_nal]
  have hd : ∀ j, j < V.m → (convert_to_nal s V.n V.m).getD j 0 < V.n := by
    intro j hj
    rw [getD_convert_to_nal s V.n V.m j hj]
    rcases hn with h | h
    · omega
    · exact Nat.mod_lt _ h
  rw [last_index_pow_eq V x f_ _ hI hd hF, Finset.sum_eq_sum_Ico_succ_bot hs,
    tail_sum_coefficient V.n V.m f_ x s hrow hs]
  congr 2
  apply Finset.sum_congr rfl
  intro j _
  ring

theorem last_index_pow_tail_conv (P : Primitives F G) (V : SigmaPlusVerifier F G) (x : F)
    (f_ : List F) (N : Nat)
    (hconv : ∀ i, i < V.n ^ V.m → P.convert_to_nal i V.n V.m = convert_to_nal i V.n V.m)
    (hF : f_.length = V.m * V.n)
    (hrow : ∀ j, j < V.m →
      Finset.sum (Finset.range V.n) (fun d => f_.getD (j * V.n + d) 0) = x)
    (hN1 : 1 ≤ N) (hN : N ≤ V.n ^ V.m) :
    last_index_pow V x f_ (P.convert_to_nal (N - 1) V.n V.m) =
      some (Finset.sum (Finset.Ico (N - 1) (V.n ^ V.m))
        (fun i => coefficient V.n V.m f_ (P.convert_to_nal i V.n V.m))) := by
  rw [hconv (N - 1) (by omega), last_index_pow_tail V x f_ (N - 1) hF hrow (by omega)]
  congr 1
  apply Finset.sum_congr rfl
  intro i hi
  rw [hconv i (Finset.mem_Ico.mp hi).2]

/-- C16 (shortcut identity), with the inner product starting at `k = j + 1`, as the code
computes it: for a table `f_` whose rows `j < m` each sum to `x` and every index `s < n^m`,
`Σ_{i=s+1}^{n^m-1} ∏_{j<m} f[j][i_j] =
 Σ_{j<m} (Σ_{i=s_j+1}^{n-1} f[j][i]) * (∏_{k=j+1}^{m-1} f[k][s_k]) * x^j`,
the digits `i_j`, `s_j` being those of `convert_to_nal`, least significant first. -/
theorem shortcut_identity (n m : Nat) (f_ : List F) (x : F) (s : Nat)
    (hrow : ∀ j, j < m →
      Finset.sum (Finset.range n) (fun d => f_.getD (j * n + d) 0) = x)
    (hs : s < n ^ m) :
    Finset.sum (Finset.Ico (s + 1) (n ^ m))
        (fun i => coefficient n m f_ (convert_to_nal i n m)) =
      Finset.sum (Finset.range m) (fun j =>
        Finset.sum (Finset.Ico ((convert_to_nal s n m).getD j 0 + 1) n)
            (fun i => f_.getD (j * n + i) 0) *
          Finset.prod (Finset.Ico (j + 1) m)
            (fun k => f_.getD (k * n + (convert_to_nal s n m).getD k 0) 0) *
          x ^ j) :=
  tail_sum_coefficient n m f_ x s hrow hs

/-- C17 (tail-sum meaning of the shortcut): when `convert_to_nal` returns the `m` base-`n`
digits of `i` least-significant first, for every table of `m` rows of `n` scalars whose rows
each sum to `x` and every `N` with `1 ≤ N ≤ n^m`, the value `pow` computed by the last-index
block of `batchverify` is `Σ_{i=N-1}^{n^m-1} ∏_{j<m} F[j*n + digit_j(i)]`. -/
theorem last_index_pow_eq_tail_sum (P : Primitives F G) (V : SigmaPlusVerifier F G) (x : F)
    (f_ : List F) (N : Nat)
    (hconv : ∀ i, i < V.n ^ V.m → P.convert_to_nal i V.n V.m = convert_to_nal i V.n V.m)
    (hF : f_.length = V.m * V.n)
    (hrow : ∀ j, j < V.m →
      Finset.sum (Finset.range V.n) (fun d => f_.getD (j * V.n + d) 0) = x)
    (hN1 : 1 ≤ N) (hN : N ≤ V.n ^ V.m) :
    last_index_pow V x f_ (P.convert_to_nal (N - 1) V.n V.m) =
      some (Finset.sum (Finset.Ico (N - 1) (V.n ^ V.m))
        (fun i => coefficient V.n V.m f_ (P.convert_to_nal i V.n V.m))) :=
  last_index_pow_tail_conv P V x f_ N hconv hF hrow hN1 hN

end TailSum

/-- C16, counterexample: for the table with rows `(1, 2)` and `(5, 5)`, which sum to `3`, and
`s = 0`, the sum of the coefficients of the indices `1, 2, 3` (which is `4`) differs from the
right-hand side with the inner product starting at `k = j`, as the comment in `batchverify`
writes it (which is `1`). -/
theorem comment_identity_fails :
    (∀ j, j < 2 → Finset.sum (Finset.range 2)
      (fun d => ([1, 2, 5, 5] : List (ZMod 7)).getD (j * 2 + d) 0) = 3) ∧
    Finset.sum (Finset.Ico (0 + 1) (2 ^ 2))
        (fun i => coefficient 2 2 ([1, 2, 5, 5] : List (ZMod 7)) (convert_to_nal i 2 2)) ≠
      Finset.sum (Finset.range 2) (fun j =>
        Finset.sum (Finset.Ico ((convert_to_nal 0 2 2).getD j 0 + 1) 2)
            (fun i => ([1, 2, 5, 5] : List (ZMod 7)).getD (j * 2 + i) 0) *
          Finset.prod (Finset.Ico j 2)
            (fun k => ([1, 2, 5, 5] : List (ZMod 7)).getD
              (k * 2 + (convert_to_nal 0 2 2).getD k 0) 0) *
          (3 : ZMod 7) ^ j) := by
  decide

/-- C16, witness: the same table and `s = 0`. -/
theorem shortcut_identity_witness :
    (0 < 2 ^ 2) ∧
    Finset.sum (Finset.Ico (0 + 1) (2 ^ 2))
        (fun i => coefficient 2 2 ([1, 2, 5, 5] : List (ZMod 7)) (convert_to_nal i 2 2)) =
      Finset.sum (Finset.range 2) (fun j =>
        Finset.sum (Finset.Ico ((convert_to_nal 0 2 2).getD j 0 + 1) 2)
            (fun i => ([1, 2, 5, 5] : List (ZMod 7)).getD (j * 2 + i) 0) *
          Finset.prod (Finset.Ico (j + 1) 2)
            (fun k => ([1, 2, 5, 5] : List (ZMod 7)).getD
              (k * 2 + (convert_to_nal 0 2 2).getD k 0) 0) *
          (3 : ZMod 7) ^ j) :=
  ⟨by decide, shortcut_identity 2 2 [1, 2, 5, 5] 3 0 (by decide) (by decide)⟩

/-- C17, witness: three commitments with `n = 2`, `m = 2` and the same table. -/
theorem last_index_pow_eq_tail_sum_witness :
    (3 ≤ exV2.n ^ exV2.m) ∧
    last_index_pow exV2 3 [1, 2, 5, 5] (exPrims.convert_to_nal (3 - 1) exV2.n exV2.m) =
      some (Finset.sum (Finset.Ico (3 - 1) (exV2.n ^ exV2.m))
        (fun i => coefficient exV2.n exV2.m [1, 2, 5, 5]
          (exPrims.convert_to_nal i exV2.n exV2.m))) :=
  ⟨by decide, last_index_pow_eq_tail_sum exPrims exV2 3 [1, 2, 5, 5] 3 (fun _ _ => rfl)
    (by decide) (by decide) (by decide) (by decide)⟩

/-! ### One round of the main loop of `batchverify` -/

section BatchStep

variable {F G : Type} [CommRing F] [AddCommGroup G] [Module F G]

theorem batch_step_eq (P : Primitives F G) (V : SigmaPlusVerifier F G) (y : Nat → F) (x : F)
    (serials : List F) (N t : Nat) (p : SigmaPlusProof F G) (f_ : List F) (r : G) (ex : F)
    (acc : List F) (h0 h1 : G) (s pw : F) (hN : 1 ≤ N) (hacc : acc.length = N)
    (hh0 : V.h_[0]? = some h0) (hh1 : V.h_[1]? = some h1) (hs : serials[t]? = some s)
    (hcf : ∀ i, i < N → compute_f_i V f_ (P.convert_to_nal i V.n V.m) =
      some (coefficient V.n V.m f_ (P.convert_to_nal i V.n V.m)))
    (hpow : last_index_pow V x f_ (P.convert_to_nal (N - 1) V.n V.m) = some pw) :
    batch_step P V y x serials ((List.range N).map (fun i => P.convert_to_nal i V.n V.m)) N t
        p f_ (r, ex, acc) =
      some (r + y t • P.double_commit V.g_ 0 h0 p.zV_ h1 p.zR_,
        ex + (Finset.sum (Finset.range (N - 1))
              (fun i => coefficient V.n V.m f_ (P.convert_to_nal i V.n V.m)) + pw) *
            (s * y t),
        (List.range N).map (fun i =>
          acc.getD i 0 + batch_coefficient
            (fun i => coefficient V.n V.m f_ (P.convert_to_nal i V.n V.m)) pw N i * y t)) := by
  have hI : ∀ i, i < N →
      ((List.range N).map (fun i => P.convert_to_nal i V.n V.m))[i]? =
        some (P.convert_to_nal i V.n V.m) := by
    intro i hi
    rw [List.getElem?_map, List.getElem?_range hi]; rfl
  have hloop := batch_coefficients_loop V (y t) f_
    ((List.range N).map (fun i => P.convert_to_nal i V.n V.m)) acc
    (fun i => coefficient V.n V.m f_ (P.convert_to_nal i V.n V.m)) (N - 1) (by omega)
    (fun i hi => ⟨_, hI i (by omega), hcf i (by omega)⟩)
  have hlen : ((List.range (N - 1)).map (fun i =>
      acc.getD i 0 + coefficient V.n V.m f_ (P.convert_to_nal i V.n V.m) * y t)).length =
      N - 1 := by simp
  have hlt : N - 1 < acc.length := by omega
  have hdrop : acc.drop (N - 1) = [acc[N - 1]] := by
    rw [List.drop_eq_getElem_cons hlt, List.drop_eq_nil_of_le (by omega)]
  have hold : ((List.range (N - 1)).map (fun i =>
      acc.getD i 0 + coefficient V.n V.m f_ (P.convert_to_nal i V.n V.m) * y t) ++
      acc.drop (N - 1))[N - 1]? = some (acc.getD (N - 1) 0) := by
    rw [List.getElem?_append_right (by omega), hlen, Nat.sub_self, hdrop,
      List.getD_eq_getElem?_getD, List.getElem?_eq_getElem hlt]
    simp
  have hset : ((List.range (N - 1)).map (fun i =>
      acc.getD i 0 + coefficient V.n V.m f_ (P.convert_to_nal i V.n V.m) * y t) ++
      acc.drop (N - 1)).set (N - 1) (acc.getD (N - 1) 0 + pw * y t) =
      (List.range N).map (fun i =>
        acc.getD i 0 + batch_coefficient
          (fun i => coefficient V.n V.m f_ (P.convert_to_nal i V.n V.m)) pw N i * y t) := by
    rw [List.set_append_right _ _ (by omega), hlen, Nat.sub_self, hdrop, List.set_cons_zero]
    conv_rhs => rw [show N = N - 1 + 1 by omega, List.range_succ, List.map_append]
    congr 1
    · apply List.map_congr_left
      intro i hi
      have hi' : i + 1 < N - 1 + 1 := by have := List.mem_range.mp hi; omega
      simp only [batch_coefficient, if_pos hi']
    · have hne : ¬ (N - 1 + 1 < N - 1 + 1) := by omega
      simp only [List.map_cons, List.map_nil, batch_coefficient, if_neg hne]
  unfold batch_step
  simp only [hh0, hh1, batch_coefficients, hloop, hI (N - 1) (by omega), hpow, hold, hs, hset]

theorem get_multiple_range (gens : List G) (c : Nat → F) :
    get_multiple gens ((List.range gens.length).map c) =
      Finset.sum (Finset.range gens.length) (fun i => c i • gens.getD i 0) := by
  induction gens generalizing c with
  | nil => simp [get_multiple]
  | cons g gs ih =>
    have e := ih (fun i => c (i + 1))
    simp only [get_multiple] at e
    rw [List.length_cons, List.range_succ_eq_map, Finset.sum_range_succ', add_comm]
    simp only [get_multiple, List.map_cons, List.map_map, List.zipWith_cons_cons, List.sum_cons]
    congr 1

omit [CommRing F] [AddCommGroup G] [Module F G] in
theorem digits_of_conv (P : Primitives F G) (V : SigmaPlusVerifier F G)
    (hconv : ∀ i, i < V.n ^ V.m → P.convert_to_nal i V.n V.m = convert_to_nal i V.n V.m)
    (i : Nat) (hi : i < V.n ^ V.m) :
    (P.convert_to_nal i V.n V.m).length = V.m ∧
      ∀ j, j < V.m → (P.convert_to_nal i V.n V.m).getD j 0 < V.n := by
  rw [hconv i hi]
  refine ⟨by simp [convert_to_nal], ?_⟩
  intro j hj
  rw [getD_convert_to_nal i V.n V.m j hj]
  apply Nat.mod_lt
  rcases Nat.eq_zero_or_pos V.n with h0 | h0
  · rw [h0, zero_pow (by omega)] at hi; omega
  · exact h0

omit [AddCommGroup G] [Module F G] in
theorem coefficients_defined (P : Primitives F G) (V : SigmaPlusVerifier F G) (f_ : List F)
    (hconv : ∀ i, i < V.n ^ V.m → P.convert_to_nal i V.n V.m = convert_to_nal i V.n V.m)
    (hF : f_.length = V.m * V.n) (i : Nat) (hi : i < V.n ^ V.m) :
    compute_f_i V f_ (P.convert_to_nal i V.n V.m) =
      some (coefficient V.n V.m f_ (P.convert_to_nal i V.n V.m)) := by
  obtain ⟨hl, hd⟩ := digits_of_conv P V hconv i hi
  apply compute_f_i_eq V f_ _ (by omega)
  intro j hj
  rw [hF]
  exact mul_add_lt_mul V.n V.m j _ hj (hd j hj)

/-- C13 (final-index shortcut), as the code has it: when `convert_to_nal` returns the digits
least-significant first, for a table of `m` rows of `n` scalars whose rows sum to `x` and
`1 ≤ N ≤ n^m`, the round of proof `t` adds to the aggregated coefficient of the last
commitment `y_t` times the tail sum `Σ_{i=N-1}^{n^m-1} ∏_{j<m} F_t[j*n + digit_j(i)]`; this is
`y_t` times the coefficient of index `N-1` when `N = n^m`. -/
theorem last_coefficient_added (P : Primitives F G) (V : SigmaPlusVerifier F G) (y : Nat → F)
    (x : F) (serials : List F) (N t : Nat) (p : SigmaPlusProof F G) (f_ : List F) (r : G)
    (ex : F) (acc : List F)
    (hconv : ∀ i, i < V.n ^ V.m → P.convert_to_nal i V.n V.m = convert_to_nal i V.n V.m)
    (hF : f_.length = V.m * V.n)
    (hrow : ∀ j, j < V.m →
      Finset.sum (Finset.range V.n) (fun d => f_.getD (j * V.n + d) 0) = x)
    (hN1 : 1 ≤ N) (hN : N ≤ V.n ^ V.m) (hacc : acc.length = N)
    (hh : 2 ≤ V.h_.length) (hs : t < serials.length) :
    (∃ st, batch_step P V y x serials
        ((List.range N).map (fun i => P.convert_to_nal i V.n V.m)) N t p f_ (r, ex, acc) =
          some st ∧
      st.2.2[N - 1]? = some (acc.getD (N - 1) 0 +
        y t * Finset.sum (Finset.Ico (N - 1) (V.n ^ V.m))
          (fun i => coefficient V.n V.m f_ (P.convert_to_nal i V.n V.m)))) ∧
    (N = V.n ^ V.m →
      Finset.sum (Finset.Ico (N - 1) (V.n ^ V.m))
          (fun i => coefficient V.n V.m f_ (P.convert_to_nal i V.n V.m)) =
        coefficient V.n V.m f_ (P.convert_to_nal (N - 1) V.n V.m)) := by
  constructor
  · have hstep := batch_step_eq P V y x serials N t p f_ r ex acc (V.h_.getD 0 0)
      (V.h_.getD 1 0) (serials.getD t 0) _ hN1 hacc
      (getElem?_eq_some_getD V.h_ 0 0 (by omega)) (getElem?_eq_some_getD V.h_ 1 0 (by omega))
      (getElem?_eq_some_getD serials t 0 hs)
      (fun i hi => coefficients_defined P V f_ hconv hF i (by omega))
      (last_index_pow_tail_conv P V x f_ N hconv hF hrow hN1 hN)
    refine ⟨_, hstep, ?_⟩
    have hne : ¬ (N - 1 + 1 < N) := by omega
    simp only [List.getElem?_map, List.getElem?_range (show N - 1 < N by omega),
      Option.map_some', batch_coefficient, if_neg hne, mul_comm]
  · intro hNe
    have e : V.n ^ V.m = N - 1 + 1 := by omega
    rw [e, Finset.sum_Ico_succ_top (le_refl _), Finset.Ico_self, Finset.sum_empty, zero_add]

end BatchStep

/-- C13, witness: three commitments with `n = 2`, `m = 2`. -/
theorem last_coefficient_added_witness :
    (3 ≤ exV2.n ^ exV2.m) ∧
    ∃ st, batch_step exPrims exV2 (fun _ => 2) 3 [0]
        ((List.range 3).map (fun i => exPrims.convert_to_nal i exV2.n exV2.m)) 3 0
        (exProof 5 5 1) [1, 2, 5, 5] (0, 0, [0, 0, 0]) = some st ∧
      st.2.2[3 - 1]? = some (([0, 0, 0] : List (ZMod 7)).getD (3 - 1) 0 +
        (fun _ => 2) 0 * Finset.sum (Finset.Ico (3 - 1) (exV2.n ^ exV2.m))
          (fun i => coefficient exV2.n exV2.m [1, 2, 5, 5]
            (exPrims.convert_to_nal i exV2.n exV2.m))) :=
  ⟨by decide, (last_coefficient_added exPrims exV2 (fun _ => 2) 3 [0] 3 0 (exProof 5 5 1)
    [1, 2, 5, 5] 0 0 [0, 0, 0] (fun _ _ => rfl) (by decide) (by decide) (by decide) (by decide)
    (by decide) (by decide) (by decide)).1⟩

/-- C13, counterexample: with three commitments (`n = 2`, `m = 2`, so `n^m = 4`), the table
`(1, 2), (5, 5)` of the proof `exProof 5 5 1` at the challenge `3` and the weight `2`, the round
adds `2` to the coefficient of the last commitment, while `2` times the coefficient of index
`2` is `3`. -/
theorem last_coefficient_not_direct :
    compute_fs exV2 (exProof 5 5 1) 3 [] = some (true, [1, 2, 5, 5]) ∧
    (batch_step exPrims exV2 (fun _ => 2) 3 [0]
        ((List.range 3).map (fun i => exPrims.convert_to_nal i exV2.n exV2.m)) 3 0
        (exProof 5 5 1) [1, 2, 5, 5] (0, 0, [0, 0, 0])).map (fun st => st.2.2) =
      some [3, 6, 2] ∧
    2 * coefficient exV2.n exV2.m ([1, 2, 5, 5] : List (ZMod 7))
      (exPrims.convert_to_nal 2 exV2.n exV2.m) = 3 := by
  decide

/-! ### The fold of `Gk`, `Qk` and the main equation of `verify` -/

section MainEquation

variable {F G : Type} [CommRing F] [AddCommGroup G] [Module F G]

theorem fold_GkQk_loop (x : F) (Gk Qk : List G) (c : Nat) (hg : c ≤ Gk.length)
    (hq : c ≤ Qk.length) :
    forLoop (fold_GkQk_step x Gk Qk) 0 c (0, 1) =
      some (Finset.sum (Finset.range c) (fun k => (-(x ^ k)) • (Gk.getD k 0 + Qk.getD k 0)),
        x ^ c) := by
  induction c with
  | zero => simp [forLoop]
  | succ c ih =>
    rw [forLoop_succ_last, ih (by omega) (by omega)]
    have h1 := getElem?_eq_some_getD Gk c 0 (by omega)
    have h2 := getElem?_eq_some_getD Qk c 0 (by omega)
    simp only [Option.some_bind, Nat.zero_add, fold_GkQk_step, h1, h2, Finset.sum_range_succ,
      pow_succ]

theorem fold_GkQk_eq (V : SigmaPlusVerifier F G) (x : F) (Gk Qk : List G)
    (hg : V.m ≤ Gk.length) (hq : V.m ≤ Qk.length) :
    fold_GkQk V x Gk Qk =
      some (Finset.sum (Finset.range V.m)
        (fun k => (-(x ^ k)) • (Gk.getD k 0 + Qk.getD k 0))) := by
  unfold fold_GkQk
  rw [fold_GkQk_loop x Gk Qk V.m hg hq]

/-- C14 (folding of `Gk`, `Qk`), as the code has it: the scalar applied to `Gk[k] + Qk[k]` is
`-(x^k)` for every `k < m`, even or odd; `verify` uses this sum as `t2`, and `batchverify` adds
it, scaled by `y_t`, for every proof `t`. -/
theorem fold_GkQk_sign (V : SigmaPlusVerifier F G) (y : Nat → F) (x : F)
    (p : SigmaPlusProof F G) (hg : V.m ≤ p.Gk_.length) (hq : V.m ≤ p.Qk.length) :
    fold_GkQk V x p.Gk_ p.Qk =
      some (Finset.sum (Finset.range V.m)
        (fun k => (-(x ^ k)) • (p.Gk_.getD k 0 + p.Qk.getD k 0))) ∧
    ∀ t ps t2, batch_t2 V y x t (p :: ps) t2 =
      batch_t2 V y x (t + 1) ps (t2 + y t • Finset.sum (Finset.range V.m)
        (fun k => (-(x ^ k)) • (p.Gk_.getD k 0 + p.Qk.getD k 0))) := by
  have h := fold_GkQk_eq V x p.Gk_ p.Qk hg hq
  refine ⟨h, ?_⟩
  intro t ps t2
  rw [batch_t2, h]

variable [DecidableEq G]

/-- C12 (consistency check): `abcd_checks(p, x, F)` returns true if and only if
`B*x + A + C*x + D` equals `commit(g, h, [F[i] + F[i]*(x - F[i]) for each i], ZA + ZC)`; the
committed vector has one entry per entry of `F`, in the same order. -/
theorem abcd_checks_iff (P : Primitives F G) (V : SigmaPlusVerifier F G)
    (p : SigmaPlusProof F G) (x : F) (f_ : List F) :
    (abcd_checks P V p x f_ = true ↔
      x • p.B_ + p.A_ + x • p.C_ + p.D_ =
        P.commit V.g_ V.h_ (f_.map (fun a => a + a * (x - a))) (p.ZA_ + p.ZC_)) ∧
    (f_.map (fun a => a + a * (x - a))).length = f_.length ∧
    ∀ i : Nat, (f_.map (fun a => a + a * (x - a)))[i]? =
      (f_[i]?).map (fun a => a + a * (x - a)) := by
  refine ⟨?_, by simp, fun i => by simp⟩
  unfold abcd_checks
  simp only [ne_eq, ite_not]
  constructor
  · intro h
    by_contra hne
    rw [if_neg hne] at h
    simp at h
  · intro h
    rw [if_pos h]

variable [DecidableEq F]

theorem verify_eval (P : Primitives F G) (V : SigmaPlusVerifier F G) (commits : List G)
    (x : F) (p : SigmaPlusProof F G) (f_ : List F) (b : Bool) (t2 h0 h1 : G)
    (hmc : membership_checks P V p = some true)
    (hfs : compute_fs V p x [] = some (b, f_))
    (hab : abcd_checks P V p x f_ = true)
    (hcf : ∀ i, i < commits.length → compute_f_i V f_ (P.convert_to_nal i V.n V.m) =
      some (coefficient V.n V.m f_ (P.convert_to_nal i V.n V.m)))
    (hfold : fold_GkQk V x p.Gk_ p.Qk = some t2)
    (hh0 : V.h_[0]? = some h0) (hh1 : V.h_[1]? = some h1) :
    verify P V commits x p =
      if get_multiple commits ((List.range commits.length).map
          (fun i => coefficient V.n V.m f_ (P.convert_to_nal i V.n V.m))) + t2 =
        P.double_commit V.g_ 0 h0 p.zV_ h1 p.zR_ then some true else some false := by
  unfold verify
  simp only [hmc, hfs, hab, verify_coefficient_loop P V f_ commits.length hcf, hfold, hh0, hh1,
    Bool.true_eq_false, if_false, ne_eq, ite_not]

omit [AddCommGroup G] [Module F G] [DecidableEq G] [DecidableEq F] in
theorem length_fs_table_well_shaped (V : SigmaPlusVerifier F G) (p : SigmaPlusProof F G)
    (x : F) (hlen : (p.f_.length : Int) = (V.m : Int) * ((V.n : Int) - 1)) :
    (fs_table V.n p.f_ x V.m).length = V.m * V.n := by
  rcases well_shaped_cases V p hlen with hm | ⟨hn, hl⟩
  · rw [hm]; simp [fs_table]
  · exact length_fs_table V.n p.f_ x V.m hn (by omega)

/-- C11 (main equation): for a well-shaped proof `p` with no component of `f` equal to `x` and
a commitment list of length `N ≤ n^m` (in particular `1 ≤ N ≤ n^m`), when `convert_to_nal`
returns `m` digits below `n` for every index below `n^m`, `verify(commitments, x, p)` is true
if and only if
`membership_checks(p)` holds, `abcd_checks(p, x, F)` holds for the table `F` reconstructed by
`compute_fs`, and `MSM(commitments, c) + Σ_{k<m} (Gk[k] + Qk[k]) * (-(x^k))` equals
`double_commit(g, 0, h[0], zV, h[1], zR)`, where `c[i] = ∏_{j<m} F[j*n + digit_j(i)]`. -/
theorem verify_main_equation (P : Primitives F G) (V : SigmaPlusVerifier F G)
    (commits : List G) (x : F) (p : SigmaPlusProof F G)
    (hws : well_shaped V p) (hx : x ∉ p.f_) (hN : commits.length ≤ V.n ^ V.m)
    (hdig : ∀ i, i < V.n ^ V.m → (P.convert_to_nal i V.n V.m).length = V.m ∧
      ∀ d ∈ P.convert_to_nal i V.n V.m, d < V.n) :
    verify P V commits x p = some true ↔
      membership_checks P V p = some true ∧
      ∃ f_, compute_fs V p x [] = some (true, f_) ∧ abcd_checks P V p x f_ = true ∧
        ∃ h0 h1, V.h_[0]? = some h0 ∧ V.h_[1]? = some h1 ∧
          get_multiple commits ((List.range commits.length).map
              (fun i => coefficient V.n V.m f_ (P.convert_to_nal i V.n V.m))) +
            Finset.sum (Finset.range V.m)
              (fun k => (-(x ^ k)) • (p.Gk_.getD k 0 + p.Qk.getD k 0)) =
          P.double_commit V.g_ 0 h0 p.zV_ h1 p.zR_ := by
  have hfold := fold_GkQk_eq V x p.Gk_ p.Qk (by rw [hws.2.1]) (by rw [hws.2.2])
  have hfs := compute_fs_well_shaped V p x hws.1 hx
  have htab := length_fs_table_well_shaped V p x hws.1
  have hcf : ∀ i, i < commits.length →
      compute_f_i V (fs_table V.n p.f_ x V.m) (P.convert_to_nal i V.n V.m) =
        some (coefficient V.n V.m (fs_table V.n p.f_ x V.m)
          (P.convert_to_nal i V.n V.m)) := by
    intro i hi
    obtain ⟨hl, hd⟩ := hdig i (by omega)
    apply compute_f_i_eq V _ _ (by omega)
    intro j hj
    have hjl : j < (P.convert_to_nal i V.n V.m).length := by omega
    have hmem : (P.convert_to_nal i V.n V.m).getD j 0 ∈ P.convert_to_nal i V.n V.m := by
      rw [List.getD_eq_getElem?_getD, List.getElem?_eq_getElem hjl]
      exact List.getElem_mem hjl
    rw [htab]
    exact mul_add_lt_mul V.n V.m j _ hj (hd _ hmem)
  constructor
  · intro h
    obtain ⟨hmc, b, f_, hfs', hab, f_i_, hloop, t2, h0, h1, ht2, hh0, hh1, heq⟩ :=
      verify_true_inv P V commits x p h
    rw [hfs] at hfs'
    obtain ⟨_, hf_⟩ := Prod.mk.inj (Option.some.inj hfs')
    subst hf_
    rw [verify_coefficient_loop P V _ commits.length hcf] at hloop
    rw [hfold] at ht2
    rw [← Option.some.inj hloop, ← Option.some.inj ht2] at heq
    exact ⟨hmc, _, hfs, hab, h0, h1, hh0, hh1, heq⟩
  · rintro ⟨hmc, f_, hfs', hab, h0, h1, hh0, hh1, heq⟩
    rw [hfs] at hfs'
    obtain ⟨_, hf_⟩ := Prod.mk.inj (Option.some.inj hfs')
    subst hf_
    rw [verify_eval P V commits x p _ true _ h0 h1 hmc hfs hab hcf hfold hh0 hh1, if_pos heq]

end MainEquation

/-- C14, witness: the fold of `Gk = (1, 2)`, `Qk = (3, 1)` at the challenge `3`, `m = 2`. -/
theorem fold_GkQk_sign_witness :
    exV2.m ≤ (exProof 5 4 1).Gk_.length ∧
    fold_GkQk exV2 3 (exProof 5 4 1).Gk_ (exProof 5 4 1).Qk =
      some (Finset.sum (Finset.range exV2.m)
        (fun k => (-((3 : ZMod 7) ^ k)) •
          ((exProof 5 4 1).Gk_.getD k 0 + (exProof 5 4 1).Qk.getD k 0))) :=
  ⟨by decide, (fold_GkQk_sign exV2 (fun _ => 2) 3 (exProof 5 4 1) (by decide) (by decide)).1⟩

/-- C14, counterexample: for `m = 2`, `x = 3`, `Gk = (1, 2)`, `Qk = (3, 1)` the fold is `1`, not
the sum with the scalars `-((-x)^k)` of alternating sign (which is `5`). -/
theorem fold_GkQk_not_alternating :
    2 ≤ exV2.m ∧
    fold_GkQk exV2 3 [1, 2] [3, 1] = some 1 ∧
    fold_GkQk exV2 3 [1, 2] [3, 1] ≠
      some (Finset.sum (Finset.range exV2.m)
        (fun k => (-((-(3 : ZMod 7)) ^ k)) •
          (([1, 2] : List (ZMod 7)).getD k 0 + ([3, 1] : List (ZMod 7)).getD k 0))) := by
  decide

/-- C11, witness: the accepted proof `exProof 5 4 1` against four commitments. -/
theorem verify_main_equation_witness :
    (3 : ZMod 7) ∉ (exProof 5 4 1).f_ ∧
    (verify exPrims exV2 [1, 2, 3, 4] 3 (exProof 5 4 1) = some true ↔
      membership_checks exPrims exV2 (exProof 5 4 1) = some true ∧
      ∃ f_, compute_fs exV2 (exProof 5 4 1) 3 [] = some (true, f_) ∧
        abcd_checks exPrims exV2 (exProof 5 4 1) 3 f_ = true ∧
        ∃ h0 h1, exV2.h_[0]? = some h0 ∧ exV2.h_[1]? = some h1 ∧
          get_multiple [1, 2, 3, 4] ((List.range [(1 : ZMod 7), 2, 3, 4].length).map
              (fun i => coefficient exV2.n exV2.m f_
                (exPrims.convert_to_nal i exV2.n exV2.m))) +
            Finset.sum (Finset.range exV2.m)
              (fun k => (-((3 : ZMod 7) ^ k)) •
                ((exProof 5 4 1).Gk_.getD k 0 + (exProof 5 4 1).Qk.getD k 0)) =
          exPrims.double_commit exV2.g_ 0 h0 (exProof 5 4 1).zV_ h1 (exProof 5 4 1).zR_) :=
  ⟨by decide, verify_main_equation exPrims exV2 [1, 2, 3, 4] 3 (exProof 5 4 1)
    ⟨by decide, by decide, by decide⟩ (by decide) (by decide) (by decide)⟩

/-! ### The padded and shifted anonymity set -/

section PaddedSet

variable {F G : Type} [CommRing F] [AddCommGroup G] [Module F G]

theorem get_multiple_padded (V : SigmaPlusVerifier F G) (commits : List G) (s : F)
    (cf : Nat → F) (hN1 : 1 ≤ commits.length) (hN : commits.length ≤ V.n ^ V.m) :
    get_multiple (padded_commits V commits s) ((List.range (V.n ^ V.m)).map cf) =
      get_multiple commits ((List.range commits.length).map
        (batch_coefficient cf
          (Finset.sum (Finset.Ico (commits.length - 1) (V.n ^ V.m)) cf) commits.length)) -
        (s * Finset.sum (Finset.range (V.n ^ V.m)) cf) • V.g_ := by
  have hlen : (padded_commits V commits s).length = V.n ^ V.m := by simp [padded_commits]
  have h1 := get_multiple_range (padded_commits V commits s) cf
  rw [hlen] at h1
  rw [h1, get_multiple_range commits]
  have hget : ∀ i ∈ Finset.range (V.n ^ V.m),
      cf i • (padded_commits V commits s).getD i 0 =
        cf i • commits.getD (min i (commits.length - 1)) 0 + (-(s * cf i)) • V.g_ := by
    intro i hi
    have hi' : i < V.n ^ V.m := Finset.mem_range.mp hi
    simp only [padded_commits, List.getD_eq_getElem?_getD, List.getElem?_map,
      List.getElem?_range hi', Option.map_some', Option.getD_some, smul_add, smul_smul]
    congr 2
    ring
  rw [Finset.sum_congr rfl hget, Finset.sum_add_distrib, ← Finset.sum_smul, sub_eq_add_neg,
    ← neg_smul, Finset.mul_sum, Finset.sum_neg_distrib]
  congr 1
  -- split the indices at `N - 1`
  rw [Finset.range_eq_Ico,
    ← Finset.sum_Ico_consecutive _ (Nat.zero_le (commits.length - 1)) (by omega : _ ≤ V.n ^ V.m),
    ← Finset.range_eq_Ico]
  conv_rhs => rw [show commits.length = commits.length - 1 + 1 by omega, Finset.sum_range_succ]
  congr 1
  · apply Finset.sum_congr rfl
    intro i hi
    have hi' : i < commits.length - 1 := Finset.mem_range.mp hi
    have hlt : i + 1 < commits.length - 1 + 1 := by omega
    rw [Nat.min_eq_left (by omega)]
    simp only [batch_coefficient, if_pos hlt]
  · have hnlt : ¬ (commits.length - 1 + 1 < commits.length - 1 + 1) := by omega
    simp only [batch_coefficient, if_neg hnlt, Finset.sum_smul]
    apply Finset.sum_congr rfl
    intro i hi
    rw [Nat.min_eq_right (Finset.mem_Ico.mp hi).1]

omit [AddCommGroup G] [Module F G] in
theorem fs_table_rows_well_shaped (V : SigmaPlusVerifier F G) (p : SigmaPlusProof F G)
    (x : F) (hlen : (p.f_.length : Int) = (V.m : Int) * ((V.n : Int) - 1)) :
    ∀ j, j < V.m → Finset.sum (Finset.range V.n)
      (fun d => (fs_table V.n p.f_ x V.m).getD (j * V.n + d) 0) = x := by
  intro j hj
  rcases well_shaped_cases V p hlen with hm | ⟨hn, hl⟩
  · omega
  · exact sum_fs_table_row V.n p.f_ x V.m j hn (by omega) hj

omit [AddCommGroup G] [Module F G] in
theorem sum_coefficients_conv (P : Primitives F G) (V : SigmaPlusVerifier F G) (f_ : List F)
    (x : F)
    (hconv : ∀ i, i < V.n ^ V.m → P.convert_to_nal i V.n V.m = convert_to_nal i V.n V.m)
    (hrow : ∀ j, j < V.m →
      Finset.sum (Finset.range V.n) (fun d => f_.getD (j * V.n + d) 0) = x) :
    Finset.sum (Finset.range (V.n ^ V.m))
      (fun i => coefficient V.n V.m f_ (P.convert_to_nal i V.n V.m)) = x ^ V.m := by
  rw [← sum_digit_product V.n x V.m (fun j d => f_.getD (j * V.n + d) 0) hrow]
  apply Finset.sum_congr rfl
  intro i hi
  rw [hconv i (Finset.mem_range.mp hi), coefficient_convert_to_nal]

omit [AddCommGroup G] [Module F G] in
theorem sum_range_add_tail (c : Nat → F) (N K : Nat) (hN1 : 1 ≤ N) (hN : N ≤ K) :
    Finset.sum (Finset.range (N - 1)) c + Finset.sum (Finset.Ico (N - 1) K) c =
      Finset.sum (Finset.range K) c := by
  rw [Finset.range_eq_Ico,
    Finset.sum_Ico_consecutive c (Nat.zero_le (N - 1)) (by omega : N - 1 ≤ K)]

theorem batch_round (P : Primitives F G) (V : SigmaPlusVerifier F G) (y : Nat → F) (x : F)
    (serials : List F) (N t : Nat) (p : SigmaPlusProof F G) (r : G) (ex : F) (acc : List F)
    (h0 h1 : G) (s : F)
    (hconv : ∀ i, i < V.n ^ V.m → P.convert_to_nal i V.n V.m = convert_to_nal i V.n V.m)
    (hlen : (p.f_.length : Int) = (V.m : Int) * ((V.n : Int) - 1))
    (hN1 : 1 ≤ N) (hN : N ≤ V.n ^ V.m) (hacc : acc.length = N)
    (hh0 : V.h_[0]? = some h0) (hh1 : V.h_[1]? = some h1) (hs : serials[t]? = some s) :
    batch_step P V y x serials ((List.range N).map (fun i => P.convert_to_nal i V.n V.m)) N t
        p (fs_table V.n p.f_ x V.m) (r, ex, acc) =
      some (r + y t • P.double_commit V.g_ 0 h0 p.zV_ h1 p.zR_,
        ex + x ^ V.m * (s * y t),
        (List.range N).map (fun i =>
          acc.getD i 0 + batch_coefficient
            (fun i => coefficient V.n V.m (fs_table V.n p.f_ x V.m)
              (P.convert_to_nal i V.n V.m))
            (Finset.sum (Finset.Ico (N - 1) (V.n ^ V.m))
              (fun i => coefficient V.n V.m (fs_table V.n p.f_ x V.m)
                (P.convert_to_nal i V.n V.m))) N i * y t)) := by
  have hF := length_fs_table_well_shaped V p x hlen
  have hrow := fs_table_rows_well_shaped V p x hlen
  rw [batch_step_eq P V y x serials N t p _ r ex acc h0 h1 s _ hN1 hacc hh0 hh1 hs
    (fun i hi => coefficients_defined P V _ hconv hF i (by omega))
    (last_index_pow_tail_conv P V x _ N hconv hF hrow hN1 hN),
    sum_range_add_tail _ N _ hN1 hN, sum_coefficients_conv P V _ x hconv hrow]

end PaddedSet

section SingleMeaning

variable {F G : Type} [Field F] [DecidableEq F] [AddCommGroup G] [Module F G] [DecidableEq G]

omit [DecidableEq F] [DecidableEq G] in
theorem single_condition_iff (y s E : F) (hy : y ≠ 0) (T t2 dc g : G) :
    (y • T + (0 + y • t2) = 0 + y • dc + (0 + E * (s * y)) • g) ↔
      (T - (s * E) • g + t2 = dc) := by
  have e1 : y • T + (0 + y • t2) = y • (T + t2) := by rw [zero_add, smul_add]
  have e2 : 0 + y • dc + (0 + E * (s * y)) • g = y • (dc + (s * E) • g) := by
    rw [zero_add, zero_add, smul_add, smul_smul]
    congr 2
    ring
  rw [e1, e2, smul_cancel_iff y hy]
  constructor
  · intro h
    rw [sub_add_eq_add_sub, h, add_sub_cancel_right]
  · intro h
    rw [← h]
    abel

/-- C18 (single-proof meaning of `batchverify`): over a scalar field, for a commitment list of
length `N`, `1 ≤ N ≤ n^m`, every challenge `x`, serial `s`, well-shaped proof `p` with no
component of `f` equal to `x` and nonzero weight `y 0`, when `convert_to_nal` returns the digits
least-significant first, `batchverify(commitments, x, [s], [p])` returns what
`verify(commitments', x, p)` returns, where `commitments'` has `n^m` entries,
`commitments'[i] = commitments[min(i, N-1)] + g*(-s)`. -/
theorem batchverify_single_meaning (P : Primitives F G) (V : SigmaPlusVerifier F G)
    (y : Nat → F) (commits : List G) (x s : F) (p : SigmaPlusProof F G)
    (hy : y 0 ≠ 0) (hws : well_shaped V p) (hx : x ∉ p.f_)
    (hN1 : 1 ≤ commits.length) (hN : commits.length ≤ V.n ^ V.m)
    (hconv : ∀ i, i < V.n ^ V.m → P.convert_to_nal i V.n V.m = convert_to_nal i V.n V.m) :
    batchverify P V y commits x [s] [p] = verify P V (padded_commits V commits s) x p := by
  have hfs := compute_fs_well_shaped V p x hws.1 hx
  have hF := length_fs_table_well_shaped V p x hws.1
  have hrow := fs_table_rows_well_shaped V p x hws.1
  have hfold := fold_GkQk_eq V x p.Gk_ p.Qk (by rw [hws.2.1]) (by rw [hws.2.2])
  have hplen : (padded_commits V commits s).length = V.n ^ V.m := by simp [padded_commits]
  have hcf : ∀ i, i < (padded_commits V commits s).length →
      compute_f_i V (fs_table V.n p.f_ x V.m) (P.convert_to_nal i V.n V.m) =
        some (coefficient V.n V.m (fs_table V.n p.f_ x V.m)
          (P.convert_to_nal i V.n V.m)) :=
    fun i hi => coefficients_defined P V _ hconv hF i (by omega)
  have hne : ¬ (commits.isEmpty = true) := by
    rw [List.isEmpty_iff]
    intro e
    rw [e] at hN1
    simp at hN1
  have hvloop := verify_coefficient_loop P V (fs_table V.n p.f_ x V.m) _ hcf
  unfold batchverify verify
  simp only [if_neg hne, batch_membership, batch_compute_fs, hfs, hvloop, hfold]
  cases hmc : membership_checks P V p with
  | none => rfl
  | some b =>
    cases b with
    | false => rfl
    | true =>
      cases hab : abcd_checks P V p x (fs_table V.n p.f_ x V.m) with
      | false => simp only [if_true]
      | true =>
        simp only [Bool.true_eq_false, if_false, List.zip_cons_cons, List.zip_nil_right,
          batch_main, batch_t2, hfold]
        cases hh0 : V.h_[0]? with
        | none => simp only [batch_step, hh0]
        | some h0 =>
          cases hh1 : V.h_[1]? with
          | none => simp only [batch_step, hh0, hh1]
          | some h1 =>
            have hstep := batch_round P V y x [s] commits.length 0 p 0 0
              (List.replicate commits.length 0) h0 h1 s hconv hws.1 hN1 hN (by simp) hh0 hh1 rfl
            have hmap : (List.range commits.length).map (fun i =>
                (List.replicate commits.length (0 : F)).getD i 0 +
                  batch_coefficient
                    (fun i => coefficient V.n V.m (fs_table V.n p.f_ x V.m)
                      (P.convert_to_nal i V.n V.m))
                    (Finset.sum (Finset.Ico (commits.length - 1) (V.n ^ V.m))
                      (fun i => coefficient V.n V.m (fs_table V.n p.f_ x V.m)
                        (P.convert_to_nal i V.n V.m))) commits.length i * y 0) =
                ((List.range commits.length).map (batch_coefficient
                    (fun i => coefficient V.n V.m (fs_table V.n p.f_ x V.m)
                      (P.convert_to_nal i V.n V.m))
                    (Finset.sum (Finset.Ico (commits.length - 1) (V.n ^ V.m))
                      (fun i => coefficient V.n V.m (fs_table V.n p.f_ x V.m)
                        (P.convert_to_nal i V.n V.m))) commits.length)).map
                  (fun c => c * y 0) := by
              rw [List.map_map]
              apply List.map_congr_left
              intro i hi
              have hi' : i < commits.length := List.mem_range.mp hi
              simp [List.getD_eq_getElem?_getD, List.getElem?_replicate, hi']
            have hpad := get_multiple_padded V commits s
              (fun i => coefficient V.n V.m (fs_table V.n p.f_ x V.m)
                (P.convert_to_nal i V.n V.m)) hN1 hN
            rw [sum_coefficients_conv P V _ x hconv hrow] at hpad
            simp only [hstep, hmap, get_multiple_map_mul, hplen, hpad, ne_eq,
              single_condition_iff (y 0) s (x ^ V.m) hy]

end SingleMeaning

/-- C18, witness: three commitments with `n = 2`, `m = 2`, serial `1` and weight `2`. -/
theorem batchverify_single_meaning_witness :
    ((2 : ZMod 7) ≠ 0 ∧ [(1 : ZMod 7), 2, 3].length ≤ exV2.n ^ exV2.m) ∧
    batchverify exPrims exV2 (fun _ => 2) [1, 2, 3] 3 [1] [exProof 5 5 1] =
      verify exPrims exV2 (padded_commits exV2 [1, 2, 3] 1) 3 (exProof 5 5 1) :=
  ⟨⟨by decide, by decide⟩,
    batchverify_single_meaning exPrims exV2 (fun _ => 2) [1, 2, 3] 3 1 (exProof 5 5 1)
      (by decide) ⟨by decide, by decide, by decide⟩ (by decide) (by decide) (by decide)
      (fun _ _ => rfl)⟩

/-! ### The loops of `batchverify` over a batch -/

section BatchLoops

variable {F G : Type} [CommRing F] [AddCommGroup G] [Module F G]

theorem zip_map_self {α β : Type} (l : List α) (f : α → β) :
    l.zip (l.map f) = l.map (fun a => (a, f a)) := by
  induction l with
  | nil => rfl
  | cons a t ih => simp [ih]

theorem batch_main_exp (P : Primitives F G) (V : SigmaPlusVerifier F G) (y : Nat → F) (x : F)
    (serials : List F) (N : Nat)
    (hconv : ∀ i, i < V.n ^ V.m → P.convert_to_nal i V.n V.m = convert_to_nal i V.n V.m)
    (hN1 : 1 ≤ N) (hN : N ≤ V.n ^ V.m) (hh : 2 ≤ V.h_.length)
    (L : List (SigmaPlusProof F G)) (t : Nat) (r : G) (ex : F) (acc : List F)
    (hL : ∀ q ∈ L, (q.f_.length : Int) = (V.m : Int) * ((V.n : Int) - 1))
    (hacc : acc.length = N) (hser : t + L.length ≤ serials.length) :
    ∃ r' acc', batch_main P V y x serials
        ((List.range N).map (fun i => P.convert_to_nal i V.n V.m)) N t
        (L.map (fun q => (q, fs_table V.n q.f_ x V.m))) (r, ex, acc) =
      some (r', ex + Finset.sum (Finset.range L.length)
        (fun k => x ^ V.m * (serials.getD (t + k) 0 * y (t + k))), acc') ∧
      acc'.length = N := by
  induction L generalizing t r ex acc with
  | nil => exact ⟨r, acc, by simp [batch_main], hacc⟩
  | cons q qs ih =>
    rw [List.length_cons] at hser
    have hstep := batch_round P V y x serials N t q r ex acc (V.h_.getD 0 0) (V.h_.getD 1 0)
      (serials.getD t 0) hconv (hL q (List.mem_cons_self _ _)) hN1 hN hacc
      (getElem?_eq_some_getD V.h_ 0 0 (by omega)) (getElem?_eq_some_getD V.h_ 1 0 (by omega))
      (getElem?_eq_some_getD serials t 0 (by omega))
    obtain ⟨r', acc', hm, hl⟩ := ih (t + 1)
      (r + y t • P.double_commit V.g_ 0 (V.h_.getD 0 0) q.zV_ (V.h_.getD 1 0) q.zR_)
      (ex + x ^ V.m * (serials.getD t 0 * y t))
      ((List.range N).map (fun i =>
        acc.getD i 0 + batch_coefficient
          (fun i => coefficient V.n V.m (fs_table V.n q.f_ x V.m)
            (P.convert_to_nal i V.n V.m))
          (Finset.sum (Finset.Ico (N - 1) (V.n ^ V.m))
            (fun i => coefficient V.n V.m (fs_table V.n q.f_ x V.m)
              (P.convert_to_nal i V.n V.m))) N i * y t))
      (fun q' hq' => hL q' (List.mem_cons_of_mem _ hq')) (by simp) (by omega)
    refine ⟨r', acc', ?_, hl⟩
    rw [List.map_cons, batch_main, hstep]
    simp only
    rw [hm, List.length_cons, Finset.sum_range_succ']
    congr 3
    rw [Nat.add_zero, add_assoc, add_comm (x ^ V.m * _)]
    congr 2
    apply Finset.sum_congr rfl
    intro k _
    rw [show t + (k + 1) = t + 1 + k by omega]

/-- C15 (serial-binding sum): when `convert_to_nal` returns the digits least-significant first
and `1 ≤ N ≤ n^m`, for a table `f_` of `m` rows of `n` scalars whose rows sum to `x` the running
sum `e_t`, taken before it is multiplied by `serials[t]*y_t`, is the sum over the `N` commitment
indices of the unweighted coefficients accumulated in the round, and equals `x^m`; for a batch
of well-shaped proofs the scalar that is finally applied to `g` is
`Σ_t x^m * serials[t] * y_t`. -/
theorem serial_binding_sum (P : Primitives F G) (V : SigmaPlusVerifier F G) (y : Nat → F)
    (x : F) (serials : List F) (N : Nat)
    (hconv : ∀ i, i < V.n ^ V.m → P.convert_to_nal i V.n V.m = convert_to_nal i V.n V.m)
    (hN1 : 1 ≤ N) (hN : N ≤ V.n ^ V.m) (hh : 2 ≤ V.h_.length) :
    (∀ (f_ acc : List F) (yt : F), f_.length = V.m * V.n →
      (∀ j, j < V.m →
        Finset.sum (Finset.range V.n) (fun d => f_.getD (j * V.n + d) 0) = x) →
      acc.length = N →
      ∃ e f_i_t pow,
        batch_coefficients V yt f_ ((List.range N).map (fun i => P.convert_to_nal i V.n V.m))
          N acc = some (e, f_i_t) ∧
        last_index_pow V x f_ (P.convert_to_nal (N - 1) V.n V.m) = some pow ∧
        e + pow = Finset.sum (Finset.range N)
          (batch_coefficient
            (fun i => coefficient V.n V.m f_ (P.convert_to_nal i V.n V.m)) pow N) ∧
        e + pow = x ^ V.m) ∧
    (∀ proofs : List (SigmaPlusProof F G), (∀ q ∈ proofs, well_shaped V q) →
      proofs.length ≤ serials.length →
      ∃ right f_i_t, batch_main P V y x serials
          ((List.range N).map (fun i => P.convert_to_nal i V.n V.m)) N 0
          (proofs.zip (proofs.map (fun q => fs_table V.n q.f_ x V.m)))
          (0, 0, List.replicate N 0) =
        some (right,
          Finset.sum (Finset.range proofs.length)
            (fun t => x ^ V.m * serials.getD t 0 * y t), f_i_t)) := by
  constructor
  · intro f_ acc yt hF hrow hacc
    have hI : ∀ i, i < N →
        ((List.range N).map (fun i => P.convert_to_nal i V.n V.m))[i]? =
          some (P.convert_to_nal i V.n V.m) := by
      intro i hi
      rw [List.getElem?_map, List.getElem?_range hi]; rfl
    have hloop := batch_coefficients_loop V yt f_
      ((List.range N).map (fun i => P.convert_to_nal i V.n V.m)) acc
      (fun i => coefficient V.n V.m f_ (P.convert_to_nal i V.n V.m)) (N - 1) (by omega)
      (fun i hi => ⟨_, hI i (by omega), coefficients_defined P V f_ hconv hF i (by omega)⟩)
    refine ⟨_, _, _, hloop, last_index_pow_tail_conv P V x f_ N hconv hF hrow hN1 hN, ?_, ?_⟩
    · conv_rhs => rw [show N = N - 1 + 1 by omega, Finset.sum_range_succ]
      have hnlt : ¬ (N - 1 + 1 < N - 1 + 1) := by omega
      simp only [batch_coefficient, if_neg hnlt]
      congr 1
      apply Finset.sum_congr rfl
      intro i hi
      have hlt : i + 1 < N - 1 + 1 := by have := Finset.mem_range.mp hi; omega
      rw [if_pos hlt]
    · rw [sum_range_add_tail _ N _ hN1 hN, sum_coefficients_conv P V f_ x hconv hrow]
  · intro proofs hws hser
    obtain ⟨r', acc', hm, _⟩ := batch_main_exp P V y x serials N hconv hN1 hN hh proofs 0 0 0
      (List.replicate N 0) (fun q hq => (hws q hq).1) (by simp) (by omega)
    refine ⟨r', acc', ?_⟩
    rw [zip_map_self, hm]
    congr 3
    rw [zero_add]
    apply Finset.sum_congr rfl
    intro k _
    rw [Nat.zero_add, mul_assoc]

end BatchLoops

/-- C15, witness: three commitments with `n = 2`, `m = 2` and a batch of two proofs. -/
theorem serial_binding_sum_witness :
    (3 ≤ exV2.n ^ exV2.m) ∧
    ∃ right f_i_t, batch_main exPrims exV2 (fun _ => 2) 3 [1, 4]
        ((List.range 3).map (fun i => exPrims.convert_to_nal i exV2.n exV2.m)) 3 0
        ([exProof 5 5 1, exProof 5 4 1].zip
          ([exProof 5 5 1, exProof 5 4 1].map (fun q => fs_table exV2.n q.f_ 3 exV2.m)))
        (0, 0, List.replicate 3 0) =
      some (right,
        Finset.sum (Finset.range [exProof 5 5 1, exProof 5 4 1].length)
          (fun t => (3 : ZMod 7) ^ exV2.m * ([1, 4] : List (ZMod 7)).getD t 0 *
            (fun _ => 2) t), f_i_t) :=
  ⟨by decide, (serial_binding_sum exPrims exV2 (fun _ => 2) 3 [1, 4] 3 (fun _ _ => rfl)
    (by decide) (by decide) (by decide)).2 [exProof 5 5 1, exProof 5 4 1]
    (by
      intro q hq
      simp only [List.mem_cons, List.mem_singleton, List.not_mem_nil, or_false] at hq
      rcases hq with e | e <;> subst e <;> exact ⟨by decide, by decide, by decide⟩)
    (by decide)⟩

/-! ### Whole batches -/

section WholeBatch

variable {F G : Type} [CommRing F] [AddCommGroup G] [Module F G]

theorem list_eq_map_getD (acc : List F) (N : Nat) (h : acc.length = N) :
    acc = (List.range N).map (fun i => acc.getD i 0) := by
  apply List.ext_getElem?
  intro i
  by_cases hi : i < N
  · rw [List.getElem?_map, List.getElem?_range hi, getElem?_eq_some_getD acc i 0 (by omega)]
    rfl
  · rw [List.getElem?_eq_none (by omega), List.getElem?_eq_none (by simp; omega)]

theorem get_multiple_add_smul (commits : List G) (acc : List F) (c : Nat → F) (yt : F)
    (hacc : acc.length = commits.length) :
    get_multiple commits ((List.range commits.length).map (fun i => acc.getD i 0 + c i * yt)) =
      get_multiple commits acc + yt • get_multiple commits ((List.range commits.length).map c) := by
  conv_rhs => rw [list_eq_map_getD acc commits.length hacc]
  rw [get_multiple_range, get_multiple_range, get_multiple_range, Finset.smul_sum,
    ← Finset.sum_add_distrib]
  apply Finset.sum_congr rfl
  intro i _
  rw [add_smul, smul_smul, mul_comm]

theorem get_multiple_replicate_zero (commits : List G) (N : Nat) :
    get_multiple commits (List.replicate N (0 : F)) = 0 := by
  induction commits generalizing N with
  | nil => simp [get_multiple]
  | cons g gs ih =>
    cases N with
    | zero => simp [get_multiple]
    | succ k =>
      have e := ih k
      simp only [get_multiple] at e
      simp only [get_multiple, List.replicate_succ, List.zipWith_cons_cons, List.sum_cons, e,
        zero_smul, add_zero]

omit [AddCommGroup G] [Module F G] in
theorem batch_membership_all (P : Primitives F G) [DecidableEq F] (V : SigmaPlusVerifier F G)
    (proofs : List (SigmaPlusProof F G))
    (h : ∀ q ∈ proofs, membership_checks P V q = some true) :
    batch_membership P V proofs = some true := by
  induction proofs with
  | nil => rfl
  | cons q qs ih =>
    rw [batch_membership, h q (List.mem_cons_self _ _)]
    exact ih (fun r hr => h r (List.mem_cons_of_mem _ hr))

theorem batch_compute_fs_all (P : Primitives F G) [DecidableEq F] [DecidableEq G]
    (V : SigmaPlusVerifier F G) (x : F) (proofs : List (SigmaPlusProof F G))
    (h : ∀ q ∈ proofs, compute_fs V q x [] = some (true, fs_table V.n q.f_ x V.m) ∧
      abcd_checks P V q x (fs_table V.n q.f_ x V.m) = true) :
    batch_compute_fs P V x proofs =
      some (true, proofs.map (fun q => fs_table V.n q.f_ x V.m)) := by
  induction proofs with
  | nil => rfl
  | cons q qs ih =>
    obtain ⟨h1, h2⟩ := h q (List.mem_cons_self _ _)
    rw [batch_compute_fs, h1]
    simp only [h2, Bool.true_eq_false, if_false,
      ih (fun r hr => h r (List.mem_cons_of_mem _ hr)), List.map_cons]

theorem batch_balance (P : Primitives F G) (V : SigmaPlusVerifier F G) (y : Nat → F) (x : F)
    (serials : List F) (commits : List G)
    (hconv : ∀ i, i < V.n ^ V.m → P.convert_to_nal i V.n V.m = convert_to_nal i V.n V.m)
    (hN1 : 1 ≤ commits.length) (hN : commits.length ≤ V.n ^ V.m) (h0 h1 : G)
    (hh0 : V.h_[0]? = some h0) (hh1 : V.h_[1]? = some h1)
    (L : List (SigmaPlusProof F G)) (t : Nat) (r : G) (ex : F) (acc : List F) (t2 : G)
    (hL : ∀ k q, L[k]? = some q → well_shaped V q ∧
      get_multiple commits ((List.range commits.length).map
          (batch_coefficient
            (fun i => coefficient V.n V.m (fs_table V.n q.f_ x V.m)
              (P.convert_to_nal i V.n V.m))
            (Finset.sum (Finset.Ico (commits.length - 1) (V.n ^ V.m))
              (fun i => coefficient V.n V.m (fs_table V.n q.f_ x V.m)
                (P.convert_to_nal i V.n V.m))) commits.length)) -
          (serials.getD (t + k) 0 * x ^ V.m) • V.g_ +
          Finset.sum (Finset.range V.m)
            (fun k => (-(x ^ k)) • (q.Gk_.getD k 0 + q.Qk.getD k 0)) =
        P.double_commit V.g_ 0 h0 q.zV_ h1 q.zR_)
    (hacc : acc.length = commits.length) (hser : t + L.length ≤ serials.length) :
    ∃ r' ex' acc' t2', batch_main P V y x serials
        ((List.range commits.length).map (fun i => P.convert_to_nal i V.n V.m)) commits.length
        t (L.map (fun q => (q, fs_table V.n q.f_ x V.m))) (r, ex, acc) =
          some (r', ex', acc') ∧
      batch_t2 V y x t L t2 = some t2' ∧
      get_multiple commits acc' + t2' - (r' + ex' • V.g_) =
        get_multiple commits acc + t2 - (r + ex • V.g_) := by
  induction L generalizing t r ex acc t2 with
  | nil => exact ⟨r, ex, acc, t2, by simp [batch_main], by simp [batch_t2], rfl⟩
  | cons q qs ih =>
    rw [List.length_cons] at hser
    obtain ⟨hws, heq⟩ := hL 0 q (by simp)
    have hstep := batch_round P V y x serials commits.length t q r ex acc h0 h1
      (serials.getD t 0) hconv hws.1 hN1 hN hacc hh0 hh1
      (getElem?_eq_some_getD serials t 0 (by omega))
    have hfold := fold_GkQk_eq V x q.Gk_ q.Qk (by rw [hws.2.1]) (by rw [hws.2.2])
    obtain ⟨r', ex', acc', t2', hm, ht, hb⟩ := ih (t + 1)
      (r + y t • P.double_commit V.g_ 0 h0 q.zV_ h1 q.zR_)
      (ex + x ^ V.m * (serials.getD t 0 * y t))
      ((List.range commits.length).map (fun i =>
        acc.getD i 0 + batch_coefficient
          (fun i => coefficient V.n V.m (fs_table V.n q.f_ x V.m)
            (P.convert_to_nal i V.n V.m))
          (Finset.sum (Finset.Ico (commits.length - 1) (V.n ^ V.m))
            (fun i => coefficient V.n V.m (fs_table V.n q.f_ x V.m)
              (P.convert_to_nal i V.n V.m))) commits.length i * y t))
      (t2 + y t • Finset.sum (Finset.range V.m)
        (fun k => (-(x ^ k)) • (q.Gk_.getD k 0 + q.Qk.getD k 0)))
      (fun k q' hq' => by
        have := hL (k + 1) q' (by simpa using hq')
        rw [show t + (k + 1) = t + 1 + k by omega] at this
        exact this)
      (by simp) (by omega)
    refine ⟨r', ex', acc', t2', ?_, ?_, ?_⟩
    · rw [List.map_cons, batch_main, hstep]
      exact hm
    · rw [batch_t2, hfold]
      exact ht
    · rw [hb, get_multiple_add_smul commits acc _ (y t) hacc]
      rw [Nat.add_zero] at heq
      rw [← heq]
      simp only [smul_add, smul_sub, add_smul, smul_smul]
      have e : (x ^ V.m * (serials.getD t 0 * y t)) • V.g_ =
          (y t * (serials.getD t 0 * x ^ V.m)) • V.g_ := by
        congr 1; ring
      rw [e]
      abel

variable [DecidableEq F] [DecidableEq G]

theorem verify_padded_true (P : Primitives F G) (V : SigmaPlusVerifier F G) (commits : List G)
    (x s : F) (q : SigmaPlusProof F G)
    (hconv : ∀ i, i < V.n ^ V.m → P.convert_to_nal i V.n V.m = convert_to_nal i V.n V.m)
    (hN1 : 1 ≤ commits.length) (hN : commits.length ≤ V.n ^ V.m) (hws : well_shaped V q)
    (h : verify P V (padded_commits V commits s) x q = some true) :
    membership_checks P V q = some true ∧
    compute_fs V q x [] = some (true, fs_table V.n q.f_ x V.m) ∧
    abcd_checks P V q x (fs_table V.n q.f_ x V.m) = true ∧
    ∃ h0 h1, V.h_[0]? = some h0 ∧ V.h_[1]? = some h1 ∧
      get_multiple commits ((List.range commits.length).map
          (batch_coefficient
            (fun i => coefficient V.n V.m (fs_table V.n q.f_ x V.m)
              (P.convert_to_nal i V.n V.m))
            (Finset.sum (Finset.Ico (commits.length - 1) (V.n ^ V.m))
              (fun i => coefficient V.n V.m (fs_table V.n q.f_ x V.m)
                (P.convert_to_nal i V.n V.m))) commits.length)) -
          (s * x ^ V.m) • V.g_ +
          Finset.sum (Finset.range V.m)
            (fun k => (-(x ^ k)) • (q.Gk_.getD k 0 + q.Qk.getD k 0)) =
        P.double_commit V.g_ 0 h0 q.zV_ h1 q.zR_ := by
  obtain ⟨hmc, b, f_, hfs', hab, f_i_, hloop, t2, h0, h1, ht2, hh0, hh1, heq⟩ :=
    verify_true_inv P V _ x q h
  have hplen : (padded_commits V commits s).length = V.n ^ V.m := by simp [padded_commits]
  have hx : x ∉ q.f_ := by
    intro hx
    rw [compute_fs_degenerate V q x [] hx] at hfs'
    have hf_ : f_ = [] := (Prod.mk.inj (Option.some.inj hfs')).2.symm
    by_cases hm : V.m = 0
    · have hl := hws.1
      rw [hm] at hl
      have : q.f_.length = 0 := by simpa using hl
      rw [List.length_eq_zero] at this
      rw [this] at hx
      simp at hx
    · obtain ⟨c, hc⟩ : ∃ c, (padded_commits V commits s).length = c + 1 :=
        ⟨V.n ^ V.m - 1, by omega⟩
      rw [hc, forLoop, hf_, verify_coefficient_step,
        compute_f_i_nil V _ (Nat.pos_of_ne_zero hm)] at hloop
      simp at hloop
  have hfs := compute_fs_well_shaped V q x hws.1 hx
  rw [hfs] at hfs'
  obtain ⟨_, hf_⟩ := Prod.mk.inj (Option.some.inj hfs')
  subst hf_
  have hF := length_fs_table_well_shaped V q x hws.1
  have hrow := fs_table_rows_well_shaped V q x hws.1
  rw [verify_coefficient_loop P V _ _
    (fun i hi => coefficients_defined P V _ hconv hF i (by omega)), hplen] at hloop
  rw [fold_GkQk_eq V x q.Gk_ q.Qk (by rw [hws.2.1]) (by rw [hws.2.2])] at ht2
  rw [← Option.some.inj hloop, ← Option.some.inj ht2,
    get_multiple_padded V commits s _ hN1 hN, sum_coefficients_conv P V _ x hconv hrow] at heq
  exact ⟨hmc, hfs, hab, h0, h1, hh0, hh1, heq⟩

/-- C19 (batch completeness): when `convert_to_nal` returns the digits least-significant
first, for a commitment list of length `N`, `1 ≤ N ≤ n^m`, and a batch of well-shaped proofs
with serials `s_t`, if for every `t` the single-proof `verify(commitments'_t, x, p_t)` returns
true, `commitments'_t` being the list padded to `n^m` entries with its last element and shifted
by `g*(-s_t)`, then `batchverify(commitments, x, serials, proofs)` returns true for every
choice of the weights `y`, zero or not. -/
theorem batch_completeness (P : Primitives F G) (V : SigmaPlusVerifier F G) (y : Nat → F)
    (commits : List G) (x : F) (serials : List F) (proofs : List (SigmaPlusProof F G))
    (hconv : ∀ i, i < V.n ^ V.m → P.convert_to_nal i V.n V.m = convert_to_nal i V.n V.m)
    (hN1 : 1 ≤ commits.length) (hN : commits.length ≤ V.n ^ V.m)
    (hws : ∀ q ∈ proofs, well_shaped V q) (hser : proofs.length ≤ serials.length)
    (hver : ∀ t q, proofs[t]? = some q →
      verify P V (padded_commits V commits (serials.getD t 0)) x q = some true) :
    batchverify P V y commits x serials proofs = some true := by
  have hne : ¬ (commits.isEmpty = true) := by
    rw [List.isEmpty_iff]
    intro e
    rw [e] at hN1
    simp at hN1
  have hall : ∀ t q, proofs[t]? = some q → _ := fun t q hq =>
    verify_padded_true P V commits x (serials.getD t 0) q hconv hN1 hN
      (hws q (List.getElem?_mem hq)) (hver t q hq)
  have hmem : ∀ q ∈ proofs, ∃ t, proofs[t]? = some q :=
    fun q hq => List.mem_iff_getElem?.mp hq
  have hbm := batch_membership_all P V proofs (fun q hq => by
    obtain ⟨t, ht⟩ := hmem q hq
    exact (hall t q ht).1)
  have hbc := batch_compute_fs_all P V x proofs (fun q hq => by
    obtain ⟨t, ht⟩ := hmem q hq
    exact ⟨(hall t q ht).2.1, (hall t q ht).2.2.1⟩)
  have hfinal : ∀ (r' : G) (ex' : F) (acc' : List F) (t2' : G),
      get_multiple commits acc' + t2' - (r' + ex' • V.g_) =
        get_multiple commits (List.replicate commits.length (0 : F)) + 0 - (0 + (0 : F) • V.g_) →
      (if get_multiple commits acc' + t2' ≠ r' + ex' • V.g_ then some false else some true) =
        some true := by
    intro r' ex' acc' t2' hb
    simp only [get_multiple_replicate_zero, zero_smul, add_zero, sub_zero, sub_eq_zero] at hb
    rw [hb]
    simp
  cases hp : proofs with
  | nil =>
    unfold batchverify
    simp only [if_neg hne, batch_membership, batch_compute_fs, List.zip_nil_right, batch_main,
      batch_t2]
    exact hfinal _ _ _ _ rfl
  | cons q0 qs =>
    obtain ⟨_, _, _, h0, h1, hh0, hh1, _⟩ := hall 0 q0 (by rw [hp]; simp)
    obtain ⟨r', ex', acc', t2', hm, ht, hb⟩ := batch_balance P V y x serials commits hconv hN1
      hN h0 h1 hh0 hh1 proofs 0 0 0 (List.replicate commits.length 0) 0
      (fun k q hq => by
        obtain ⟨_, _, _, h0', h1', hh0', hh1', heq⟩ := hall k q hq
        rw [hh0] at hh0'
        rw [hh1] at hh1'
        rw [Option.some.inj hh0', Option.some.inj hh1', Nat.zero_add]
        exact ⟨hws q (List.getElem?_mem hq), heq⟩)
      (by simp) (by omega)
    rw [← hp]
    unfold batchverify
    simp only [if_neg hne, hbm, hbc]
    rw [zip_map_self, hm]
    simp only
    rw [ht]
    exact hfinal _ _ _ _ hb

end WholeBatch

/-- C19, witness: three commitments with `n = 2`, `m = 2`, serials `1` and `4`, weights `2` and
`5`. -/
theorem batch_completeness_witness :
    (verify exPrims exV2 (padded_commits exV2 [1, 2, 3] 1) 3 (exProof 5 5 1) = some true ∧
      verify exPrims exV2 (padded_commits exV2 [1, 2, 3] 4) 3 (exProof 5 2 1) = some true) ∧
    batchverify exPrims exV2 (fun t => if t = 0 then 2 else 5) [1, 2, 3] 3 [1, 4]
      [exProof 5 5 1, exProof 5 2 1] = some true :=
  ⟨by decide,
    batch_completeness exPrims exV2 (fun t => if t = 0 then 2 else 5) [1, 2, 3] 3 [1, 4]
      [exProof 5 5 1, exProof 5 2 1] (fun _ _ => rfl) (by decide) (by decide)
      (by
        intro q hq
        simp only [List.mem_cons, List.mem_singleton, List.not_mem_nil, or_false] at hq
        rcases hq with e | e <;> subst e <;> exact ⟨by decide, by decide, by decide⟩)
      (by decide)
      (by
        intro t q hq
        match t, hq with
        | 0, hq =>
          have e : q = exProof 5 5 1 := by simpa using hq.symm
          subst e
          decide
        | 1, hq =>
          have e : q = exProof 5 2 1 := by simpa using hq.symm
          subst e
          decide
        | t + 2, hq => simp at hq)⟩

/-! ### Zero weights -/

section ZeroWeights

variable {F G : Type} [CommRing F] [AddCommGroup G] [Module F G] [DecidableEq F]

omit [AddCommGroup G] [Module F G] in
theorem compute_fs_true_table (V : SigmaPlusVerifier F G) (p : SigmaPlusProof F G) (x : F)
    (f_ : List F) (hpos : V.m ≠ 0 → 1 ≤ V.n) (h : compute_fs V p x [] = some (true, f_)) :
    f_.length = V.m * V.n := by
  have hx : x ∉ p.f_ := by
    intro hx
    rw [compute_fs_degenerate V p x [] hx] at h
    simp at h
  have hx' : ∀ a ∈ p.f_, a ≠ x := fun a ha e => hx (e ▸ ha)
  by_cases hm : V.m = 0
  · have hany : ¬ (p.f_.any (fun a => decide (a = x)) = true) := by
      rw [List.any_eq_true]
      rintro ⟨a, ha, hax⟩
      exact hx' a ha (of_decide_eq_true hax)
    simp only [compute_fs, if_neg hany, hm, forLoop] at h
    have : f_ = [] := (Prod.mk.inj (Option.some.inj h)).2.symm
    rw [this, hm]; simp
  · have hn : 1 ≤ V.n := hpos hm
    have hle := compute_fs_true_len V p x f_ h
    rw [compute_fs_eq V p x hn hle hx'] at h
    rw [← (Prod.mk.inj (Option.some.inj h)).2]
    exact length_fs_table V.n p.f_ x V.m hn hle

omit [DecidableEq F] in
theorem batch_zero (P : Primitives F G) (V : SigmaPlusVerifier F G) (y : Nat → F) (x : F)
    (serials : List F) (N : Nat) (hN1 : 1 ≤ N)
    (hdig : ∀ i, i < N → (P.convert_to_nal i V.n V.m).length = V.m ∧
      ∀ d ∈ P.convert_to_nal i V.n V.m, d < V.n)
    (hh : 2 ≤ V.h_.length)
    (L : List (SigmaPlusProof F G × List F)) (t : Nat) (r : G) (ex : F) (acc : List F) (t2 : G)
    (hL : ∀ pf ∈ L, pf.2.length = V.m * V.n ∧ V.m ≤ pf.1.Gk_.length ∧ V.m ≤ pf.1.Qk.length)
    (hacc : acc.length = N) (hser : t + L.length ≤ serials.length)
    (hy : ∀ k, k < L.length → y (t + k) = 0) :
    batch_main P V y x serials ((List.range N).map (fun i => P.convert_to_nal i V.n V.m)) N t L
        (r, ex, acc) = some (r, ex, acc) ∧
      batch_t2 V y x t (L.map Prod.fst) t2 = some t2 := by
  induction L generalizing t with
  | nil => exact ⟨rfl, rfl⟩
  | cons pf rest ih =>
    obtain ⟨q, f_⟩ := pf
    rw [List.length_cons] at hser hy
    obtain ⟨hF, hg, hq⟩ := hL (q, f_) (List.mem_cons_self _ _)
    simp only at hF hg hq
    have hyt : y t = 0 := by
      have := hy 0 (by omega)
      rwa [Nat.add_zero] at this
    have hgetD : ∀ i, i < N → ∀ j, j < V.m →
        (P.convert_to_nal i V.n V.m).getD j 0 < V.n := by
      intro i hi j hj
      obtain ⟨hl, hd⟩ := hdig i hi
      have hjl : j < (P.convert_to_nal i V.n V.m).length := by omega
      apply hd
      rw [List.getD_eq_getElem?_getD, List.getElem?_eq_getElem hjl]
      exact List.getElem_mem hjl
    have hcf : ∀ i, i < N → compute_f_i V f_ (P.convert_to_nal i V.n V.m) =
        some (coefficient V.n V.m f_ (P.convert_to_nal i V.n V.m)) := by
      intro i hi
      apply compute_f_i_eq V f_ _ (by rw [(hdig i hi).1])
      intro j hj
      rw [hF]
      exact mul_add_lt_mul V.n V.m j _ hj (hgetD i hi j hj)
    have hpow := last_index_pow_eq V x f_ (P.convert_to_nal (N - 1) V.n V.m)
      (by rw [(hdig (N - 1) (by omega)).1]) (hgetD (N - 1) (by omega)) hF
    have hstep := batch_step_eq P V y x serials N t q f_ r ex acc (V.h_.getD 0 0)
      (V.h_.getD 1 0) (serials.getD t 0) _ hN1 hacc
      (getElem?_eq_some_getD V.h_ 0 0 (by omega)) (getElem?_eq_some_getD V.h_ 1 0 (by omega))
      (getElem?_eq_some_getD serials t 0 (by omega)) hcf hpow
    have hfold := fold_GkQk_eq V x q.Gk_ q.Qk hg hq
    obtain ⟨hm, ht⟩ := ih (t + 1) (fun pf hpf => hL pf (List.mem_cons_of_mem _ hpf)) (by omega)
      (fun k hk => by
        have := hy (k + 1) (by omega)
        rwa [show t + (k + 1) = t + 1 + k by omega] at this)
    constructor
    · rw [batch_main, hstep]
      simp only [hyt, zero_smul, mul_zero, add_zero, ← list_eq_map_getD acc N hacc]
      exact hm
    · rw [List.map_cons, batch_t2, hfold]
      simp only [hyt, zero_smul, add_zero]
      exact ht

variable [DecidableEq G]

/-- C20 (zero weights void the check): `batchverify` makes no test on the weights it draws: if
every weight `y_t` is the zero scalar, then for every non-empty commitment list (with
`convert_to_nal` returning `m` digits below `n` for each of its indices, two `h` generators
and a serial for every proof) `batchverify` returns true for every batch whose proofs each pass
`membership_checks`, the `f != x` test of `compute_fs` and `abcd_checks`, whether or not any
proof satisfies the main equation. -/
theorem batchverify_zero_weights (P : Primitives F G) (V : SigmaPlusVerifier F G)
    (y : Nat → F) (commits : List G) (x : F) (serials : List F)
    (proofs : List (SigmaPlusProof F G))
    (hne : commits ≠ [])
    (hdig : ∀ i, i < commits.length → (P.convert_to_nal i V.n V.m).length = V.m ∧
      ∀ d ∈ P.convert_to_nal i V.n V.m, d < V.n)
    (hh : 2 ≤ V.h_.length) (hser : proofs.length ≤ serials.length)
    (hpass : ∀ q ∈ proofs, membership_checks P V q = some true ∧
      ∃ f_, compute_fs V q x [] = some (true, f_) ∧ abcd_checks P V q x f_ = true)
    (hy : ∀ t, t < proofs.length → y t = 0) :
    batchverify P V y commits x serials proofs = some true := by
  have hN1 : 1 ≤ commits.length := List.length_pos.mpr hne
  have hnE : ¬ (commits.isEmpty = true) := by
    rw [List.isEmpty_iff]; exact hne
  have hn : V.m ≠ 0 → 1 ≤ V.n := by
    intro hm
    obtain ⟨hl, hd⟩ := hdig 0 hN1
    have h0 : 0 < (P.convert_to_nal 0 V.n V.m).length := by omega
    have := hd _ (List.getElem_mem h0)
    omega
  have hbm := batch_membership_all P V proofs (fun q hq => (hpass q hq).1)
  -- the tables the second loop collects
  have hbc : ∃ tabs, batch_compute_fs P V x proofs = some (true, tabs) ∧
      tabs.length = proofs.length ∧
      ∀ pf ∈ proofs.zip tabs, pf.2.length = V.m * V.n ∧ V.m ≤ pf.1.Gk_.length ∧
        V.m ≤ pf.1.Qk.length := by
    clear hbm hser hy
    induction proofs with
    | nil => exact ⟨[], rfl, rfl, by simp⟩
    | cons q qs ih =>
      obtain ⟨hmc, f_, hfs, hab⟩ := hpass q (List.mem_cons_self _ _)
      obtain ⟨tabs, ht, hl, hall⟩ := ih (fun r hr => hpass r (List.mem_cons_of_mem _ hr))
      refine ⟨f_ :: tabs, ?_, by simp [hl], ?_⟩
      · rw [batch_compute_fs, hfs]
        simp only [hab, Bool.true_eq_false, if_false, ht]
      · intro pf hpf
        rw [List.zip_cons_cons, List.mem_cons] at hpf
        rcases hpf with e | hin
        · subst e
          refine ⟨compute_fs_true_table V q x f_ hn hfs, ?_⟩
          have hgk := (membership_checks_true_inv P V q hmc).1
          by_cases hm : V.m = 0
          · simp [hm]
          · have := membership_GkQk_true_len P q.Gk_ q.Qk 0 V.m hgk (by omega)
            simp only
            omega
        · exact hall pf hin
  obtain ⟨tabs, hbc, hlen, hall⟩ := hbc
  have hzl : (proofs.zip tabs).length = proofs.length := by
    rw [List.length_zip, hlen, Nat.min_self]
  have hfst : (proofs.zip tabs).map Prod.fst = proofs := by
    rw [List.map_fst_zip]
    omega
  obtain ⟨hm, ht⟩ := batch_zero P V y x serials commits.length hN1 hdig hh
    (proofs.zip tabs) 0 0 0 (List.replicate commits.length 0) 0 hall (by simp)
    (by rw [hzl]; omega) (fun k hk => by rw [Nat.zero_add]; exact hy k (by rw [← hzl]; exact hk))
  rw [hfst] at ht
  unfold batchverify
  simp only [if_neg hnE, hbm, hbc, hm, ht, get_multiple_replicate_zero, zero_smul, add_zero,
    ne_eq, not_true_eq_false, if_false]

end ZeroWeights

/-- C20, witness: with both weights zero the batch is accepted although `verify` rejects its
second proof. -/
theorem batchverify_zero_weights_witness :
    verify exPrims exV2 [1, 2, 3] 3 (exProof 5 1 1) = some false ∧
    batchverify exPrims exV2 (fun _ => 0) [1, 2, 3] 3 [1, 4]
      [exProof 5 5 1, exProof 5 1 1] = some true :=
  ⟨by decide,
    batchverify_zero_weights exPrims exV2 (fun _ => 0) [1, 2, 3] 3 [1, 4]
      [exProof 5 5 1, exProof 5 1 1] (by simp) (by decide) (by decide) (by decide)
      (by
        intro q hq
        simp only [List.mem_cons, List.mem_singleton, List.not_mem_nil, or_false] at hq
        rcases hq with e | e <;> subst e <;>
          exact ⟨by decide, [1, 2, 5, 5], by decide, by decide⟩)
      (fun _ _ => rfl)⟩

/-! ### Empty batch and in-bounds indexing -/

section Bounds

variable {F G : Type} [CommRing F] [DecidableEq F] [AddCommGroup G] [Module F G] [DecidableEq G]

/-- C21 (empty batch): for every non-empty commitment list and every challenge, `batchverify`
with an empty proof list returns true (whatever the serial list, the empty one included): the
aggregated coefficients are all zero, so both sides of the final comparison are the group
identity. -/
theorem batchverify_empty_batch (P : Primitives F G) (V : SigmaPlusVerifier F G) (y : Nat → F)
    (commits : List G) (x : F) (serials : List F) (hne : commits ≠ []) :
    batchverify P V y commits x serials [] = some true ∧
      get_multiple commits (List.replicate commits.length (0 : F)) + 0 = (0 : G) ∧
      (0 : G) + (0 : F) • V.g_ = 0 := by
  have hnE : ¬ (commits.isEmpty = true) := by
    rw [List.isEmpty_iff]; exact hne
  refine ⟨?_, by rw [get_multiple_replicate_zero, add_zero], by rw [zero_smul, add_zero]⟩
  unfold batchverify
  simp only [if_neg hnE, batch_membership, batch_compute_fs, List.zip_nil_left, batch_main,
    batch_t2, get_multiple_replicate_zero, zero_smul, add_zero, ne_eq, not_true_eq_false,
    if_false]

/-- C22 (in-bounds indexing under the shape invariants): for `m ≥ 1`, a verifier with at least
two `h` generators, a commitment list of length `N`, `1 ≤ N ≤ n^m`, and a well-shaped proof
(`len(f) = m*(n-1)`, which with `m ≥ 1` gives `n ≥ 1`, and `len(Gk) = len(Qk) = m`), when
`convert_to_nal` returns `m` digits below `n` for every index below `n^m`: if no component of
`f` equals `x`, every read made by `verify` is within bounds, so `verify` returns a verdict;
if some component of `f` equals `x`, `compute_fs` leaves the table empty, the read
`F[j*n + digit_j(0)]` of the first coefficient is out of bounds, and `verify` makes it as soon
as `membership_checks` and `abcd_checks` let it through. -/
theorem verify_in_bounds (P : Primitives F G) (V : SigmaPlusVerifier F G)
    (commits : List G) (x : F) (p : SigmaPlusProof F G)
    (hm : 1 ≤ V.m) (hh : 2 ≤ V.h_.length)
    (hN1 : 1 ≤ commits.length) (hN : commits.length ≤ V.n ^ V.m)
    (hws : well_shaped V p)
    (hdig : ∀ i, i < V.n ^ V.m → (P.convert_to_nal i V.n V.m).length = V.m ∧
      ∀ d ∈ P.convert_to_nal i V.n V.m, d < V.n) :
    (x ∉ p.f_ → ∃ b, verify P V commits x p = some b) ∧
    (x ∈ p.f_ →
      compute_fs V p x [] = some (false, []) ∧
      compute_f_i V ([] : List F) (P.convert_to_nal 0 V.n V.m) = none ∧
      (membership_checks P V p = some true → abcd_checks P V p x [] = true →
        verify P V commits x p = none)) := by
  constructor
  · intro hx
    obtain ⟨b, hb⟩ := membership_checks_defined P V p (by rw [hws.2.1]) (by rw [hws.2.2])
    have hfs := compute_fs_well_shaped V p x hws.1 hx
    cases b with
    | false => exact ⟨false, by unfold verify; rw [hb]⟩
    | true =>
      by_cases hab : abcd_checks P V p x (fs_table V.n p.f_ x V.m) = true
      · have htab := length_fs_table_well_shaped V p x hws.1
        have hcf : ∀ i, i < commits.length →
            compute_f_i V (fs_table V.n p.f_ x V.m) (P.convert_to_nal i V.n V.m) =
              some (coefficient V.n V.m (fs_table V.n p.f_ x V.m)
                (P.convert_to_nal i V.n V.m)) := by
          intro i hi
          obtain ⟨hl, hd⟩ := hdig i (by omega)
          apply compute_f_i_eq V _ _ (by omega)
          intro j hj
          rw [htab]
          apply mul_add_lt_mul V.n V.m j _ hj
          apply hd
          rw [List.getD_eq_getElem?_getD, List.getElem?_eq_getElem (by omega)]
          exact List.getElem_mem _
        rw [verify_eval P V commits x p _ true _ (V.h_.getD 0 0) (V.h_.getD 1 0) hb hfs hab hcf
          (fold_GkQk_eq V x p.Gk_ p.Qk (by rw [hws.2.1]) (by rw [hws.2.2]))
          (getElem?_eq_some_getD V.h_ 0 0 (by omega)) (getElem?_eq_some_getD V.h_ 1 0 (by omega))]
        split
        · exact ⟨true, rfl⟩
        · exact ⟨false, rfl⟩
      · refine ⟨false, ?_⟩
        have hab' : abcd_checks P V p x (fs_table V.n p.f_ x V.m) = false := by
          cases h : abcd_checks P V p x (fs_table V.n p.f_ x V.m) with
          | false => rfl
          | true => exact absurd h hab
        unfold verify
        simp only [hb, hfs, hab', if_true]
  · intro hx
    have hfs := compute_fs_degenerate V p x [] hx
    have hnil := compute_f_i_nil V (P.convert_to_nal 0 V.n V.m) (by omega)
    refine ⟨hfs, hnil, ?_⟩
    intro hmc hab
    obtain ⟨c, hc⟩ : ∃ c, commits.length = c + 1 := ⟨commits.length - 1, by omega⟩
    unfold verify
    simp only [hmc, hfs, hab, Bool.true_eq_false, if_false, hc, forLoop,
      verify_coefficient_step, hnil, Option.none_bind]

end Bounds

/-- C21, witness: three commitments and no proof. -/
theorem batchverify_empty_batch_witness :
    batchverify exPrims exV2 (fun _ => 2) [1, 2, 3] 3 [] [] = some true :=
  (batchverify_empty_batch exPrims exV2 (fun _ => 2) [1, 2, 3] 3 [] (by simp)).1

/-- C22, witness: against three commitments (`n = 2`, `m = 2`) the proof `exProof 5 4 1` gets a
verdict, and the same proof with `f = (3, 5)` at the challenge `3` makes `verify` read the empty
table. -/
theorem verify_in_bounds_witness :
    (∃ b, verify exPrims exV2 [1, 2, 3] 3 (exProof 5 4 1) = some b) ∧
    verify exPrims exV2 [1, 2, 3] 3 { exProof 5 4 1 with f_ := [3, 5], D_ := 1 } = none :=
  ⟨(verify_in_bounds exPrims exV2 [1, 2, 3] 3 (exProof 5 4 1) (by decide) (by decide)
      (by decide) (by decide) ⟨by decide, by decide, by decide⟩ (by decide)).1 (by decide),
   ((verify_in_bounds exPrims exV2 [1, 2, 3] 3 { exProof 5 4 1 with f_ := [3, 5], D_ := 1 }
      (by decide) (by decide) (by decide) (by decide) ⟨by decide, by decide, by decide⟩
      (by decide)).2 (by decide)).2.2 (by decide) (by decide)⟩

end Lelantus

namespace Exodus

/-! ## Theorems on `GetSpendableSigmaMint` -/

section Spendable

variable {Key : Type}

theorem older_iff (a b : HDMint Key) :
    older a b = true ↔
      (a.chainState.group < b.chainState.group ∨
        (a.chainState.group = b.chainState.group ∧
          a.chainState.index < b.chainState.index)) := by
  unfold older
  split
  · rename_i h
    simp only [decide_eq_true_eq]
    omega
  · rename_i h
    simp only [decide_eq_true_eq]
    omega

theorem older_irrefl (a : HDMint Key) : older a a = false := by
  have h := older_iff a a
  cases hc : older a a with
  | false => rfl
  | true =>
    have := h.mp hc
    omega

theorem mem_remove_if {α : Type} (pred : α → Bool) (xs : List α) (a : α) :
    a ∈ remove_if pred xs ↔ a ∈ xs ∧ pred a = false := by
  simp [remove_if]

theorem min_element_loop_spec (s : HDMint Key) (rest : List (HDMint Key)) :
    min_element_loop older s rest ∈ s :: rest ∧
      ∀ a ∈ s :: rest, older a (min_element_loop older s rest) = false := by
  induction rest generalizing s with
  | nil =>
    refine ⟨List.mem_singleton.mpr rfl, ?_⟩
    intro a ha
    rw [List.mem_singleton] at ha
    subst ha
    rw [min_element_loop]
    exact older_irrefl a
  | cons b rest ih =>
    rw [min_element_loop]
    obtain ⟨hmem, hmin⟩ := ih (if older b s = true then b else s)
    constructor
    · rcases List.mem_cons.mp hmem with e | hr
      · rw [e]
        split
        · exact List.mem_cons_of_mem _ (List.mem_cons_self _ _)
        · exact List.mem_cons_self _ _
      · exact List.mem_cons_of_mem _ (List.mem_cons_of_mem _ hr)
    · intro a ha
      have hs := hmin _ (List.mem_cons_self _ _)
      have key : ∀ c : HDMint Key, older c (if older b s = true then b else s) = false →
          older c (min_element_loop older (if older b s = true then b else s) rest) = false := by
        intro c hc
        have h1 := older_iff c (if older b s = true then b else s)
        have h2 := older_iff (if older b s = true then b else s)
          (min_element_loop older (if older b s = true then b else s) rest)
        have h3 := older_iff c (min_element_loop older (if older b s = true then b else s) rest)
        rw [hc] at h1
        rw [hs] at h2
        cases h : older c (min_element_loop older (if older b s = true then b else s) rest) with
        | false => rfl
        | true =>
          rw [h] at h3
          simp only [Bool.false_eq_true, false_iff, true_iff] at h1 h2 h3
          omega
      rcases List.mem_cons.mp ha with e | ha
      · subst e
        apply key
        have h0 := older_iff a b
        have h1 := older_iff b a
        by_cases hb : older b a = true
        · rw [if_pos hb]
          cases h : older a b with
          | false => rfl
          | true =>
            have := h0.mp h
            have := h1.mp hb
            omega
        · rw [if_neg hb]
          exact older_irrefl a
      · rcases List.mem_cons.mp ha with e | ha
        · subst e
          apply key
          by_cases hb : older a s = true
          · rw [if_pos hb]
            exact older_irrefl a
          · rw [if_neg hb]
            cases h : older a s with
            | false => rfl
            | true => exact absurd h hb
        · exact hmin a (List.mem_cons_of_mem _ ha)

theorem min_element_spec (xs : List (HDMint Key)) (r : HDMint Key)
    (h : min_element older xs = some r) : r ∈ xs ∧ ∀ a ∈ xs, older a r = false := by
  cases xs with
  | nil => simp [min_element] at h
  | cons a rest =>
    simp only [min_element, Option.some.injEq] at h
    subst h
    exact min_element_loop_spec a rest

theorem GetSpendableSigmaMint_eq (L : List (HDMint Key)) (property denomination : Nat) :
    GetSpendableSigmaMint L property denomination =
      min_element older (remove_if (wrong_denomination denomination) L) := by
  unfold GetSpendableSigmaMint
  simp only
  split
  · rename_i h
    rw [List.isEmpty_iff] at h
    rw [h]; rfl
  · rfl

theorem wrong_denomination_false (denomination : Nat) (mint : HDMint Key) :
    wrong_denomination denomination mint = false ↔ mint.id.denomination = denomination := by
  unfold wrong_denomination
  simp only [ne_eq, decide_not, Bool.not_eq_false', decide_eq_true_eq]
  exact eq_comm

/-- C23 (oldest spendable mint): for every list `L` returned by `ListHDMints` and every
denomination `d`, `GetSpendableSigmaMint(property, d)` returns none if and only if no mint in
`L` has `id.denomination = d`; a mint `r` it returns is a mint of `L` with
`r.id.denomination = d` such that no mint of `L` with denomination `d` has a lexicographically
smaller pair `(chainState.group, chainState.index)` than `r`. -/
theorem GetSpendableSigmaMint_oldest (L : List (HDMint Key)) (property d : Nat) :
    (GetSpendableSigmaMint L property d = none ↔ ∀ mint ∈ L, mint.id.denomination ≠ d) ∧
    ∀ r, GetSpendableSigmaMint L property d = some r →
      r ∈ L ∧ r.id.denomination = d ∧
      ∀ mint ∈ L, mint.id.denomination = d →
        ¬ (mint.chainState.group < r.chainState.group ∨
          (mint.chainState.group = r.chainState.group ∧
            mint.chainState.index < r.chainState.index)) := by
  rw [GetSpendableSigmaMint_eq]
  constructor
  · constructor
    · intro h mint hmint hd
      have hm : mint ∈ remove_if (wrong_denomination d) L :=
        (mem_remove_if _ _ _).mpr ⟨hmint, (wrong_denomination_false d mint).mpr hd⟩
      cases hl : remove_if (wrong_denomination d) L with
      | nil => rw [hl] at hm; simp at hm
      | cons a rest => rw [hl] at h; simp [min_element] at h
    · intro h
      have hl : remove_if (wrong_denomination d) L = [] := by
        rw [List.eq_nil_iff_forall_not_mem]
        intro a ha
        obtain ⟨haL, hp⟩ := (mem_remove_if _ _ _).mp ha
        exact h a haL ((wrong_denomination_false d a).mp hp)
      rw [hl]; rfl
  · intro r hr
    obtain ⟨hmem, hmin⟩ := min_element_spec _ r hr
    obtain ⟨hrL, hp⟩ := (mem_remove_if _ _ _).mp hmem
    refine ⟨hrL, (wrong_denomination_false d r).mp hp, ?_⟩
    intro mint hmint hd hlt
    have hm : mint ∈ remove_if (wrong_denomination d) L :=
      (mem_remove_if _ _ _).mpr ⟨hmint, (wrong_denomination_false d mint).mpr hd⟩
    have := hmin mint hm
    rw [(older_iff mint r).mpr hlt] at this
    exact Bool.noConfusion this

end Spendable

/-- C24 (property match of the selected mint), as the code has it: `GetSpendableSigmaMint`
never reads its argument `property`, so its result is the same for every requested property;
from the list holding one mint of property `2` and denomination `0`, the request for property
`1` and denomination `0` returns that mint, whose property is `2`. -/
theorem GetSpendableSigmaMint_ignores_property :
    (∀ (Key : Type) (L : List (HDMint Key)) (property property' denomination : Nat),
      GetSpendableSigmaMint L property denomination =
        GetSpendableSigmaMint L property' denomination) ∧
    (GetSpendableSigmaMint [exMint 2 0 0 0 0] 1 0).map (fun r => r.id.property) = some 2 :=
  ⟨fun _ _ _ _ _ => rfl, by decide⟩

end Exodus
